import Mathlib

/-!
# 8-puzzle solver: board state, solvability, iterative-deepening DFS and A*

A shallow embedding of `main.cpp`.  A board is the `array<int, 9>` of tiles
(here a `List Int`) together with the cached index of the blank.  C++ `int`
values are modelled by `Int`; every quantity that occurs (tile values, indices,
inversion counts, path costs) stays far below `2^31`, so no wrap-around is
modelled, with one exception: the counter `depthLim` of `solveBacktracking`
reaches the end of `int` when the ceiling is `INT_MAX`, and
`solveBacktrackingInt` models that.  Integer division and remainder are the
truncating `Int.tdiv` and `Int.tmod`, as in C++.
-/

set_option autoImplicit false

namespace Puzzle

/-! ## Board state -/

/-- The struct `PuzzleState`: the nine tiles and the cached blank index. -/
structure PuzzleState where
  tiles : List Int
  blankIdx : Int
deriving DecidableEq

/-- The constructor `PuzzleState(const array<int, 9>& t)`:
`blankIdx = find(tiles.begin(), tiles.end(), 0) - tiles.begin()`. -/
def PuzzleState.ofTiles (t : List Int) : PuzzleState :=
  { tiles := t, blankIdx := ((t.indexOf 0 : Nat) : Int) }

/-- The static array `goal` of `isGoal`. -/
def goal : List Int := [1, 2, 3, 4, 5, 6, 7, 8, 0]

/-- The method `isGoal`: `tiles == goal`. -/
def PuzzleState.isGoal (s : PuzzleState) : Bool :=
  decide (s.tiles = goal)

/-- The static array `moves` of `neighbors`: left, right, up, down as `(dr, dc)`. -/
def moves : List (Int × Int) := [(0, -1), (0, 1), (-1, 0), (1, 0)]

/-- Read `t[i]` for an `int` index (0 when the index is outside the list). -/
def tileAt (t : List Int) (i : Int) : Int :=
  t.getD i.toNat 0

/-- The call `swap(t[i], t[j])` on a copy of the tile array. -/
def swapAt (t : List Int) (i j : Int) : List Int :=
  (t.set i.toNat (tileAt t j)).set j.toNat (tileAt t i)

/-- One iteration of the loop of `neighbors`: the target index `nIdx` of the
move `mv`, or `none` when the move leaves the grid (`continue`). -/
def moveIdx (s : PuzzleState) (mv : Int × Int) : Option Int :=
  let r := s.blankIdx.tdiv 3
  let c := s.blankIdx.tmod 3
  let nr := r + mv.1
  let nc := c + mv.2
  if nr < 0 ∨ nr ≥ 3 ∨ nc < 0 ∨ nc ≥ 3 then none else some (nr * 3 + nc)

/-- The board `next` built in the loop body of `neighbors` for target `nIdx`. -/
def moveTo (s : PuzzleState) (nIdx : Int) : PuzzleState :=
  { tiles := swapAt s.tiles s.blankIdx nIdx, blankIdx := nIdx }

/-- The method `neighbors`: the boards pushed, in the order of `moves`. -/
def PuzzleState.neighbors (s : PuzzleState) : List PuzzleState :=
  moves.filterMap fun mv => (moveIdx s mv).map (moveTo s)

/-! ## Solvability check -/

/-- The inner loop of `isSolvable` for a fixed `i`: `j` runs from `i + 1` to 8. -/
def invInner (t : List Int) (i : Nat) (inv : Int) : Int :=
  (List.range' (i + 1) (9 - (i + 1))).foldl
    (fun inv j =>
      if t.getD i 0 ≠ 0 ∧ t.getD j 0 ≠ 0 ∧ t.getD i 0 > t.getD j 0 then inv + 1 else inv)
    inv

/-- The variable `inv` at the end of the two loops of `isSolvable`. -/
def inversions (t : List Int) : Int :=
  (List.range 9).foldl (fun inv i => invInner t i inv) 0

/-- The function `isSolvable`: `inv % 2 == 0`. -/
def isSolvable (s : PuzzleState) : Bool :=
  decide ((inversions s.tiles).tmod 2 = 0)

/-! ## Manhattan heuristic -/

/-- The term added to `d` for index `idx` holding `val` in `manhattan`. -/
def tileDist (idx : Nat) (val : Int) : Int :=
  if val = 0 then 0
  else
    let goalIdx := val - 1
    |(idx : Int).tdiv 3 - goalIdx.tdiv 3| + |(idx : Int).tmod 3 - goalIdx.tmod 3|

/-- The function `manhattan`. -/
def manhattan (s : PuzzleState) : Int :=
  (List.range 9).foldl (fun d idx => d + tileDist idx (s.tiles.getD idx 0)) 0

/-! ## Board invariant and move chains -/

/-- The board invariant: the tiles are a permutation of 0..8, `blankIdx` lies in
0..8 and is the position of 0. -/
def Valid (s : PuzzleState) : Prop :=
  s.tiles.Perm [0, 1, 2, 3, 4, 5, 6, 7, 8] ∧ 0 ≤ s.blankIdx ∧ s.blankIdx < 9 ∧
    tileAt s.tiles s.blankIdx = 0

instance (s : PuzzleState) : Decidable (Valid s) := by
  unfold Valid; infer_instance

/-- A sequence of boards in which every consecutive pair `(p, q)` is one legal
move: `q` is an element of `p.neighbors()`. -/
def MoveChain : List PuzzleState → Prop
  | [] => True
  | [_] => True
  | p :: q :: l => q ∈ p.neighbors ∧ MoveChain (q :: l)

instance decidableMoveChain : (l : List PuzzleState) → Decidable (MoveChain l)
  | [] => isTrue trivial
  | [_] => isTrue trivial
  | p :: q :: l =>
    match (inferInstance : Decidable (q ∈ p.neighbors)), decidableMoveChain (q :: l) with
    | isTrue h1, isTrue h2 => isTrue ⟨h1, h2⟩
    | isFalse h1, _ => isFalse fun h => h1 h.1
    | _, isFalse h2 => isFalse fun h => h2 h.2

/-- A move chain from `a` to `b`: a non-empty sequence of boards that starts
with `a`, ends with `b` and is linked by legal moves; it has `l.length - 1`
moves. -/
def IsPath (l : List PuzzleState) (a b : PuzzleState) : Prop :=
  l.head? = some a ∧ l.getLast? = some b ∧ MoveChain l

instance (l : List PuzzleState) (a b : PuzzleState) : Decidable (IsPath l a b) :=
  inferInstanceAs (Decidable (_ ∧ _ ∧ _))

/-- Spec-side description of one move for `neighbors`: the board obtained by
swapping the blank with the cell in row `r`, column `c`. -/
def blankSwap (s : PuzzleState) (r c : Int) : PuzzleState :=
  { tiles := (List.range 9).map fun k =>
      if (k : Int) = 3 * r + c then 0
      else if (k : Int) = s.blankIdx then tileAt s.tiles (3 * r + c)
      else tileAt s.tiles k
    blankIdx := 3 * r + c }

/-- Spec-side grid test: the cell `(r, c)` lies inside the 3x3 grid. -/
def inGrid (p : Int × Int) : Bool :=
  decide (0 ≤ p.1 ∧ p.1 < 3 ∧ 0 ≤ p.2 ∧ p.2 < 3)

/-! ## Backtracking (iterative-deepening DFS) solver

The `unordered_set<PuzzleState, PuzzleStateHasher>` compares and hashes boards by
their tiles only, so the set is modelled by the list of tile arrays it holds,
kept free of duplicates. -/

/-- The call `visited.insert(s)`. -/
def visitedInsert (visited : List (List Int)) (s : PuzzleState) : List (List Int) :=
  if s.tiles ∈ visited then visited else s.tiles :: visited

/-- The call `visited.erase(s)`. -/
def visitedErase (visited : List (List Int)) (s : PuzzleState) : List (List Int) :=
  visited.erase s.tiles

/-- The test `visited.count(s)`. -/
def visitedCount (visited : List (List Int)) (s : PuzzleState) : Bool :=
  decide (s.tiles ∈ visited)

/-- What a call of `dfs` leaves behind: its return value and the contents of
the two by-reference parameters `visited` and `path`. -/
structure DfsResult where
  found : Bool
  visited : List (List Int)
  path : List PuzzleState
deriving DecidableEq

/-- The `for` loop of `dfs` over `current.neighbors()`, followed by
`visited.erase(current); return false;`.  The recursive call is `call`. -/
def dfsLoop (call : PuzzleState → List (List Int) → List PuzzleState → Option DfsResult)
    (current : PuzzleState) :
    List PuzzleState → List (List Int) → List PuzzleState → Option DfsResult
  | [], visited, path => some ⟨false, visitedErase visited current, path⟩
  | nxt :: rest, visited, path =>
    if visitedCount visited nxt then dfsLoop call current rest visited path
    else
      match call nxt visited (path ++ [nxt]) with
      | none => none
      | some r =>
        if r.found then some ⟨true, r.visited, r.path⟩
        else dfsLoop call current rest r.visited r.path.dropLast

/-- The function `dfs`.  The first argument bounds the recursion depth of the
model; `none` means that the bound was reached. -/
def dfs : Nat → PuzzleState → List (List Int) → List PuzzleState → Int → Int → Option DfsResult
  | 0, _, _, _, _, _ => none
  | fuel + 1, current, visited, path, depth, depthLimit =>
    if current.isGoal then some ⟨true, visited, path⟩
    else if depth ≥ depthLimit then some ⟨false, visited, path⟩
    else
      dfsLoop (fun nxt v p => dfs fuel nxt v p (depth + 1) depthLimit) current
        current.neighbors (visitedInsert visited current) path

/-- The `for` loop of `solveBacktracking` over the remaining depth limits,
followed by `return {}`. -/
def solveBacktrackingLoop (start : PuzzleState) : List Nat → Option (List PuzzleState)
  | [] => some []
  | depthLim :: rest =>
    match dfs (depthLim + 1) start [] [start] 0 (depthLim : Int) with
    | none => none
    | some r => if r.found then some r.path else solveBacktrackingLoop start rest

/-- The function `solveBacktracking`: `depthLim` runs over `0, 1, ..., maxDepth`
(no value at all when `maxDepth` is negative).  A call of `dfs` at depth 0 with
limit `depthLim` nests at most `depthLim + 1` deep, which is the bound it gets.
The counter is an unbounded integer here, which is the C++ loop for every
ceiling below the largest `int` and whenever a path is returned;
`solveBacktrackingInt` below keeps the `int` counter. -/
def solveBacktracking (start : PuzzleState) (maxDepth : Int) : Option (List PuzzleState) :=
  solveBacktrackingLoop start (List.range (maxDepth + 1).toNat)

/-- The largest value of the type `int`, `2^31 - 1`. -/
def intMax : Int := 2147483647

/-- The `for` loop of `solveBacktracking` with its counter `int depthLim`, from
the test `depthLim <= maxDepth` on; the first argument bounds the number of
tests still to come.  When the test fails the loop ends and the function returns
`{}`.  After a sweep without success at `depthLim = INT_MAX` the increment
`++depthLim` overflows: the program has no defined result there (`none`). -/
def solveBacktrackingIntLoop (start : PuzzleState) (maxDepth : Int) :
    Nat → Int → Option (List PuzzleState)
  | 0, _ => none
  | n + 1, depthLim =>
    if depthLim ≤ maxDepth then
      match dfs (depthLim.toNat + 1) start [] [start] 0 depthLim with
      | none => none
      | some r =>
        if r.found then some r.path
        else if depthLim = intMax then none
        else solveBacktrackingIntLoop start maxDepth n (depthLim + 1)
    else some []

/-- The function `solveBacktracking` with the `int` counter: the loop starts at
`depthLim = 0`; it makes at most `2^31 + 1` tests, which is the bound it gets. -/
def solveBacktrackingInt (start : PuzzleState) (maxDepth : Int) : Option (List PuzzleState) :=
  solveBacktrackingIntLoop start maxDepth 2147483649 0

/-! ## A* solver -/

/-- The struct `Node`; `parent` is the `shared_ptr<Node>` (`none` is `nullptr`). -/
inductive Node where
  | mk (state : PuzzleState) (g h f : Int) (parent : Option Node)

/-- The field `state`. -/
def Node.state : Node → PuzzleState
  | .mk s _ _ _ _ => s

/-- The field `g`. -/
def Node.g : Node → Int
  | .mk _ g _ _ _ => g

/-- The field `h`. -/
def Node.h : Node → Int
  | .mk _ _ h _ _ => h

/-- The field `f`. -/
def Node.f : Node → Int
  | .mk _ _ _ f _ => f

/-- The field `parent`. -/
def Node.parent : Node → Option Node
  | .mk _ _ _ _ p => p

/-- The constructor `Node(s, g_, h_, p)`, which sets `f` to `g_ + h_`. -/
def Node.new (s : PuzzleState) (g h : Int) (p : Option Node) : Node :=
  .mk s g h (g + h) p

/-- The reconstruction loop of `solveAStar`:
`for (n = node; n != nullptr; n = n->parent) path.push_back(n->state)`. -/
def Node.chain : Node → List PuzzleState
  | .mk s _ _ _ none => [s]
  | .mk s _ _ _ (some p) => s :: p.chain

/-- The `std::priority_queue<shared_ptr<Node>, ..., NodeCmp>` seen through its
interface.  Which of several nodes of least `f` is on top is left to the
implementation, so the solver is modelled over any implementation: `Q` is the
queue's internal state, `pop` combines `top()` and `pop()` and yields `none` on
an empty queue, and `toList` lists the nodes held. -/
structure PriorityQueue where
  Q : Type
  empty : Q
  push : Q → Node → Q
  pop : Q → Option (Node × Q)
  toList : Q → List Node

/-- The contract of the priority queue with `NodeCmp` (`a->f > b->f`, a
min-heap on `f`): `pop` removes one node of least `f`. -/
structure PriorityQueue.Lawful (pq : PriorityQueue) : Prop where
  toList_empty : pq.toList pq.empty = []
  toList_push : ∀ q n, (pq.toList (pq.push q n)).Perm (n :: pq.toList q)
  pop_none : ∀ q, pq.pop q = none ↔ pq.toList q = []
  pop_some : ∀ q n q', pq.pop q = some (n, q') →
    (pq.toList q).Perm (n :: pq.toList q') ∧ ∀ m ∈ pq.toList q, n.f ≤ m.f

/-- The `unordered_map<PuzzleState, int, PuzzleStateHasher> bestG`, keyed by the
tiles (boards are compared and hashed by their tiles only). -/
abbrev BestG := List Int → Option Int

/-- The assignment `bestG[s] = g`. -/
def BestG.set (bestG : BestG) (s : PuzzleState) (g : Int) : BestG :=
  fun t => if t = s.tiles then some g else bestG t

/-- The `for` loop of `solveAStar` over the neighbours of the popped node. -/
def expand (pq : PriorityQueue) (node : Node) :
    List PuzzleState → pq.Q → BestG → pq.Q × BestG
  | [], frontier, bestG => (frontier, bestG)
  | nbr :: rest, frontier, bestG =>
    let tentativeG := node.g + 1
    if (bestG nbr.tiles).isNone ∨ tentativeG < (bestG nbr.tiles).getD 0 then
      let nbrNode := Node.new nbr tentativeG (manhattan nbr) (some node)
      expand pq node rest (pq.push frontier nbrNode) (bestG.set nbr tentativeG)
    else expand pq node rest frontier bestG

/-- The `while (!open.empty())` loop of `solveAStar`, followed by `return {}`.
The first argument bounds the number of iterations of the model; `none` means
that the bound was reached. -/
def astarLoop (pq : PriorityQueue) : Nat → pq.Q → BestG → Option (List PuzzleState)
  | 0, _, _ => none
  | fuel + 1, frontier, bestG =>
    match pq.pop frontier with
    | none => some []
    | some (node, frontier) =>
      if node.state.isGoal then some node.chain.reverse
      else
        let st := expand pq node node.state.neighbors frontier bestG
        astarLoop pq fuel st.1 st.2

/-- The function `solveAStar`. -/
def solveAStar (pq : PriorityQueue) (fuel : Nat) (start : PuzzleState) :
    Option (List PuzzleState) :=
  let h0 := manhattan start
  let startNode := Node.new start 0 h0 none
  astarLoop pq fuel (pq.push pq.empty startNode) (BestG.set (fun _ => none) start 0)

/-- A priority queue kept as a list: `push` adds in front, `pop` removes the
first node of least `f`. -/
def listPopMin : List Node → Option (Node × List Node)
  | [] => none
  | n :: rest =>
    match listPopMin rest with
    | none => some (n, [])
    | some (m, rest') => if n.f ≤ m.f then some (n, rest) else some (m, n :: rest')

/-- The list-based priority queue. -/
def listQueue : PriorityQueue :=
  { Q := List Node
    empty := []
    push := fun q n => n :: q
    pop := listPopMin
    toList := fun q => q }

/-! ## Specification vocabulary for the two solvers -/

/-- Postcondition of a call of `dfs` entered at `current` with the given
`visited` and `path` and with `k` levels left below it: on success the path
has grown by a legal chain of at most `k` moves from `current` to a goal board;
on failure `path` is as at entry, and so is `visited` when `current` was not in
it. -/
def DfsPost (current : PuzzleState) (visited : List (List Int)) (path : List PuzzleState)
    (k : Int) (r : DfsResult) : Prop :=
  (r.found = true → ∃ ext g, r.path = path ++ ext ∧ IsPath (current :: ext) current g ∧
      g.isGoal = true ∧ (ext.length : Int) ≤ k) ∧
    (r.found = false → r.path = path ∧ (current.tiles ∉ visited → r.visited = visited))

/-- There is a move chain of exactly `m` moves from `c` to a goal board none of
whose boards is in `visited`. -/
def AvoidingPath (c : PuzzleState) (visited : List (List Int)) (m : Nat) : Prop :=
  ∃ l g, IsPath l c g ∧ g.isGoal = true ∧ l.length = m + 1 ∧ ∀ x ∈ l, x.tiles ∉ visited

/-- There is a move chain of exactly `m` moves from `s` to a goal board. -/
def ReachesGoalIn (s : PuzzleState) (m : Nat) : Prop :=
  ∃ l g, IsPath l s g ∧ g.isGoal = true ∧ l.length = m + 1

/-- A frontier node is well formed: the states along its parent chain, read
from the root, are a move chain from `start` to the node's state, `g` is the
number of moves of that chain, and `f = g + manhattan state`. -/
def NodeOK (start : PuzzleState) (n : Node) : Prop :=
  IsPath n.chain.reverse start n.state ∧ (n.chain.length : Int) = n.g + 1 ∧
    n.f = n.g + manhattan n.state

/-- The cost table is well formed: the start board has cost 0 and every
recorded cost is the number of moves of some chain from `start` to that board. -/
def BestGOK (start : PuzzleState) (bestG : BestG) : Prop :=
  bestG start.tiles = some 0 ∧
    ∀ t g, bestG t = some g →
      ∃ l s, IsPath l start s ∧ s.tiles = t ∧ (l.length : Int) = g + 1

/-- The loop invariant of `solveAStar`. -/
def AStarInv (pq : PriorityQueue) (start : PuzzleState) (frontier : pq.Q) (bestG : BestG) :
    Prop :=
  (∀ n ∈ pq.toList frontier, NodeOK start n) ∧ BestGOK start bestG

/-- The tile arrays of valid boards. -/
abbrev Tiles9 : Type := { t : List Int // t.Perm [0, 1, 2, 3, 4, 5, 6, 7, 8] }

/-- The cost table restricted to valid boards, a missing entry counting as
infinite; the termination measure of the A* loop. -/
def costOf (bestG : BestG) (t : Tiles9) : WithTop Nat :=
  match bestG t.1 with
  | none => ⊤
  | some g => WithTop.some g.toNat

/-- The invariant behind A*'s optimality, along a fixed shortest chain `P`:
whenever a board `x` of `P` has its true distance recorded in `bestG`, either a
node for `x` with that cost is on the frontier, or the next board of `P`
already has a recorded cost no larger than its true distance. -/
def OnPathInv (pq : PriorityQueue) (P : List PuzzleState) (frontier : pq.Q) (bestG : BestG) :
    Prop :=
  ∀ A x B, P = A ++ x :: B → bestG x.tiles = some (A.length : Int) →
    (∃ n ∈ pq.toList frontier, n.state = x ∧ n.g = (A.length : Int)) ∨
      ∃ y B', B = y :: B' ∧ ∃ g', bestG y.tiles = some g' ∧ g' ≤ (A.length : Int) + 1

/-- The contribution of the ordered pair of tiles `(a, b)`, `a` before `b`, to
the inversion count of `isSolvable`. -/
def invPair (a b : Int) : Int :=
  if a ≠ 0 ∧ b ≠ 0 ∧ a > b then 1 else 0

/-- The state of `solveAStar` when its loop is first entered: the frontier
holding the start node and the cost table holding the start board at cost 0. -/
def astarInit (pq : PriorityQueue) (start : PuzzleState) : pq.Q × BestG :=
  (pq.push pq.empty (Node.new start 0 (manhattan start) none),
    BestG.set (fun _ => none) start 0)

/-- The state of the A* loop after `k` complete iterations that each popped and
expanded a node; `none` when the loop has ended before (empty frontier or goal
popped). -/
def astarIter (pq : PriorityQueue) (start : PuzzleState) : Nat → Option (pq.Q × BestG)
  | 0 => some (astarInit pq start)
  | k + 1 =>
    match astarIter pq start k with
    | none => none
    | some st =>
      match pq.pop st.1 with
      | none => none
      | some (node, frontier) =>
        if node.state.isGoal then none
        else some (expand pq node node.state.neighbors frontier st.2)

/-- Every recorded cost is either carried by a frontier node for that board, or
the board has been expanded at that cost: each of its neighbours has a recorded
cost of at most one more. -/
def ClosedInv (pq : PriorityQueue) (frontier : pq.Q) (bestG : BestG) : Prop :=
  ∀ s g', Valid s → bestG s.tiles = some g' →
    (∃ n ∈ pq.toList frontier, n.state = s ∧ n.g = g') ∨
      ∀ nbr ∈ s.neighbors, ∃ g'', bestG nbr.tiles = some g'' ∧ g'' ≤ g' + 1

/-! ## Solving by stages

Vocabulary for the proof that every board with an even inversion count can be
solved: moves named by their index in `moves`, words of such moves, and a table
of words that put the tiles 1 to 6 in place one after the other. -/

/-- The neighbour of `s` for the move of index `d` in `moves` (0 left, 1 right,
2 up, 3 down), if that move stays inside the grid. -/
def stepDir (s : PuzzleState) (d : Nat) : Option PuzzleState :=
  match moves[d]? with
  | none => none
  | some mv => (moveIdx s mv).map (moveTo s)

/-- The board reached from `s` by the moves of the word `w`, if all are legal. -/
def runWord (s : PuzzleState) : List Nat → Option PuzzleState
  | [] => some s
  | d :: w =>
    match stepDir s d with
    | none => none
    | some q => runWord q w

/-- The board `s` with every tile value replaced by its image under `f`. -/
def mapState (f : Int → Int) (s : PuzzleState) : PuzzleState :=
  { tiles := s.tiles.map f, blankIdx := s.blankIdx }

/-- A board whose cell `i` carries the label `i + 1`, with the blank index `b`:
running a word on it shows where the word takes the content of each cell. -/
def baseBoard (b : Nat) : PuzzleState :=
  { tiles := [1, 2, 3, 4, 5, 6, 7, 8, 9], blankIdx := (b : Int) }

/-- The tile of `s` that stands in the cell labelled `v` on a `baseBoard`. -/
def labelTile (s : PuzzleState) (v : Int) : Int :=
  if v = 0 then 0 else s.tiles.getD (v - 1).toNat 0

/-- For `k` tiles in place, the blank in cell `b` and tile `k + 1` in cell `p`:
a word after which the cells `0 .. k - 1` hold what they held before and cell
`k` holds what cell `p` held.  Entry `[k][b][p]`. -/
def stageTable : List (List (List (List Nat))) :=
  [[[[],
      [1],
      [1, 1, 3, 0, 0, 2, 1],
      [3],
      [1, 3, 0, 2, 1],
      [1, 3, 1, 2, 0, 3, 0, 2, 1],
      [3, 3, 1, 2, 2, 0, 3],
      [1, 3, 3, 0, 2, 1, 2, 0, 3],
      [1, 1, 3, 3, 0, 2, 1, 2, 0, 3, 0, 2, 1]],
    [[],
      [],
      [1, 3, 0, 0, 2, 1],
      [0, 3],
      [3, 0, 2, 1],
      [3, 1, 2, 0, 3, 0, 2, 1],
      [0, 3, 3, 1, 2, 2, 0, 3],
      [3, 3, 0, 2, 1, 2, 0, 3],
      [1, 3, 3, 0, 2, 1, 2, 0, 3, 0, 2, 1]],
    [[],
      [3, 0, 0, 2, 1],
      [],
      [0, 0, 3],
      [0, 3, 0, 2, 1],
      [0, 3, 1, 2, 0, 3, 0, 2, 1],
      [0, 0, 3, 3, 1, 2, 2, 0, 3],
      [0, 3, 3, 0, 2, 1, 2, 0, 3],
      [3, 3, 0, 2, 1, 2, 0, 3, 0, 2, 1]],
    [[],
      [2, 1],
      [1, 2, 1, 3, 0, 0, 2, 1],
      [],
      [1, 2, 0, 3],
      [1, 1, 2, 0, 3, 0, 2, 1],
      [3, 1, 2, 2, 0, 3],
      [1, 3, 0, 2, 1, 2, 0, 3],
      [1, 1, 3, 0, 2, 1, 2, 0, 3, 0, 2, 1]],
    [[],
      [0, 2, 1],
      [2, 1, 3, 0, 0, 2, 1],
      [2, 0, 3],
      [],
      [1, 2, 0, 3, 0, 2, 1],
      [0, 3, 1, 2, 2, 0, 3],
      [3, 0, 2, 1, 2, 0, 3],
      [1, 3, 0, 2, 1, 2, 0, 3, 0, 2, 1]],
    [[],
      [0, 0, 2, 1],
      [0, 2, 1, 3, 0, 0, 2, 1],
      [0, 2, 0, 3],
      [2, 0, 3, 0, 2, 1],
      [],
      [0, 0, 3, 1, 2, 2, 0, 3],
      [0, 3, 0, 2, 1, 2, 0, 3],
      [3, 0, 2, 1, 2, 0, 3, 0, 2, 1]],
    [[],
      [2, 2, 1],
      [1, 2, 2, 1, 3, 0, 0, 2, 1],
      [1, 2, 2, 0, 3],
      [2, 1, 2, 0, 3],
      [1, 2, 1, 2, 0, 3, 0, 2, 1],
      [],
      [1, 2, 0, 3, 1, 2, 2, 0, 3],
      [1, 1, 2, 0, 3, 0, 2, 1, 2, 0, 3]],
    [[],
      [0, 2, 2, 1],
      [2, 2, 1, 3, 0, 0, 2, 1],
      [2, 2, 0, 3],
      [0, 2, 1, 2, 0, 3],
      [2, 1, 2, 0, 3, 0, 2, 1],
      [2, 0, 3, 1, 2, 2, 0, 3],
      [],
      [1, 2, 0, 3, 0, 2, 1, 2, 0, 3]],
    [[],
      [0, 0, 2, 2, 1],
      [0, 2, 2, 1, 3, 0, 0, 2, 1],
      [0, 2, 2, 0, 3],
      [0, 0, 2, 1, 2, 0, 3],
      [0, 2, 1, 2, 0, 3, 0, 2, 1],
      [0, 2, 0, 3, 1, 2, 2, 0, 3],
      [2, 0, 3, 0, 2, 1, 2, 0, 3],
      []]],
  [[[],
      [],
      [],
      [],
      [],
      [],
      [],
      [],
      []],
    [[],
      [],
      [1],
      [3, 0, 3, 1, 1, 2, 2, 0, 3],
      [3],
      [1, 3, 0, 2, 1],
      [0, 3, 3, 1, 2, 0, 2, 1, 3],
      [3, 3, 1, 2, 2, 0, 3],
      [1, 3, 3, 0, 2, 1, 2, 0, 3]],
    [[],
      [],
      [],
      [0, 3, 0, 3, 1, 1, 2, 2, 0, 3],
      [0, 3],
      [3, 0, 2, 1],
      [0, 0, 3, 3, 1, 2, 0, 2, 1, 3],
      [0, 3, 3, 1, 2, 2, 0, 3],
      [3, 3, 0, 2, 1, 2, 0, 3]],
    [[],
      [],
      [1, 2, 1],
      [],
      [3, 1, 1, 2, 2, 0, 3],
      [1, 1, 2, 0, 3],
      [1, 2, 0, 3, 3, 1, 2, 0, 2, 1, 3],
      [1, 3, 1, 2, 2, 0, 3],
      [1, 1, 3, 0, 2, 1, 2, 0, 3]],
    [[],
      [],
      [2, 1],
      [0, 3, 1, 1, 2, 2, 0, 3],
      [],
      [1, 2, 0, 3],
      [2, 0, 3, 3, 1, 2, 0, 2, 1, 3],
      [3, 1, 2, 2, 0, 3],
      [1, 3, 0, 2, 1, 2, 0, 3]],
    [[],
      [],
      [0, 2, 1],
      [0, 0, 3, 1, 1, 2, 2, 0, 3],
      [2, 0, 3],
      [],
      [0, 2, 0, 3, 3, 1, 2, 0, 2, 1, 3],
      [0, 3, 1, 2, 2, 0, 3],
      [3, 0, 2, 1, 2, 0, 3]],
    [[],
      [],
      [1, 2, 2, 1],
      [1, 2, 0, 3, 1, 1, 2, 2, 0, 3],
      [1, 1, 2, 2, 0, 3],
      [1, 2, 1, 2, 0, 3],
      [],
      [2, 1, 3, 1, 2, 2, 0, 3],
      [1, 1, 2, 0, 3, 1, 2, 2, 0, 3]],
    [[],
      [],
      [2, 2, 1],
      [2, 0, 3, 1, 1, 2, 2, 0, 3],
      [1, 2, 2, 0, 3],
      [2, 1, 2, 0, 3],
      [0, 2, 1, 3, 1, 2, 2, 0, 3],
      [],
      [1, 2, 0, 3, 1, 2, 2, 0, 3]],
    [[],
      [],
      [0, 2, 2, 1],
      [0, 2, 0, 3, 1, 1, 2, 2, 0, 3],
      [2, 2, 0, 3],
      [0, 2, 1, 2, 0, 3],
      [0, 0, 2, 1, 3, 1, 2, 2, 0, 3],
      [2, 0, 3, 1, 2, 2, 0, 3],
      []]],
  [[[],
      [],
      [],
      [],
      [],
      [],
      [],
      [],
      []],
    [[],
      [],
      [],
      [],
      [],
      [],
      [],
      [],
      []],
    [[],
      [],
      [],
      [0, 3, 0, 3, 1, 1, 2, 0, 2, 1, 3],
      [3, 0, 0, 2, 1, 1, 3, 0, 2, 0, 3],
      [3],
      [0, 3, 3, 0, 2, 1, 3, 1, 2, 0, 2, 1, 3],
      [0, 3, 3, 1, 2, 0, 2, 1, 3],
      [0, 3, 1, 3, 0, 2, 2, 1, 3]],
    [[],
      [],
      [],
      [],
      [2, 1, 3, 1, 2, 0, 0, 3],
      [2, 1, 1, 3, 0, 2, 0, 3],
      [3, 1, 2, 0, 2, 1, 3, 1, 2, 0, 0, 3],
      [1, 1, 2, 0, 3, 3, 1, 2, 0, 2, 1, 3],
      [1, 1, 2, 0, 3, 1, 3, 0, 2, 2, 1, 3]],
    [[],
      [],
      [],
      [0, 2, 1, 3, 1, 2, 0, 0, 3],
      [],
      [0, 2, 1, 1, 3, 0, 2, 0, 3],
      [0, 3, 1, 2, 0, 2, 1, 3, 1, 2, 0, 0, 3],
      [1, 2, 0, 3, 3, 1, 2, 0, 2, 1, 3],
      [1, 2, 0, 3, 1, 3, 0, 2, 2, 1, 3]],
    [[],
      [],
      [],
      [0, 0, 2, 1, 3, 1, 2, 0, 0, 3],
      [0, 0, 2, 1, 1, 3, 0, 2, 0, 3],
      [],
      [0, 0, 3, 1, 2, 0, 2, 1, 3, 1, 2, 0, 0, 3],
      [2, 0, 3, 3, 1, 2, 0, 2, 1, 3],
      [2, 0, 3, 1, 3, 0, 2, 2, 1, 3]],
    [[],
      [],
      [],
      [1, 2, 0, 2, 1, 3, 1, 2, 0, 0, 3],
      [2, 2, 1, 3, 1, 2, 0, 0, 3],
      [2, 2, 1, 1, 3, 0, 2, 0, 3],
      [],
      [2, 1, 1, 2, 0, 3, 3, 1, 2, 0, 2, 1, 3],
      [1, 1, 2, 2, 0, 3, 3, 1, 2, 0, 2, 1, 3]],
    [[],
      [],
      [],
      [2, 0, 2, 1, 3, 1, 2, 0, 0, 3],
      [0, 2, 2, 1, 3, 1, 2, 0, 0, 3],
      [0, 2, 2, 1, 1, 3, 0, 2, 0, 3],
      [0, 2, 1, 1, 2, 0, 3, 3, 1, 2, 0, 2, 1, 3],
      [],
      [1, 2, 2, 0, 3, 3, 1, 2, 0, 2, 1, 3]],
    [[],
      [],
      [],
      [0, 2, 0, 2, 1, 3, 1, 2, 0, 0, 3],
      [0, 0, 2, 2, 1, 3, 1, 2, 0, 0, 3],
      [0, 0, 2, 2, 1, 1, 3, 0, 2, 0, 3],
      [0, 0, 2, 1, 1, 2, 0, 3, 3, 1, 2, 0, 2, 1, 3],
      [2, 2, 0, 3, 3, 1, 2, 0, 2, 1, 3],
      []]],
  [[[],
      [],
      [],
      [],
      [],
      [],
      [],
      [],
      []],
    [[],
      [],
      [],
      [],
      [],
      [],
      [],
      [],
      []],
    [[],
      [],
      [],
      [],
      [],
      [],
      [],
      [],
      []],
    [[],
      [],
      [],
      [],
      [1],
      [1, 1, 3, 0, 0, 2, 1],
      [3],
      [1, 3, 0, 2, 1],
      [1, 3, 1, 2, 0, 3, 0, 2, 1]],
    [[],
      [],
      [],
      [],
      [],
      [1, 3, 0, 0, 2, 1],
      [0, 3],
      [3, 0, 2, 1],
      [3, 1, 2, 0, 3, 0, 2, 1]],
    [[],
      [],
      [],
      [],
      [3, 0, 0, 2, 1],
      [],
      [0, 0, 3],
      [0, 3, 0, 2, 1],
      [0, 3, 1, 2, 0, 3, 0, 2, 1]],
    [[],
      [],
      [],
      [],
      [2, 1],
      [1, 2, 1, 3, 0, 0, 2, 1],
      [],
      [1, 2, 0, 3],
      [1, 1, 2, 0, 3, 0, 2, 1]],
    [[],
      [],
      [],
      [],
      [0, 2, 1],
      [2, 1, 3, 0, 0, 2, 1],
      [2, 0, 3],
      [],
      [1, 2, 0, 3, 0, 2, 1]],
    [[],
      [],
      [],
      [],
      [0, 0, 2, 1],
      [0, 2, 1, 3, 0, 0, 2, 1],
      [0, 2, 0, 3],
      [2, 0, 3, 0, 2, 1],
      []]],
  [[[],
      [],
      [],
      [],
      [],
      [],
      [],
      [],
      []],
    [[],
      [],
      [],
      [],
      [],
      [],
      [],
      [],
      []],
    [[],
      [],
      [],
      [],
      [],
      [],
      [],
      [],
      []],
    [[],
      [],
      [],
      [],
      [],
      [],
      [],
      [],
      []],
    [[],
      [],
      [],
      [],
      [],
      [1],
      [1, 2, 0, 0, 3, 3, 1, 2, 0, 2, 1, 1, 3],
      [3],
      [1, 3, 0, 2, 1]],
    [[],
      [],
      [],
      [],
      [],
      [],
      [2, 0, 0, 3, 3, 1, 2, 0, 2, 1, 1, 3],
      [0, 3],
      [3, 0, 2, 1]],
    [[],
      [],
      [],
      [],
      [],
      [1, 2, 1],
      [],
      [2, 1, 3, 1, 2, 0, 0, 3, 1, 2, 1],
      [1, 1, 2, 0, 3]],
    [[],
      [],
      [],
      [],
      [],
      [2, 1],
      [0, 2, 1, 3, 1, 2, 0, 0, 3, 1, 2, 1],
      [],
      [1, 2, 0, 3]],
    [[],
      [],
      [],
      [],
      [],
      [0, 2, 1],
      [0, 0, 2, 1, 3, 1, 2, 0, 0, 3, 1, 2, 1],
      [2, 0, 3],
      []]],
  [[[],
      [],
      [],
      [],
      [],
      [],
      [],
      [],
      []],
    [[],
      [],
      [],
      [],
      [],
      [],
      [],
      [],
      []],
    [[],
      [],
      [],
      [],
      [],
      [],
      [],
      [],
      []],
    [[],
      [],
      [],
      [],
      [],
      [],
      [],
      [],
      []],
    [[],
      [],
      [],
      [],
      [],
      [],
      [],
      [],
      []],
    [[],
      [],
      [],
      [],
      [],
      [],
      [3, 0, 0, 2, 1, 3, 1, 2, 0, 0, 3],
      [3, 0, 0, 2, 1, 1, 3, 0, 2, 0, 3],
      [3]],
    [[],
      [],
      [],
      [],
      [],
      [],
      [],
      [2, 1, 3, 1, 2, 0, 0, 3],
      [2, 1, 1, 3, 0, 2, 0, 3]],
    [[],
      [],
      [],
      [],
      [],
      [],
      [0, 2, 1, 3, 1, 2, 0, 0, 3],
      [],
      [0, 2, 1, 1, 3, 0, 2, 0, 3]],
    [[],
      [],
      [],
      [],
      [],
      [],
      [0, 0, 2, 1, 3, 1, 2, 0, 0, 3],
      [0, 0, 2, 1, 1, 3, 0, 2, 0, 3],
      []]]]

/-- The word of `stageTable` for `k`, `b`, `p`. -/
def stageWord (k b p : Nat) : List Nat :=
  ((stageTable.getD k []).getD b []).getD p []

/-- The check that `stageWord k b p` does what `stageTable` promises, on the
labelled board. -/
def stageOK (k b p : Nat) : Bool :=
  match runWord (baseBoard b) (stageWord k b p) with
  | none => false
  | some q =>
    (List.range k).all (fun i => decide (q.tiles.getD i 0 = (i : Int) + 1)) &&
      decide (q.tiles.getD k 0 = (p : Int) + 1)

/-- The first `k` cells of the tile array `t` hold the tiles `1 .. k`. -/
def PrefixOK (k : Nat) (t : List Int) : Prop :=
  ∀ i, i < k → t.getD i 0 = (i : Int) + 1

/-! ## Breadth-first layers as bit sets

Vocabulary for the bound on the number of moves.  The eight tiles of a board,
read in cell order with the blank left out, are a sequence of distinct values;
its Lehmer code (for each place the number of smaller values further on) written
in the mixed radix 8, 7, ..., 1 is an index below 8! = 40320.  A set of boards
with the blank in one given cell is a natural number whose bits are indexed this
way, and a family of nine such numbers, one per blank cell, is a set of boards. -/

/-- The weights of the eight places of the mixed radix 8, 7, ..., 1, followed
by the number 8! of indices. -/
def lehW : List Nat := [1, 8, 56, 336, 1680, 6720, 20160, 40320, 40320]

/-- The radices of the eight places. -/
def lehR : List Nat := [8, 7, 6, 5, 4, 3, 2, 1]

/-- The indices below `w * r` whose part below `w` is in `A` and whose digit of
weight `w` is in `ds`. -/
def maskLevel (A w : Nat) (ds : List Nat) : Nat :=
  ds.foldl (fun B d => B ||| (A <<< (d * w))) 0

/-- The set of all indices below 40320 whose digit at place `i` is `u`. -/
def maskDigit (i u : Nat) : Nat :=
  (List.range 8).foldl
    (fun A k => maskLevel A (lehW.getD k 0) (if k = i then [u] else List.range (lehR.getD k 0))) 1

/-- The masks `maskDigit i u` for all places and digits. -/
def maskTable : List (List Nat) :=
  (List.range 8).map fun i => (List.range (lehR.getD i 0)).map fun u => maskDigit i u

/-- The entry of `maskTable` for place `i` and digit `u`. -/
def maskAt (i u : Nat) : Nat := (maskTable.getD i []).getD u 0

/-- What exchanging two neighbouring entries of a sequence does to their two
digits `(u, w)` of the Lehmer code. -/
def swapNew (u w : Nat) : Nat × Nat := if w < u then (w, u - 1) else (w + 1, u)

/-- The index of the sequence obtained by exchanging the entries at places `i`
and `i + 1`, from the index `x` of the sequence. -/
def lehSwap (i x : Nat) : Nat :=
  x - (x / lehW.getD i 0 % lehR.getD i 0 * lehW.getD i 0 +
        x / lehW.getD (i + 1) 0 % lehR.getD (i + 1) 0 * lehW.getD (i + 1) 0) +
    ((swapNew (x / lehW.getD i 0 % lehR.getD i 0)
          (x / lehW.getD (i + 1) 0 % lehR.getD (i + 1) 0)).1 * lehW.getD i 0 +
      (swapNew (x / lehW.getD i 0 % lehR.getD i 0)
          (x / lehW.getD (i + 1) 0 % lehR.getD (i + 1) 0)).2 * lehW.getD (i + 1) 0)

/-- The members of `S` with digits `(u, w)` at places `i`, `i + 1`, moved to the
index they have after the exchange. -/
def swapPart (i : Nat) (S : Nat) (u w : Nat) : Nat :=
  if u * lehW.getD i 0 + w * lehW.getD (i + 1) 0 ≤
      (swapNew u w).1 * lehW.getD i 0 + (swapNew u w).2 * lehW.getD (i + 1) 0 then
    ((S &&& maskAt i u) &&& maskAt (i + 1) w) <<<
      ((swapNew u w).1 * lehW.getD i 0 + (swapNew u w).2 * lehW.getD (i + 1) 0 -
        (u * lehW.getD i 0 + w * lehW.getD (i + 1) 0))
  else
    ((S &&& maskAt i u) &&& maskAt (i + 1) w) >>>
      (u * lehW.getD i 0 + w * lehW.getD (i + 1) 0 -
        ((swapNew u w).1 * lehW.getD i 0 + (swapNew u w).2 * lehW.getD (i + 1) 0))

/-- The image of the set `S` of indices under the exchange at places `i`,
`i + 1`. -/
def swapSet (i : Nat) (S : Nat) : Nat :=
  (List.range (lehR.getD i 0)).foldl
    (fun acc u => (List.range (lehR.getD (i + 1) 0)).foldl
      (fun acc w => acc ||| swapPart i S u w) acc) 0

/-- One breadth-first step for the boards with the blank in cell `n`: the boards
already there, and those that one move from a board of `R` produces (the blank
coming from the left, from the right, from above or from below). -/
def bfsCell (R : List Nat) (n : Nat) : Nat :=
  (((R.getD n 0 ||| (if n % 3 = 0 then 0 else R.getD (n - 1) 0)) |||
      (if n % 3 = 2 then 0 else R.getD (n + 1) 0)) |||
      (if 3 ≤ n then swapSet (n - 3) (swapSet (n - 2) (R.getD (n - 3) 0)) else 0)) |||
    (if n ≤ 5 then swapSet (n + 1) (swapSet n (R.getD (n + 3) 0)) else 0)

/-- One breadth-first step on a set of boards. -/
def bfsStep (R : List Nat) : List Nat := (List.range 9).map (bfsCell R)

/-- `k` breadth-first steps. -/
def bfsIter : Nat → List Nat → List Nat
  | 0, R => R
  | k + 1, R => bfsIter k (bfsStep R)

/-- The set holding the goal board alone: blank in cell 8, index 0. -/
def bfsStart : List Nat := [0, 0, 0, 0, 0, 0, 0, 0, 1]

/-- The Lehmer code of a sequence. -/
def lehmer : List Int → List Nat
  | [] => []
  | a :: l => l.countP (fun z => decide (z < a)) :: lehmer l

/-- The value of a digit list in the mixed radix `r, r - 1, ...`. -/
def lehIdx : Nat → List Nat → Nat
  | _, [] => 0
  | r, d :: ds => d + r * lehIdx (r - 1) ds

/-- The tiles of a board in cell order, the blank left out. -/
def seqOf (s : PuzzleState) : List Int := s.tiles.eraseIdx s.blankIdx.toNat

/-- The index of a board among the boards with the same blank cell. -/
def encode (s : PuzzleState) : Nat := lehIdx 8 (lehmer (seqOf s))

/-- Membership of a board in a set of boards. -/
def BoardMem (R : List Nat) (s : PuzzleState) : Prop :=
  Nat.testBit (R.getD s.blankIdx.toNat 0) (encode s) = true

/-- The weight of place `k` in the mixed radix `r, r - 1, ...`. -/
def lehWt : Nat → Nat → Nat
  | _, 0 => 1
  | r, k + 1 => r * lehWt (r - 1) k

/-- Every digit of the list is below its radix, the radices being
`r, r - 1, ...`. -/
def DigitsOK : Nat → List Nat → Prop
  | _, [] => True
  | r, d :: ds => d < r ∧ DigitsOK (r - 1) ds
/-! ## Facts about valid boards -/

theorem perm_length9 {t : List Int} (h : t.Perm [0, 1, 2, 3, 4, 5, 6, 7, 8]) :
    ∃ a0 a1 a2 a3 a4 a5 a6 a7 a8 : Int, t = [a0, a1, a2, a3, a4, a5, a6, a7, a8] := by
  have hl := h.length_eq
  match t, hl with
  | [a0, a1, a2, a3, a4, a5, a6, a7, a8], _ => exact ⟨a0, a1, a2, a3, a4, a5, a6, a7, a8, rfl⟩

theorem valid_cases {s : PuzzleState} (h : Valid s) :
    ∃ a0 a1 a2 a3 a4 a5 a6 a7 a8 b : Int,
      s = ⟨[a0, a1, a2, a3, a4, a5, a6, a7, a8], b⟩ ∧ 0 ≤ b ∧ b < 9 ∧
      [a0, a1, a2, a3, a4, a5, a6, a7, a8].Nodup ∧
      (∀ x ∈ [a0, a1, a2, a3, a4, a5, a6, a7, a8], 0 ≤ x ∧ x ≤ 8) ∧
      tileAt [a0, a1, a2, a3, a4, a5, a6, a7, a8] b = 0 := by
  obtain ⟨hp, h0, h9, hz⟩ := h
  obtain ⟨a0, a1, a2, a3, a4, a5, a6, a7, a8, ht⟩ := perm_length9 hp
  obtain ⟨t, b⟩ := s
  simp only at ht h0 h9 hz hp
  subst ht
  refine ⟨a0, a1, a2, a3, a4, a5, a6, a7, a8, b, rfl, h0, h9, ?_, ?_, hz⟩
  · exact hp.nodup_iff.mpr (by decide)
  · intro x hx
    have := hp.mem_iff.mp hx
    simp at this
    omega

theorem neighbors_b0 (a0 a1 a2 a3 a4 a5 a6 a7 a8 : Int) :
    PuzzleState.neighbors ⟨[a0, a1, a2, a3, a4, a5, a6, a7, a8], 0⟩ =
      [⟨[a1, a0, a2, a3, a4, a5, a6, a7, a8], 1⟩,
       ⟨[a3, a1, a2, a0, a4, a5, a6, a7, a8], 3⟩] := rfl

theorem neighbors_b1 (a0 a1 a2 a3 a4 a5 a6 a7 a8 : Int) :
    PuzzleState.neighbors ⟨[a0, a1, a2, a3, a4, a5, a6, a7, a8], 1⟩ =
      [⟨[a1, a0, a2, a3, a4, a5, a6, a7, a8], 0⟩,
       ⟨[a0, a2, a1, a3, a4, a5, a6, a7, a8], 2⟩,
       ⟨[a0, a4, a2, a3, a1, a5, a6, a7, a8], 4⟩] := rfl

theorem neighbors_b2 (a0 a1 a2 a3 a4 a5 a6 a7 a8 : Int) :
    PuzzleState.neighbors ⟨[a0, a1, a2, a3, a4, a5, a6, a7, a8], 2⟩ =
      [⟨[a0, a2, a1, a3, a4, a5, a6, a7, a8], 1⟩,
       ⟨[a0, a1, a5, a3, a4, a2, a6, a7, a8], 5⟩] := rfl

theorem neighbors_b3 (a0 a1 a2 a3 a4 a5 a6 a7 a8 : Int) :
    PuzzleState.neighbors ⟨[a0, a1, a2, a3, a4, a5, a6, a7, a8], 3⟩ =
      [⟨[a0, a1, a2, a4, a3, a5, a6, a7, a8], 4⟩,
       ⟨[a3, a1, a2, a0, a4, a5, a6, a7, a8], 0⟩,
       ⟨[a0, a1, a2, a6, a4, a5, a3, a7, a8], 6⟩] := rfl

theorem neighbors_b4 (a0 a1 a2 a3 a4 a5 a6 a7 a8 : Int) :
    PuzzleState.neighbors ⟨[a0, a1, a2, a3, a4, a5, a6, a7, a8], 4⟩ =
      [⟨[a0, a1, a2, a4, a3, a5, a6, a7, a8], 3⟩,
       ⟨[a0, a1, a2, a3, a5, a4, a6, a7, a8], 5⟩,
       ⟨[a0, a4, a2, a3, a1, a5, a6, a7, a8], 1⟩,
       ⟨[a0, a1, a2, a3, a7, a5, a6, a4, a8], 7⟩] := rfl

theorem neighbors_b5 (a0 a1 a2 a3 a4 a5 a6 a7 a8 : Int) :
    PuzzleState.neighbors ⟨[a0, a1, a2, a3, a4, a5, a6, a7, a8], 5⟩ =
      [⟨[a0, a1, a2, a3, a5, a4, a6, a7, a8], 4⟩,
       ⟨[a0, a1, a5, a3, a4, a2, a6, a7, a8], 2⟩,
       ⟨[a0, a1, a2, a3, a4, a8, a6, a7, a5], 8⟩] := rfl

theorem neighbors_b6 (a0 a1 a2 a3 a4 a5 a6 a7 a8 : Int) :
    PuzzleState.neighbors ⟨[a0, a1, a2, a3, a4, a5, a6, a7, a8], 6⟩ =
      [⟨[a0, a1, a2, a3, a4, a5, a7, a6, a8], 7⟩,
       ⟨[a0, a1, a2, a6, a4, a5, a3, a7, a8], 3⟩] := rfl

theorem neighbors_b7 (a0 a1 a2 a3 a4 a5 a6 a7 a8 : Int) :
    PuzzleState.neighbors ⟨[a0, a1, a2, a3, a4, a5, a6, a7, a8], 7⟩ =
      [⟨[a0, a1, a2, a3, a4, a5, a7, a6, a8], 6⟩,
       ⟨[a0, a1, a2, a3, a4, a5, a6, a8, a7], 8⟩,
       ⟨[a0, a1, a2, a3, a7, a5, a6, a4, a8], 4⟩] := rfl

theorem neighbors_b8 (a0 a1 a2 a3 a4 a5 a6 a7 a8 : Int) :
    PuzzleState.neighbors ⟨[a0, a1, a2, a3, a4, a5, a6, a7, a8], 8⟩ =
      [⟨[a0, a1, a2, a3, a4, a5, a6, a8, a7], 7⟩,
       ⟨[a0, a1, a2, a3, a4, a8, a6, a7, a5], 5⟩] := rfl

theorem neighbors_valid {s q : PuzzleState} (h : Valid s) (hq : q ∈ s.neighbors) : Valid q := by
  obtain ⟨hp, -⟩ := id h
  obtain ⟨a0, a1, a2, a3, a4, a5, a6, a7, a8, b, rfl, h0, h9, hnd, hr, hz⟩ := valid_cases h
  have key : ∀ (t : List Int) (n : Int),
      (t : Multiset Int) = ([a0, a1, a2, a3, a4, a5, a6, a7, a8] : List Int) →
      0 ≤ n → n < 9 → tileAt t n = 0 → Valid ⟨t, n⟩ :=
    fun t n ht hn0 hn9 hn => ⟨(Multiset.coe_eq_coe.mp ht).trans hp, hn0, hn9, hn⟩
  interval_cases b
  all_goals
    simp only [neighbors_b0, neighbors_b1, neighbors_b2, neighbors_b3, neighbors_b4,
      neighbors_b5, neighbors_b6, neighbors_b7, neighbors_b8, List.mem_cons, List.mem_singleton,
      List.not_mem_nil, or_false] at hq
    simp [tileAt] at hz
    subst hz
    rcases hq with rfl | rfl | rfl | rfl
  all_goals
    refine key _ _ ?_ (by norm_num) (by norm_num) (by simp [tileAt])
    simp only [← Multiset.cons_coe, ← Multiset.singleton_add]
    ac_rfl

theorem tileAt_inj {t : List Int} (hnd : t.Nodup) (hl : t.length = 9) {i j : Int}
    (hi0 : 0 ≤ i) (hi9 : i < 9) (hj0 : 0 ≤ j) (hj9 : j < 9)
    (h : tileAt t i = tileAt t j) : i = j := by
  have hi : i.toNat < t.length := by omega
  have hj : j.toNat < t.length := by omega
  unfold tileAt at h
  rw [List.getD_eq_getElem _ _ hi, List.getD_eq_getElem _ _ hj] at h
  have := (hnd.getElem_inj_iff).mp h
  omega

theorem ofTiles_valid {t : List Int} (ht : t.Perm [0, 1, 2, 3, 4, 5, 6, 7, 8]) :
    Valid (PuzzleState.ofTiles t) := by
  have hmem : (0 : Int) ∈ t := ht.mem_iff.mpr (by decide)
  have hlt : t.indexOf 0 < t.length := List.indexOf_lt_length.mpr hmem
  have hl : t.length = 9 := ht.length_eq
  refine ⟨ht, by simp [PuzzleState.ofTiles], ?_, ?_⟩
  · simp only [PuzzleState.ofTiles]; omega
  · simp only [PuzzleState.ofTiles, tileAt, Int.toNat_ofNat]
    rw [List.getD_eq_getElem _ _ hlt]
    exact List.getElem_indexOf hlt

theorem moveIdx_range {s : PuzzleState} (h : Valid s) {mv : Int × Int} (hmv : mv ∈ moves)
    {n : Int} (hn : moveIdx s mv = some n) : 0 ≤ n ∧ n < 9 := by
  obtain ⟨-, h0, h9, -⟩ := h
  obtain ⟨t, b⟩ := s
  simp only at h0 h9
  simp only [moves, List.mem_cons, List.mem_singleton, List.not_mem_nil, or_false] at hmv
  interval_cases b <;> rcases hmv with rfl | rfl | rfl | rfl <;>
    simp [moveIdx, Int.tdiv, Int.tmod] at hn <;> omega

/-- C4, counterexample: on the board 1 2 3 4 5 6 7 0 8 `isSolvable` does not
return false. -/
theorem isSolvable_blank8_not_false :
    ¬ (isSolvable (PuzzleState.ofTiles [1, 2, 3, 4, 5, 6, 7, 0, 8]) = false) := by
  decide

/-- C4, amended: on the board 1 2 3 4 5 6 7 0 8 the inversion count, which skips
the blank, is 0, and `isSolvable` returns true. -/
theorem isSolvable_blank8_true :
    inversions [1, 2, 3, 4, 5, 6, 7, 0, 8] = 0 ∧
      isSolvable (PuzzleState.ofTiles [1, 2, 3, 4, 5, 6, 7, 0, 8]) = true := by
  decide

/-- C8: for a valid board with the blank at row `r`, column `c`, `neighbors`
returns exactly the blank swaps with the cells left, right, above and below, in
that order, keeping those inside the grid; the result has between 2 and 4
boards: 2 for a corner blank, 3 for an edge blank, 4 for the centre. -/
theorem neighbors_spec (s : PuzzleState) (r c : Int) (h : Valid s)
    (hb : s.blankIdx = 3 * r + c) (hr : 0 ≤ r ∧ r < 3) (hc : 0 ≤ c ∧ c < 3) :
    s.neighbors =
        ([(r, c - 1), (r, c + 1), (r - 1, c), (r + 1, c)].filter inGrid).map
          (fun p => blankSwap s p.1 p.2) ∧
      2 ≤ s.neighbors.length ∧ s.neighbors.length ≤ 4 ∧
      (r ≠ 1 ∧ c ≠ 1 → s.neighbors.length = 2) ∧
      ((r = 1 ∧ c ≠ 1) ∨ (r ≠ 1 ∧ c = 1) → s.neighbors.length = 3) ∧
      (r = 1 ∧ c = 1 → s.neighbors.length = 4) := by
  obtain ⟨a0, a1, a2, a3, a4, a5, a6, a7, a8, b, rfl, h0, h9, hnd, hrg, hz⟩ := valid_cases h
  obtain ⟨hr0, hr3⟩ := hr
  obtain ⟨hc0, hc3⟩ := hc
  simp only at hb
  subst hb
  interval_cases r <;> interval_cases c
  all_goals
    simp [tileAt] at hz
    subst hz
    refine ⟨rfl, ?_⟩
    norm_num [neighbors_b0, neighbors_b1, neighbors_b2, neighbors_b3, neighbors_b4,
      neighbors_b5, neighbors_b6, neighbors_b7, neighbors_b8]

/-- C8, witness: the centre blank of 1 2 3 4 0 6 5 7 8 (row 1, column 1). -/
theorem neighbors_spec_witness :
    (PuzzleState.ofTiles [1, 2, 3, 4, 0, 6, 5, 7, 8]).neighbors.length = 4 :=
  (neighbors_spec (PuzzleState.ofTiles [1, 2, 3, 4, 0, 6, 5, 7, 8]) 1 1 (by decide) (by decide)
    (by decide) (by decide)).2.2.2.2.2 (by decide)

/-- C9: the constructor establishes the board invariant for every permutation of
0..8, and `neighbors` preserves it, every index it uses lying in 0..8. -/
theorem board_invariant (t : List Int) (s : PuzzleState)
    (ht : t.Perm [0, 1, 2, 3, 4, 5, 6, 7, 8]) (hs : Valid s) :
    (PuzzleState.ofTiles t).tiles = t ∧
      0 ≤ (PuzzleState.ofTiles t).blankIdx ∧ (PuzzleState.ofTiles t).blankIdx < 9 ∧
      tileAt t (PuzzleState.ofTiles t).blankIdx = 0 ∧
      (∀ i : Int, 0 ≤ i → i < 9 → tileAt t i = 0 → i = (PuzzleState.ofTiles t).blankIdx) ∧
      (∀ q ∈ s.neighbors, Valid q) ∧
      (0 ≤ s.blankIdx ∧ s.blankIdx < 9) ∧
      (∀ mv ∈ moves, ∀ n, moveIdx s mv = some n → 0 ≤ n ∧ n < 9) := by
  have hv := ofTiles_valid ht
  refine ⟨rfl, hv.2.1, hv.2.2.1, hv.2.2.2, ?_, fun q hq => neighbors_valid hs hq,
    ⟨hs.2.1, hs.2.2.1⟩, fun mv hmv n hn => moveIdx_range hs hmv hn⟩
  intro i hi0 hi9 hi
  exact tileAt_inj (ht.nodup_iff.mpr (by decide)) ht.length_eq hi0 hi9 hv.2.1 hv.2.2.1
    (hi.trans hv.2.2.2.symm)

/-- C9, witness: the board 8 1 2 7 0 3 6 5 4 and its left neighbour. -/
theorem board_invariant_witness :
    tileAt [8, 1, 2, 7, 0, 3, 6, 5, 4]
        (PuzzleState.ofTiles [8, 1, 2, 7, 0, 3, 6, 5, 4]).blankIdx = 0 ∧
      Valid ⟨[8, 1, 2, 0, 7, 3, 6, 5, 4], 3⟩ :=
  ⟨(board_invariant [8, 1, 2, 7, 0, 3, 6, 5, 4]
      (PuzzleState.ofTiles [8, 1, 2, 7, 0, 3, 6, 5, 4]) (by decide) (by decide)).2.2.2.1,
    (board_invariant [8, 1, 2, 7, 0, 3, 6, 5, 4]
      (PuzzleState.ofTiles [8, 1, 2, 7, 0, 3, 6, 5, 4]) (by decide) (by decide)).2.2.2.2.2.1
      ⟨[8, 1, 2, 0, 7, 3, 6, 5, 4], 3⟩ (by decide)⟩

/-! ## The Manhattan heuristic -/

theorem manhattan_eq (a0 a1 a2 a3 a4 a5 a6 a7 a8 b : Int) :
    manhattan ⟨[a0, a1, a2, a3, a4, a5, a6, a7, a8], b⟩ =
      0 + tileDist 0 a0 + tileDist 1 a1 + tileDist 2 a2 + tileDist 3 a3 + tileDist 4 a4 +
        tileDist 5 a5 + tileDist 6 a6 + tileDist 7 a7 + tileDist 8 a8 := rfl

theorem tileDist_zero (i : Nat) : tileDist i 0 = 0 := by
  simp [tileDist]

theorem tileDist_adjacent_aux :
    ∀ p ∈ [((0 : Nat), (1 : Nat)), (1, 0), (1, 2), (2, 1), (3, 4), (4, 3), (4, 5), (5, 4),
      (6, 7), (7, 6), (7, 8), (8, 7), (0, 3), (3, 0), (1, 4), (4, 1), (2, 5), (5, 2), (3, 6),
      (6, 3), (4, 7), (7, 4), (5, 8), (8, 5)],
    ∀ v ∈ ([0, 1, 2, 3, 4, 5, 6, 7, 8] : List Int), tileDist p.1 v ≤ 1 + tileDist p.2 v := by
  decide

theorem tileDist_adjacent (i j : Nat) (v : Int) (hv : 0 ≤ v ∧ v ≤ 8)
    (hij : (i, j) ∈ [((0 : Nat), (1 : Nat)), (1, 0), (1, 2), (2, 1), (3, 4), (4, 3), (4, 5),
      (5, 4), (6, 7), (7, 6), (7, 8), (8, 7), (0, 3), (3, 0), (1, 4), (4, 1), (2, 5), (5, 2),
      (3, 6), (6, 3), (4, 7), (7, 4), (5, 8), (8, 5)]) :
    tileDist i v ≤ 1 + tileDist j v := by
  obtain ⟨hv0, hv8⟩ := hv
  have hmem : v ∈ ([0, 1, 2, 3, 4, 5, 6, 7, 8] : List Int) := by
    interval_cases v <;> decide
  exact tileDist_adjacent_aux (i, j) hij v hmem

/-- Consistency of the heuristic under unit move cost. -/
theorem manhattan_step {s q : PuzzleState} (h : Valid s) (hq : q ∈ s.neighbors) :
    manhattan s ≤ 1 + manhattan q := by
  obtain ⟨a0, a1, a2, a3, a4, a5, a6, a7, a8, b, rfl, h0, h9, hnd, hr, hz⟩ := valid_cases h
  have f01 : tileDist 1 a1 ≤ 1 + tileDist 0 a1 :=
    tileDist_adjacent 1 0 a1 (hr a1 (by simp)) (by decide)
  have f03 : tileDist 3 a3 ≤ 1 + tileDist 0 a3 :=
    tileDist_adjacent 3 0 a3 (hr a3 (by simp)) (by decide)
  have f10 : tileDist 0 a0 ≤ 1 + tileDist 1 a0 :=
    tileDist_adjacent 0 1 a0 (hr a0 (by simp)) (by decide)
  have f12 : tileDist 2 a2 ≤ 1 + tileDist 1 a2 :=
    tileDist_adjacent 2 1 a2 (hr a2 (by simp)) (by decide)
  have f14 : tileDist 4 a4 ≤ 1 + tileDist 1 a4 :=
    tileDist_adjacent 4 1 a4 (hr a4 (by simp)) (by decide)
  have f21 : tileDist 1 a1 ≤ 1 + tileDist 2 a1 :=
    tileDist_adjacent 1 2 a1 (hr a1 (by simp)) (by decide)
  have f25 : tileDist 5 a5 ≤ 1 + tileDist 2 a5 :=
    tileDist_adjacent 5 2 a5 (hr a5 (by simp)) (by decide)
  have f34 : tileDist 4 a4 ≤ 1 + tileDist 3 a4 :=
    tileDist_adjacent 4 3 a4 (hr a4 (by simp)) (by decide)
  have f30 : tileDist 0 a0 ≤ 1 + tileDist 3 a0 :=
    tileDist_adjacent 0 3 a0 (hr a0 (by simp)) (by decide)
  have f36 : tileDist 6 a6 ≤ 1 + tileDist 3 a6 :=
    tileDist_adjacent 6 3 a6 (hr a6 (by simp)) (by decide)
  have f43 : tileDist 3 a3 ≤ 1 + tileDist 4 a3 :=
    tileDist_adjacent 3 4 a3 (hr a3 (by simp)) (by decide)
  have f45 : tileDist 5 a5 ≤ 1 + tileDist 4 a5 :=
    tileDist_adjacent 5 4 a5 (hr a5 (by simp)) (by decide)
  have f41 : tileDist 1 a1 ≤ 1 + tileDist 4 a1 :=
    tileDist_adjacent 1 4 a1 (hr a1 (by simp)) (by decide)
  have f47 : tileDist 7 a7 ≤ 1 + tileDist 4 a7 :=
    tileDist_adjacent 7 4 a7 (hr a7 (by simp)) (by decide)
  have f54 : tileDist 4 a4 ≤ 1 + tileDist 5 a4 :=
    tileDist_adjacent 4 5 a4 (hr a4 (by simp)) (by decide)
  have f52 : tileDist 2 a2 ≤ 1 + tileDist 5 a2 :=
    tileDist_adjacent 2 5 a2 (hr a2 (by simp)) (by decide)
  have f58 : tileDist 8 a8 ≤ 1 + tileDist 5 a8 :=
    tileDist_adjacent 8 5 a8 (hr a8 (by simp)) (by decide)
  have f67 : tileDist 7 a7 ≤ 1 + tileDist 6 a7 :=
    tileDist_adjacent 7 6 a7 (hr a7 (by simp)) (by decide)
  have f63 : tileDist 3 a3 ≤ 1 + tileDist 6 a3 :=
    tileDist_adjacent 3 6 a3 (hr a3 (by simp)) (by decide)
  have f76 : tileDist 6 a6 ≤ 1 + tileDist 7 a6 :=
    tileDist_adjacent 6 7 a6 (hr a6 (by simp)) (by decide)
  have f78 : tileDist 8 a8 ≤ 1 + tileDist 7 a8 :=
    tileDist_adjacent 8 7 a8 (hr a8 (by simp)) (by decide)
  have f74 : tileDist 4 a4 ≤ 1 + tileDist 7 a4 :=
    tileDist_adjacent 4 7 a4 (hr a4 (by simp)) (by decide)
  have f87 : tileDist 7 a7 ≤ 1 + tileDist 8 a7 :=
    tileDist_adjacent 7 8 a7 (hr a7 (by simp)) (by decide)
  have f85 : tileDist 5 a5 ≤ 1 + tileDist 8 a5 :=
    tileDist_adjacent 5 8 a5 (hr a5 (by simp)) (by decide)
  interval_cases b
  all_goals
    simp only [neighbors_b0, neighbors_b1, neighbors_b2, neighbors_b3, neighbors_b4,
      neighbors_b5, neighbors_b6, neighbors_b7, neighbors_b8, List.mem_cons, List.mem_singleton,
      List.not_mem_nil, or_false] at hq
    simp [tileAt] at hz
    subst hz
    rcases hq with rfl | rfl | rfl | rfl
  all_goals
    simp only [manhattan_eq, tileDist_zero]
    omega

theorem manhattan_goal {g : PuzzleState} (hg : g.isGoal = true) : manhattan g = 0 := by
  obtain ⟨t, b⟩ := g
  simp only [PuzzleState.isGoal, decide_eq_true_eq] at hg
  subst hg
  rfl

theorem isPath_cons_cons {p q b : PuzzleState} {l : List PuzzleState} {a : PuzzleState}
    (h : IsPath (p :: q :: l) a b) : a = p ∧ q ∈ p.neighbors ∧ IsPath (q :: l) q b := by
  obtain ⟨h1, h2, h3⟩ := h
  simp only [List.head?_cons, Option.some.injEq] at h1
  refine ⟨h1.symm, h3.1, rfl, ?_, h3.2⟩
  simpa [List.getLast?_cons_cons] using h2

theorem isPath_valid {l : List PuzzleState} {a b : PuzzleState} (h : IsPath l a b)
    (ha : Valid a) : ∀ x ∈ l, Valid x := by
  induction l generalizing a with
  | nil => simp
  | cons p l ih =>
    cases l with
    | nil =>
      obtain ⟨h1, -, -⟩ := h
      simp only [List.head?_cons, Option.some.injEq] at h1
      subst h1
      simpa using ha
    | cons q l =>
      obtain ⟨rfl, hq, hrest⟩ := isPath_cons_cons h
      intro x hx
      rcases List.mem_cons.mp hx with rfl | hx
      · exact ha
      · exact ih hrest (neighbors_valid ha hq) x hx

/-- C10: the Manhattan heuristic is admissible: for a valid board `s` and any
move chain `l` from `s` to a goal board, `manhattan s` is at most the number of
moves `l.length - 1`. -/
theorem manhattan_admissible (s g : PuzzleState) (l : List PuzzleState) (hs : Valid s)
    (hp : IsPath l s g) (hg : g.isGoal = true) : manhattan s ≤ (l.length : Int) - 1 := by
  induction l generalizing s with
  | nil => simp [IsPath] at hp
  | cons p l ih =>
    cases l with
    | nil =>
      obtain ⟨h1, h2, -⟩ := hp
      simp only [List.head?_cons, Option.some.injEq, List.getLast?_singleton] at h1 h2
      subst h1
      subst h2
      simp [manhattan_goal hg]
    | cons q l =>
      obtain ⟨rfl, hq, hrest⟩ := isPath_cons_cons hp
      have h1 := ih q (neighbors_valid hs hq) hrest
      have h2 := manhattan_step hs hq
      simp only [List.length_cons, Nat.cast_add, Nat.cast_one] at h1 ⊢
      omega

/-- C10, witness: the two-move chain from 1 2 3 4 5 6 0 7 8 to the goal. -/
theorem manhattan_admissible_witness :
    manhattan (PuzzleState.ofTiles [1, 2, 3, 4, 5, 6, 0, 7, 8]) ≤ 2 :=
  manhattan_admissible (PuzzleState.ofTiles [1, 2, 3, 4, 5, 6, 0, 7, 8])
    (PuzzleState.ofTiles [1, 2, 3, 4, 5, 6, 7, 8, 0])
    [PuzzleState.ofTiles [1, 2, 3, 4, 5, 6, 0, 7, 8],
      PuzzleState.ofTiles [1, 2, 3, 4, 5, 6, 7, 0, 8],
      PuzzleState.ofTiles [1, 2, 3, 4, 5, 6, 7, 8, 0]]
    (by decide) (by decide) (by decide)

/-! ## Move chains -/

theorem isPath_singleton (a : PuzzleState) : IsPath [a] a a :=
  ⟨rfl, rfl, trivial⟩

theorem isPath_cons {p q g : PuzzleState} {l : List PuzzleState} (hq : q ∈ p.neighbors)
    (h : IsPath (q :: l) q g) : IsPath (p :: q :: l) p g := by
  obtain ⟨-, h2, h3⟩ := h
  refine ⟨rfl, ?_, hq, h3⟩
  simpa [List.getLast?_cons_cons] using h2

theorem isPath_head {l : List PuzzleState} {a b : PuzzleState} (h : IsPath l a b) :
    ∃ l', l = a :: l' := by
  obtain ⟨h1, -, -⟩ := h
  cases l with
  | nil => simp at h1
  | cons p l' =>
    simp only [List.head?_cons, Option.some.injEq] at h1
    exact ⟨l', by rw [h1]⟩

theorem isPath_suffix {A B : List PuzzleState} {x a g : PuzzleState}
    (h : IsPath (A ++ x :: B) a g) : IsPath (x :: B) x g := by
  induction A generalizing a with
  | nil =>
    obtain ⟨-, h2, h3⟩ := h
    exact ⟨rfl, h2, h3⟩
  | cons p A ih =>
    cases hA : A ++ x :: B with
    | nil => simp at hA
    | cons q l =>
      rw [List.cons_append, hA] at h
      obtain ⟨-, -, hrest⟩ := isPath_cons_cons h
      rw [← hA] at hrest
      exact ih hrest

theorem valid_eq_of_tiles {x y : PuzzleState} (hx : Valid x) (hy : Valid y)
    (h : x.tiles = y.tiles) : x = y := by
  obtain ⟨t, b⟩ := x
  obtain ⟨t', b'⟩ := y
  simp only at h
  subst h
  obtain ⟨hp, h0, h9, hz⟩ := hx
  obtain ⟨-, h0', h9', hz'⟩ := hy
  simp only at hp h0 h9 hz h0' h9' hz'
  have := tileAt_inj (hp.nodup_iff.mpr (by decide)) hp.length_eq h0 h9 h0' h9' (hz.trans hz'.symm)
  rw [this]

/-! ## The backtracking solver -/

theorem dfsLoop_post {call : PuzzleState → List (List Int) → List PuzzleState → Option DfsResult}
    {current : PuzzleState} {k : Int}
    (hcall : ∀ nxt v p r, call nxt v p = some r → DfsPost nxt v p k r) :
    ∀ (nbrs : List PuzzleState) (v : List (List Int)) (path : List PuzzleState) (r : DfsResult),
      (∀ n ∈ nbrs, n ∈ current.neighbors) →
      dfsLoop call current nbrs v path = some r →
      (r.found = true → ∃ ext g, r.path = path ++ ext ∧ IsPath (current :: ext) current g ∧
        g.isGoal = true ∧ (ext.length : Int) ≤ k + 1) ∧
      (r.found = false → r.path = path ∧ r.visited = visitedErase v current) := by
  intro nbrs
  induction nbrs with
  | nil =>
    intro v path r _ h
    simp only [dfsLoop, Option.some.injEq] at h
    subst h
    simp
  | cons nxt rest ih =>
    intro v path r hn h
    have hrest : ∀ n ∈ rest, n ∈ current.neighbors := fun n hn' => hn n (List.mem_cons_of_mem _ hn')
    rw [dfsLoop] at h
    split at h
    · exact ih v path r hrest h
    · rename_i hcount
      split at h
      · exact absurd h (by simp)
      · rename_i r' hr'
        have hpost := hcall _ _ _ _ hr'
        split at h
        · rename_i hfound
          simp only [Option.some.injEq] at h
          subst h
          refine ⟨fun _ => ?_, fun hf => by simp at hf⟩
          obtain ⟨ext, g, hpath, hp, hg, hlen⟩ := hpost.1 hfound
          refine ⟨nxt :: ext, g, ?_, isPath_cons (hn nxt (List.mem_cons_self _ _)) hp, hg, ?_⟩
          · simp [hpath]
          · simp only [List.length_cons, Nat.cast_add, Nat.cast_one]; omega
        · rename_i hfound
          have hf : r'.found = false := by simpa using hfound
          obtain ⟨hpath, hvis⟩ := hpost.2 hf
          have hnv : nxt.tiles ∉ v := by simpa [visitedCount] using hcount
          rw [hpath, hvis hnv, List.dropLast_concat] at h
          exact ih v path r hrest h

theorem visitedErase_insert {v : List (List Int)} {c : PuzzleState} (h : c.tiles ∉ v) :
    visitedErase (visitedInsert v c) c = v := by
  simp [visitedErase, visitedInsert, h]

theorem dfs_post : ∀ (fuel : Nat) (current : PuzzleState) (visited : List (List Int))
    (path : List PuzzleState) (depth depthLimit : Int) (r : DfsResult),
    depth ≤ depthLimit → dfs fuel current visited path depth depthLimit = some r →
    DfsPost current visited path (depthLimit - depth) r := by
  intro fuel
  induction fuel with
  | zero => intro current visited path depth depthLimit r _ h; simp [dfs] at h
  | succ fuel ih =>
    intro current visited path depth depthLimit r hd h
    rw [dfs] at h
    split at h
    · rename_i hg
      simp only [Option.some.injEq] at h
      subst h
      refine ⟨fun _ => ⟨[], current, by simp, isPath_singleton current, hg, ?_⟩,
        fun hf => by simp at hf⟩
      simp only [List.length_nil, Nat.cast_zero]; omega
    · split at h
      · simp only [Option.some.injEq] at h
        subst h
        exact ⟨fun hf => by simp at hf, fun _ => ⟨rfl, fun _ => rfl⟩⟩
      · rename_i hlt
        have hlt' : depth + 1 ≤ depthLimit := by omega
        have := @dfsLoop_post _ current (depthLimit - (depth + 1))
          (fun nxt v p r hr => ih nxt v p (depth + 1) depthLimit r hlt' hr)
          current.neighbors _ path r (fun n hn => hn) h
        refine ⟨fun hf => ?_, fun hf => ?_⟩
        · obtain ⟨ext, g, h1, h2, h3, h4⟩ := this.1 hf
          exact ⟨ext, g, h1, h2, h3, by omega⟩
        · obtain ⟨h1, h2⟩ := this.2 hf
          exact ⟨h1, fun hv => by rw [h2, visitedErase_insert hv]⟩

theorem dfsLoop_total {call : PuzzleState → List (List Int) → List PuzzleState → Option DfsResult}
    (current : PuzzleState) (hcall : ∀ nxt v p, ∃ r, call nxt v p = some r) :
    ∀ (nbrs : List PuzzleState) (v : List (List Int)) (path : List PuzzleState),
      ∃ r, dfsLoop call current nbrs v path = some r := by
  intro nbrs
  induction nbrs with
  | nil => intro v path; exact ⟨_, rfl⟩
  | cons nxt rest ih =>
    intro v path
    rw [dfsLoop]
    split
    · exact ih v path
    · obtain ⟨r', hr'⟩ := hcall nxt v (path ++ [nxt])
      rw [hr']
      simp only
      split
      · exact ⟨_, rfl⟩
      · exact ih _ _

theorem dfs_total : ∀ (fuel : Nat) (current : PuzzleState) (visited : List (List Int))
    (path : List PuzzleState) (depth depthLimit : Int),
    (depthLimit - depth).toNat < fuel →
    ∃ r, dfs fuel current visited path depth depthLimit = some r := by
  intro fuel
  induction fuel with
  | zero => intro _ _ _ depth depthLimit h; omega
  | succ fuel ih =>
    intro current visited path depth depthLimit hf
    rw [dfs]
    split
    · exact ⟨_, rfl⟩
    · split
      · exact ⟨_, rfl⟩
      · rename_i hlt
        exact dfsLoop_total current
          (fun nxt v p => ih nxt v p (depth + 1) depthLimit (by omega)) _ _ _

theorem dfsLoop_complete
    {call : PuzzleState → List (List Int) → List PuzzleState → Option DfsResult}
    {current q : PuzzleState} {v : List (List Int)}
    (hq : q.tiles ∉ v)
    (hfound : ∀ p, ∃ r, call q v p = some r ∧ r.found = true)
    (hframe : ∀ nxt p, nxt.tiles ∉ v →
      ∃ r, call nxt v p = some r ∧ (r.found = false → r.path = p ∧ r.visited = v)) :
    ∀ (nbrs : List PuzzleState) (path : List PuzzleState), q ∈ nbrs →
      ∃ r, dfsLoop call current nbrs v path = some r ∧ r.found = true := by
  intro nbrs
  induction nbrs with
  | nil => intro path h; simp at h
  | cons nxt rest ih =>
    intro path hmem
    rw [dfsLoop]
    split
    · rename_i hcount
      have hvn : nxt.tiles ∈ v := by simpa [visitedCount] using hcount
      rcases List.mem_cons.mp hmem with rfl | hmem'
      · exact absurd hvn hq
      · exact ih path hmem'
    · rename_i hcount
      have hnv : nxt.tiles ∉ v := by simpa [visitedCount] using hcount
      obtain ⟨r', hr', hfr⟩ := hframe nxt (path ++ [nxt]) hnv
      rw [hr']
      simp only
      split
      · rename_i hf
        exact ⟨_, rfl, rfl⟩
      · rename_i hf
        have hf' : r'.found = false := by simpa using hf
        obtain ⟨hp, hv⟩ := hfr hf'
        rcases List.mem_cons.mp hmem with rfl | hmem'
        · obtain ⟨r'', hr'', hf''⟩ := hfound (path ++ [q])
          rw [hr'] at hr''
          simp only [Option.some.injEq] at hr''
          subst hr''
          rw [hf'] at hf''
          exact absurd hf'' (by simp)
        · rw [hp, hv, List.dropLast_concat]
          exact ih path hmem'

theorem avoidingPath_zero {c : PuzzleState} {v : List (List Int)} (h : AvoidingPath c v 0) :
    c.isGoal = true := by
  obtain ⟨l, g, hp, hg, hl, -⟩ := h
  obtain ⟨l', rfl⟩ := isPath_head hp
  cases l' with
  | nil =>
    obtain ⟨-, h2, -⟩ := hp
    simp only [List.getLast?_singleton, Option.some.injEq] at h2
    rw [h2]; exact hg
  | cons q l'' => simp at hl

/-- From a shortest avoiding chain, the chain continues through a neighbour
with one move less, avoiding `current` as well. -/
theorem avoidingPath_next {c : PuzzleState} {v : List (List Int)} {m : Nat} (hc : Valid c)
    (hng : c.isGoal ≠ true) (h : AvoidingPath c v m)
    (hmin : ∀ m', m' < m → ¬ AvoidingPath c v m') :
    ∃ q m', m = m' + 1 ∧ q ∈ c.neighbors ∧ AvoidingPath q (visitedInsert v c) m' := by
  obtain ⟨l, g, hp, hg, hl, hav⟩ := h
  obtain ⟨l', rfl⟩ := isPath_head hp
  cases l' with
  | nil =>
    exfalso
    apply hng
    obtain ⟨-, h2, -⟩ := hp
    simp only [List.getLast?_singleton, Option.some.injEq] at h2
    rw [h2]; exact hg
  | cons q rest =>
    obtain ⟨-, hq, hrest⟩ := isPath_cons_cons hp
    have hlen : m = rest.length + 1 := by simpa using hl.symm
    refine ⟨q, rest.length, hlen, hq, q :: rest, g, hrest, hg, rfl, ?_⟩
    intro x hx
    have hxv : x.tiles ∉ v := hav x (List.mem_cons_of_mem _ hx)
    have hvalid := isPath_valid hp hc
    unfold visitedInsert
    split
    · exact hxv
    · intro hmem
      rcases List.mem_cons.mp hmem with heq | hmem'
      · have hxc : x = c :=
          valid_eq_of_tiles (hvalid x (List.mem_cons_of_mem _ hx)) hc heq
        subst hxc
        obtain ⟨A, B, hAB⟩ := List.append_of_mem hx
        rw [hAB] at hrest
        have hsuf := isPath_suffix hrest
        apply hmin B.length
        · have : (q :: rest).length = A.length + (B.length + 1) := by
            rw [hAB]; simp
          simp only [List.length_cons] at this
          omega
        · refine ⟨x :: B, g, hsuf, hg, rfl, ?_⟩
          intro y hy
          apply hav
          apply List.mem_cons_of_mem
          rw [hAB]
          exact List.mem_append_right _ hy
      · exact hxv hmem'

theorem dfs_complete : ∀ (fuel : Nat) (current : PuzzleState) (visited : List (List Int))
    (path : List PuzzleState) (depth depthLimit : Int) (m : Nat),
    Valid current → (depthLimit - depth).toNat < fuel → (m : Int) ≤ depthLimit - depth →
    AvoidingPath current visited m →
    ∃ r, dfs fuel current visited path depth depthLimit = some r ∧ r.found = true := by
  intro fuel
  induction fuel with
  | zero => intro _ _ _ depth depthLimit _ _ h; omega
  | succ fuel ih =>
    intro current visited path depth depthLimit m hval hf hm hap
    rw [dfs]
    split
    · exact ⟨_, rfl, rfl⟩
    · rename_i hng
      classical
      have hex : ∃ m, AvoidingPath current visited m := ⟨m, hap⟩
      have hmin := fun m' (h : m' < Nat.find hex) => Nat.find_min hex h
      have hle : Nat.find hex ≤ m := Nat.find_min' hex hap
      obtain ⟨q, m', hm', hq, hap'⟩ :=
        avoidingPath_next hval hng (Nat.find_spec hex) hmin
      have hcv : current.tiles ∉ visited := by
        obtain ⟨l, g, hp, -, -, hav⟩ := hap
        obtain ⟨l', rfl⟩ := isPath_head hp
        exact hav current (List.mem_cons_self _ _)
      split
      · omega
      · have hqv : q.tiles ∉ visitedInsert visited current := by
          obtain ⟨l, g, hp, -, -, hav⟩ := hap'
          obtain ⟨l', rfl⟩ := isPath_head hp
          exact hav q (List.mem_cons_self _ _)
        refine dfsLoop_complete hqv ?_ ?_ current.neighbors path hq
        · intro p
          exact ih q _ p (depth + 1) depthLimit m' (neighbors_valid hval hq) (by omega)
            (by omega) hap'
        · intro nxt p hnv
          obtain ⟨r, hr⟩ := dfs_total fuel nxt (visitedInsert visited current) p (depth + 1)
            depthLimit (by omega)
          refine ⟨r, hr, fun hfr => ?_⟩
          have := (dfs_post fuel nxt _ p (depth + 1) depthLimit r (by omega) hr).2 hfr
          exact ⟨this.1, this.2 hnv⟩

theorem range_split {n L : Nat} {pre post : List Nat} (h : List.range n = pre ++ L :: post) :
    L < n ∧ ∀ k, k < L → k ∈ pre := by
  have hlen : n = pre.length + (post.length + 1) := by
    have := congrArg List.length h
    simpa using this
  have hL : L = pre.length := by
    have h1 : (List.range n)[pre.length]? = some L := by
      rw [h, List.getElem?_append_right (le_refl _)]; simp
    rw [List.getElem?_range (by omega)] at h1
    simpa using h1.symm
  refine ⟨by omega, fun k hk => ?_⟩
  have h2 : (List.range n)[k]? = some k := List.getElem?_range (by omega)
  rw [h, List.getElem?_append_left (by omega)] at h2
  exact List.getElem?_mem h2

theorem avoidingPath_nil {s : PuzzleState} {m : Nat} :
    AvoidingPath s [] m ↔ ReachesGoalIn s m := by
  constructor
  · rintro ⟨l, g, h1, h2, h3, -⟩
    exact ⟨l, g, h1, h2, h3⟩
  · rintro ⟨l, g, h1, h2, h3⟩
    exact ⟨l, g, h1, h2, h3, fun x _ => by simp⟩

theorem solveBacktrackingLoop_total (start : PuzzleState) :
    ∀ lims : List Nat, ∃ r, solveBacktrackingLoop start lims = some r := by
  intro lims
  induction lims with
  | nil => exact ⟨_, rfl⟩
  | cons L rest ih =>
    rw [solveBacktrackingLoop]
    obtain ⟨r', hr'⟩ := dfs_total (L + 1) start [] [start] 0 (L : Int) (by omega)
    rw [hr']
    simp only
    split
    · exact ⟨_, rfl⟩
    · exact ih

theorem solveBacktrackingLoop_spec (start : PuzzleState) :
    ∀ (lims : List Nat) (r : List PuzzleState), solveBacktrackingLoop start lims = some r →
      (r ≠ [] → ∃ pre L post r', lims = pre ++ L :: post ∧
        (∀ L' ∈ pre, ∃ r'', dfs (L' + 1) start [] [start] 0 (L' : Int) = some r'' ∧
          r''.found = false) ∧
        dfs (L + 1) start [] [start] 0 (L : Int) = some r' ∧ r'.found = true ∧ r'.path = r) ∧
      (r = [] → ∀ L ∈ lims, ∃ r'', dfs (L + 1) start [] [start] 0 (L : Int) = some r'' ∧
          r''.found = false) := by
  intro lims
  induction lims with
  | nil =>
    intro r h
    simp only [solveBacktrackingLoop, Option.some.injEq] at h
    subst h
    simp
  | cons L rest ih =>
    intro r h
    rw [solveBacktrackingLoop] at h
    split at h
    · exact absurd h (by simp)
    · rename_i r' hr'
      split at h
      · rename_i hf
        simp only [Option.some.injEq] at h
        have hpost := dfs_post _ _ _ _ _ _ _ (by omega) hr'
        obtain ⟨ext, g, hpath, -⟩ := hpost.1 hf
        refine ⟨fun _ => ⟨[], L, rest, r', rfl, by simp, hr', hf, h⟩, fun hnil => ?_⟩
        rw [← h, hpath] at hnil
        simp at hnil
      · rename_i hf
        have hf' : r'.found = false := by simpa using hf
        obtain ⟨ih1, ih2⟩ := ih r h
        refine ⟨fun hne => ?_, fun hnil => ?_⟩
        · obtain ⟨pre, L0, post, r0, h1, h2, h3⟩ := ih1 hne
          refine ⟨L :: pre, L0, post, r0, by simp [h1], ?_, h3⟩
          intro L' hL'
          rcases List.mem_cons.mp hL' with rfl | hL'
          · exact ⟨r', hr', hf'⟩
          · exact h2 L' hL'
        · intro L' hL'
          rcases List.mem_cons.mp hL' with rfl | hL'
          · exact ⟨r', hr', hf'⟩
          · exact ih2 hnil L' hL'

/-- A failed sweep at limit `L` rules out every chain of at most `L` moves. -/
theorem dfs_fail_no_path {start : PuzzleState} (hv : Valid start) {L : Nat} {r : DfsResult}
    (h : dfs (L + 1) start [] [start] 0 (L : Int) = some r) (hf : r.found = false)
    {m : Nat} (hm : m ≤ L) : ¬ ReachesGoalIn start m := by
  intro hreach
  obtain ⟨r', hr', hf'⟩ := dfs_complete (L + 1) start [] [start] 0 (L : Int) m hv (by omega)
    (by omega) (avoidingPath_nil.mpr hreach)
  rw [h] at hr'
  simp only [Option.some.injEq] at hr'
  subst hr'
  rw [hf] at hf'
  exact absurd hf' (by simp)

/-- What a non-empty result of `solveBacktracking` is. -/
theorem solveBacktracking_nonempty {start : PuzzleState} {maxDepth : Int}
    {r : List PuzzleState} (hv : Valid start)
    (h : solveBacktracking start maxDepth = some r) (hne : r ≠ []) :
    ∃ g, IsPath r start g ∧ g.isGoal = true ∧ ((r.length : Int) - 1 ≤ maxDepth) ∧
      ∀ m, ReachesGoalIn start m → r.length - 1 ≤ m := by
  obtain ⟨pre, L, post, r', hsplit, hpre, hdfs, hf, hpath⟩ :=
    (solveBacktrackingLoop_spec start _ r h).1 hne
  obtain ⟨hLn, hk⟩ := range_split hsplit
  obtain ⟨ext, g, hp, hip, hg, hlen⟩ := (dfs_post _ _ _ _ _ _ _ (by omega) hdfs).1 hf
  have hr : r = start :: ext := by rw [← hpath, hp]; rfl
  subst hr
  simp only [List.length_cons, Nat.cast_add, Nat.cast_one, add_sub_cancel_right,
    Nat.add_sub_cancel]
  refine ⟨g, hip, hg, by omega, fun m hm => ?_⟩
  by_contra hlt
  have hmL : m < L := by omega
  obtain ⟨r'', hr'', hf''⟩ := hpre m (hk m hmL)
  exact dfs_fail_no_path hv hr'' hf'' (le_refl m) hm

/-- C6: for a valid start board and any ceiling, `solveBacktracking` returns,
and a non-empty result begins with the start board, ends with a goal board and
links consecutive boards by legal moves (`q ∈ p.neighbors`). -/
theorem solveBacktracking_valid_chain (start : PuzzleState) (maxDepth : Int)
    (hv : Valid start) :
    ∃ r, solveBacktracking start maxDepth = some r ∧
      (r ≠ [] → r.head? = some start ∧ (∃ g, r.getLast? = some g ∧ g.isGoal = true) ∧
        MoveChain r) := by
  obtain ⟨r, hr⟩ := solveBacktrackingLoop_total start (List.range (maxDepth + 1).toNat)
  refine ⟨r, hr, fun hne => ?_⟩
  obtain ⟨g, ⟨h1, h2, h3⟩, hg, -⟩ := solveBacktracking_nonempty hv hr hne
  exact ⟨h1, ⟨g, h2, hg⟩, h3⟩

/-- C6, witness: the start board 1 2 3 4 5 6 0 7 8 with ceiling 2. -/
theorem solveBacktracking_valid_chain_witness :
    ∃ r, solveBacktracking (PuzzleState.ofTiles [1, 2, 3, 4, 5, 6, 0, 7, 8]) 2 = some r ∧
      (r ≠ [] → r.head? = some (PuzzleState.ofTiles [1, 2, 3, 4, 5, 6, 0, 7, 8]) ∧
        (∃ g, r.getLast? = some g ∧ g.isGoal = true) ∧ MoveChain r) :=
  solveBacktracking_valid_chain (PuzzleState.ofTiles [1, 2, 3, 4, 5, 6, 0, 7, 8]) 2 (by decide)

/-- C2: for a valid start board and any ceiling, a non-empty result of
`solveBacktracking` has at most `maxDepth` moves, is a move chain from the start
to a goal board, and no move chain from the start to a goal board has fewer
moves. -/
theorem solveBacktracking_shortest (start : PuzzleState) (maxDepth : Int)
    (r : List PuzzleState) (hv : Valid start)
    (h : solveBacktracking start maxDepth = some r) (hne : r ≠ []) :
    (r.length : Int) - 1 ≤ maxDepth ∧ ReachesGoalIn start (r.length - 1) ∧
      ∀ m, ReachesGoalIn start m → r.length - 1 ≤ m := by
  obtain ⟨g, hp, hg, hlen, hmin⟩ := solveBacktracking_nonempty hv h hne
  refine ⟨hlen, ⟨r, g, hp, hg, ?_⟩, hmin⟩
  have : r.length ≠ 0 := fun h0 => hne (List.length_eq_zero.mp h0)
  omega

/-- C2, witness: start 1 2 3 4 5 6 0 7 8 with ceiling 2 gives a chain of 3
boards, and 2 moves is the least possible. -/
theorem solveBacktracking_shortest_witness :
    (([PuzzleState.ofTiles [1, 2, 3, 4, 5, 6, 0, 7, 8],
        PuzzleState.ofTiles [1, 2, 3, 4, 5, 6, 7, 0, 8],
        PuzzleState.ofTiles [1, 2, 3, 4, 5, 6, 7, 8, 0]].length : Int) - 1 ≤ 2) ∧
      ReachesGoalIn (PuzzleState.ofTiles [1, 2, 3, 4, 5, 6, 0, 7, 8]) (3 - 1) ∧
      ∀ m, ReachesGoalIn (PuzzleState.ofTiles [1, 2, 3, 4, 5, 6, 0, 7, 8]) m → 3 - 1 ≤ m :=
  solveBacktracking_shortest (PuzzleState.ofTiles [1, 2, 3, 4, 5, 6, 0, 7, 8]) 2
    [PuzzleState.ofTiles [1, 2, 3, 4, 5, 6, 0, 7, 8],
      PuzzleState.ofTiles [1, 2, 3, 4, 5, 6, 7, 0, 8],
      PuzzleState.ofTiles [1, 2, 3, 4, 5, 6, 7, 8, 0]]
    (by decide) (by decide) (by decide)

/-! ## The A* solver -/

theorem isPath_snoc {l : List PuzzleState} {a p q : PuzzleState} (h : IsPath l a p)
    (hq : q ∈ p.neighbors) : IsPath (l ++ [q]) a q := by
  induction l generalizing a with
  | nil => simp [IsPath] at h
  | cons x l ih =>
    cases l with
    | nil =>
      obtain ⟨h1, h2, -⟩ := h
      simp only [List.head?_cons, Option.some.injEq, List.getLast?_singleton] at h1 h2
      subst h1; subst h2
      exact ⟨rfl, rfl, hq, trivial⟩
    | cons y l =>
      obtain ⟨rfl, hy, hrest⟩ := isPath_cons_cons h
      have := ih hrest
      exact isPath_cons hy this

theorem isPath_length_pos {l : List PuzzleState} {a b : PuzzleState} (h : IsPath l a b) :
    0 < l.length := by
  obtain ⟨l', rfl⟩ := isPath_head h
  simp

theorem isPath_last_valid {l : List PuzzleState} {a b : PuzzleState} (h : IsPath l a b)
    (ha : Valid a) : Valid b :=
  isPath_valid h ha b (List.mem_of_mem_getLast? h.2.1)

theorem mem_push {pq : PriorityQueue} (hl : pq.Lawful) (q : pq.Q) (x n : Node) :
    n ∈ pq.toList (pq.push q x) ↔ n = x ∨ n ∈ pq.toList q := by
  rw [(hl.toList_push q x).mem_iff, List.mem_cons]

theorem length_push {pq : PriorityQueue} (hl : pq.Lawful) (q : pq.Q) (x : Node) :
    (pq.toList (pq.push q x)).length = (pq.toList q).length + 1 := by
  rw [(hl.toList_push q x).length_eq, List.length_cons]

theorem mem_pop {pq : PriorityQueue} (hl : pq.Lawful) {q q' : pq.Q} {x : Node}
    (h : pq.pop q = some (x, q')) (n : Node) :
    n ∈ pq.toList q ↔ n = x ∨ n ∈ pq.toList q' := by
  rw [(hl.pop_some q x q' h).1.mem_iff, List.mem_cons]

theorem length_pop {pq : PriorityQueue} (hl : pq.Lawful) {q q' : pq.Q} {x : Node}
    (h : pq.pop q = some (x, q')) :
    (pq.toList q).length = (pq.toList q').length + 1 := by
  rw [(hl.pop_some q x q' h).1.length_eq, List.length_cons]

theorem listPopMin_spec : ∀ (l : List Node),
    (listPopMin l = none ↔ l = []) ∧
      ∀ n l', listPopMin l = some (n, l') → l.Perm (n :: l') ∧ ∀ m ∈ l, n.f ≤ m.f := by
  intro l
  induction l with
  | nil => simp [listPopMin]
  | cons x rest ih =>
    obtain ⟨ih1, ih2⟩ := ih
    constructor
    · simp only [listPopMin]
      split <;> [simp; (split <;> simp)]
    · intro n l' h
      simp only [listPopMin] at h
      split at h
      · rename_i hnone
        simp only [Option.some.injEq, Prod.mk.injEq] at h
        obtain ⟨rfl, rfl⟩ := h
        have : rest = [] := ih1.mp hnone
        subst this
        simp
      · rename_i m rest' hsome
        obtain ⟨hperm, hmin⟩ := ih2 m rest' hsome
        split at h
        · rename_i hle
          simp only [Option.some.injEq, Prod.mk.injEq] at h
          obtain ⟨rfl, rfl⟩ := h
          refine ⟨List.Perm.refl _, fun y hy => ?_⟩
          rcases List.mem_cons.mp hy with rfl | hy
          · exact le_refl _
          · exact le_trans hle (hmin y hy)
        · rename_i hle
          simp only [Option.some.injEq, Prod.mk.injEq] at h
          obtain ⟨rfl, rfl⟩ := h
          refine ⟨?_, fun y hy => ?_⟩
          · exact (List.Perm.cons x hperm).trans (List.Perm.swap _ _ _)
          · rcases List.mem_cons.mp hy with rfl | hy
            · omega
            · exact hmin y hy

theorem listQueue_lawful : listQueue.Lawful where
  toList_empty := rfl
  toList_push := fun _ _ => List.Perm.refl _
  pop_none := fun q => (listPopMin_spec q).1
  pop_some := fun q n q' h => (listPopMin_spec q).2 n q' h

theorem expand_cond_iff (bestG : BestG) (t : List Int) (g : Int) :
    ((bestG t).isNone = true ∨ g < (bestG t).getD 0) ↔
      (bestG t = none ∨ ∃ g0, bestG t = some g0 ∧ g < g0) := by
  cases h : bestG t <;> simp

theorem expand_nil (pq : PriorityQueue) (node : Node) (fr : pq.Q) (bg : BestG) :
    expand pq node [] fr bg = (fr, bg) := rfl

theorem expand_cons_pos (pq : PriorityQueue) (node : Node) (nbr : PuzzleState)
    (rest : List PuzzleState) (fr : pq.Q) (bg : BestG)
    (h : bg nbr.tiles = none ∨ ∃ g0, bg nbr.tiles = some g0 ∧ node.g + 1 < g0) :
    expand pq node (nbr :: rest) fr bg =
      expand pq node rest (pq.push fr (Node.new nbr (node.g + 1) (manhattan nbr) (some node)))
        (bg.set nbr (node.g + 1)) := by
  rw [expand]
  simp only
  rw [if_pos ((expand_cond_iff bg nbr.tiles (node.g + 1)).mpr h)]

theorem expand_cons_neg (pq : PriorityQueue) (node : Node) (nbr : PuzzleState)
    (rest : List PuzzleState) (fr : pq.Q) (bg : BestG)
    (h : ¬ (bg nbr.tiles = none ∨ ∃ g0, bg nbr.tiles = some g0 ∧ node.g + 1 < g0)) :
    expand pq node (nbr :: rest) fr bg = expand pq node rest fr bg := by
  rw [expand]
  simp only
  rw [if_neg (fun hc => h ((expand_cond_iff bg nbr.tiles (node.g + 1)).mp hc))]

theorem expand_mem_old {pq : PriorityQueue} (hl : pq.Lawful) (node : Node) :
    ∀ (nbrs : List PuzzleState) (fr : pq.Q) (bg : BestG) (n : Node),
      n ∈ pq.toList fr → n ∈ pq.toList (expand pq node nbrs fr bg).1 := by
  intro nbrs
  induction nbrs with
  | nil => intro fr bg n h; exact h
  | cons nbr rest ih =>
    intro fr bg n h
    by_cases hc : bg nbr.tiles = none ∨ ∃ g0, bg nbr.tiles = some g0 ∧ node.g + 1 < g0
    · rw [expand_cons_pos pq node nbr rest fr bg hc]
      exact ih _ _ n ((mem_push hl _ _ _).mpr (Or.inr h))
    · rw [expand_cons_neg pq node nbr rest fr bg hc]
      exact ih _ _ n h

theorem expand_frontier {pq : PriorityQueue} (hl : pq.Lawful) (node : Node) :
    ∀ (nbrs : List PuzzleState) (fr : pq.Q) (bg : BestG) (n : Node),
      n ∈ pq.toList (expand pq node nbrs fr bg).1 →
      n ∈ pq.toList fr ∨
        ∃ nbr ∈ nbrs, n = Node.new nbr (node.g + 1) (manhattan nbr) (some node) := by
  intro nbrs
  induction nbrs with
  | nil => intro fr bg n h; exact Or.inl h
  | cons nbr rest ih =>
    intro fr bg n h
    by_cases hc : bg nbr.tiles = none ∨ ∃ g0, bg nbr.tiles = some g0 ∧ node.g + 1 < g0
    · rw [expand_cons_pos pq node nbr rest fr bg hc] at h
      rcases ih _ _ n h with h1 | ⟨x, hx, rfl⟩
      · rcases (mem_push hl _ _ _).mp h1 with rfl | h2
        · exact Or.inr ⟨nbr, List.mem_cons_self _ _, rfl⟩
        · exact Or.inl h2
      · exact Or.inr ⟨x, List.mem_cons_of_mem _ hx, rfl⟩
    · rw [expand_cons_neg pq node nbr rest fr bg hc] at h
      rcases ih _ _ n h with h1 | ⟨x, hx, rfl⟩
      · exact Or.inl h1
      · exact Or.inr ⟨x, List.mem_cons_of_mem _ hx, rfl⟩

theorem bestG_set_same (bg : BestG) (s : PuzzleState) (g : Int) :
    (bg.set s g) s.tiles = some g := by
  simp [BestG.set]

theorem bestG_set_other (bg : BestG) (s : PuzzleState) (g : Int) {t : List Int}
    (h : t ≠ s.tiles) : (bg.set s g) t = bg t := by
  simp [BestG.set, h]

theorem expand_bestG {pq : PriorityQueue} (hl : pq.Lawful) (node : Node) :
    ∀ (nbrs : List PuzzleState) (fr : pq.Q) (bg : BestG) (t : List Int),
      (expand pq node nbrs fr bg).2 t = bg t ∨
        ∃ nbr ∈ nbrs, t = nbr.tiles ∧ (expand pq node nbrs fr bg).2 t = some (node.g + 1) ∧
          (bg t = none ∨ ∃ g0, bg t = some g0 ∧ node.g + 1 < g0) ∧
          Node.new nbr (node.g + 1) (manhattan nbr) (some node) ∈
            pq.toList (expand pq node nbrs fr bg).1 := by
  intro nbrs
  induction nbrs with
  | nil => intro fr bg t; exact Or.inl rfl
  | cons nbr rest ih =>
    intro fr bg t
    by_cases hc : bg nbr.tiles = none ∨ ∃ g0, bg nbr.tiles = some g0 ∧ node.g + 1 < g0
    · rw [expand_cons_pos pq node nbr rest fr bg hc]
      rcases ih (pq.push fr (Node.new nbr (node.g + 1) (manhattan nbr) (some node)))
        (bg.set nbr (node.g + 1)) t with h1 | ⟨x, hx, htx, h2, h3, h4⟩
      · by_cases ht : t = nbr.tiles
        · right
          refine ⟨nbr, List.mem_cons_self _ _, ht, ?_, ?_, ?_⟩
          · rw [h1, ht, bestG_set_same]
          · rw [ht]; exact hc
          · exact expand_mem_old hl node rest _ _ _
              ((mem_push hl _ _ _).mpr (Or.inl rfl))
        · left
          rw [h1, bestG_set_other _ _ _ ht]
      · by_cases ht : t = nbr.tiles
        · exfalso
          rw [ht, bestG_set_same] at h3
          rcases h3 with h3 | ⟨g0, h3, h3'⟩
          · exact absurd h3 (by simp)
          · simp only [Option.some.injEq] at h3
            omega
        · right
          rw [bestG_set_other _ _ _ ht] at h3
          exact ⟨x, List.mem_cons_of_mem _ hx, htx, h2, h3, h4⟩
    · rw [expand_cons_neg pq node nbr rest fr bg hc]
      rcases ih fr bg t with h1 | ⟨x, hx, htx, h2, h3, h4⟩
      · exact Or.inl h1
      · exact Or.inr ⟨x, List.mem_cons_of_mem _ hx, htx, h2, h3, h4⟩

/-- After the expansion every neighbour has a recorded cost of at most `g + 1`. -/
theorem expand_nbr {pq : PriorityQueue} (hl : pq.Lawful) (node : Node)
    (nbrs : List PuzzleState) (fr : pq.Q) (bg : BestG) (nbr : PuzzleState) (h : nbr ∈ nbrs) :
    ∃ g', (expand pq node nbrs fr bg).2 nbr.tiles = some g' ∧ g' ≤ node.g + 1 := by
  rcases expand_bestG hl node nbrs fr bg nbr.tiles with h1 | ⟨x, -, -, h2, -, -⟩
  · -- unchanged: the test failed for `nbr` at its turn, or an equal-tiles neighbour
    -- came first; in both cases the entry was already small
    revert fr bg
    induction nbrs with
    | nil => simp at h
    | cons y rest ih =>
      intro fr bg h1
      by_cases hc : bg y.tiles = none ∨ ∃ g0, bg y.tiles = some g0 ∧ node.g + 1 < g0
      · rw [expand_cons_pos pq node y rest fr bg hc] at h1 ⊢
        rcases List.mem_cons.mp h with rfl | h'
        · exfalso
          rcases expand_bestG hl node rest
            (pq.push fr (Node.new nbr (node.g + 1) (manhattan nbr) (some node)))
            (bg.set nbr (node.g + 1)) nbr.tiles with h3 | ⟨x, -, -, h4, -, -⟩
          · rw [h3, bestG_set_same] at h1
            rcases hc with hc | ⟨g0, hc, hc'⟩
            · rw [hc] at h1; exact absurd h1 (by simp)
            · rw [hc] at h1
              simp only [Option.some.injEq] at h1
              omega
          · rw [h4] at h1
            rcases hc with hc | ⟨g0, hc, hc'⟩
            · rw [hc] at h1; exact absurd h1 (by simp)
            · rw [hc] at h1
              simp only [Option.some.injEq] at h1
              omega
        · rcases expand_bestG hl node rest
            (pq.push fr (Node.new y (node.g + 1) (manhattan y) (some node)))
            (bg.set y (node.g + 1)) nbr.tiles with h3 | ⟨x, -, -, h4, -, -⟩
          · exact ih h' _ _ h3
          · exact ⟨_, h4, le_refl _⟩
      · rw [expand_cons_neg pq node y rest fr bg hc] at h1 ⊢
        rcases List.mem_cons.mp h with rfl | h'
        · rw [h1]
          cases hb : bg nbr.tiles with
          | none => exact absurd (Or.inl hb) hc
          | some g0 =>
            refine ⟨g0, rfl, ?_⟩
            by_contra hlt
            exact hc (Or.inr ⟨g0, hb, by omega⟩)
        · exact ih h' _ _ h1
  · exact ⟨_, h2, le_refl _⟩

theorem tiles9_finite : Finite Tiles9 := by
  have h : {t : List Int | t.Perm [0, 1, 2, 3, 4, 5, 6, 7, 8]}.Finite := by
    apply Set.Finite.subset (List.finite_toSet ([0, 1, 2, 3, 4, 5, 6, 7, 8] : List Int).permutations)
    intro t ht
    exact List.mem_permutations.mpr ht
  exact Set.finite_coe_iff.mpr h

theorem costOf_set_lt (bg : BestG) (nbr : PuzzleState) (g : Int)
    (hp : nbr.tiles.Perm [0, 1, 2, 3, 4, 5, 6, 7, 8]) (hg : 0 ≤ g)
    (hc : bg nbr.tiles = none ∨ ∃ g0, bg nbr.tiles = some g0 ∧ g < g0) :
    costOf (bg.set nbr g) < costOf bg := by
  rw [Pi.lt_def]
  constructor
  · intro i
    by_cases hi : i.1 = nbr.tiles
    · simp only [costOf, BestG.set, hi, if_true]
      rcases hc with hc | ⟨g0, hc, hlt⟩
      · rw [hc]; exact le_top
      · rw [hc]
        exact WithTop.coe_le_coe.mpr (by omega)
    · simp only [costOf, BestG.set, hi, if_false]
      exact le_refl _
  · refine ⟨⟨nbr.tiles, hp⟩, ?_⟩
    simp only [costOf, BestG.set, if_true]
    rcases hc with hc | ⟨g0, hc, hlt⟩
    · rw [hc]; exact WithTop.coe_lt_top _
    · rw [hc]
      exact WithTop.coe_lt_coe.mpr (by omega)

theorem expand_measure {pq : PriorityQueue} (node : Node) (hg : 0 ≤ node.g) :
    ∀ (nbrs : List PuzzleState) (fr : pq.Q) (bg : BestG),
      (∀ nbr ∈ nbrs, nbr.tiles.Perm [0, 1, 2, 3, 4, 5, 6, 7, 8]) →
      ((expand pq node nbrs fr bg).2 = bg ∧
        (pq.toList (expand pq node nbrs fr bg).1).length = (pq.toList fr).length) ∨
      costOf (expand pq node nbrs fr bg).2 < costOf bg := by
  intro nbrs
  induction nbrs with
  | nil => intro fr bg _; exact Or.inl ⟨rfl, rfl⟩
  | cons nbr rest ih =>
    intro fr bg hval
    have hrest : ∀ x ∈ rest, x.tiles.Perm [0, 1, 2, 3, 4, 5, 6, 7, 8] :=
      fun x hx => hval x (List.mem_cons_of_mem _ hx)
    by_cases hc : bg nbr.tiles = none ∨ ∃ g0, bg nbr.tiles = some g0 ∧ node.g + 1 < g0
    · rw [expand_cons_pos pq node nbr rest fr bg hc]
      have hlt := costOf_set_lt bg nbr (node.g + 1) (hval nbr (List.mem_cons_self _ _))
        (by omega) hc
      right
      rcases ih (pq.push fr (Node.new nbr (node.g + 1) (manhattan nbr) (some node)))
        (bg.set nbr (node.g + 1)) hrest with ⟨h1, -⟩ | h2
      · rw [h1]; exact hlt
      · exact lt_trans h2 hlt
    · rw [expand_cons_neg pq node nbr rest fr bg hc]
      exact ih fr bg hrest

theorem node_new_state (s : PuzzleState) (g h : Int) (p : Option Node) :
    (Node.new s g h p).state = s := rfl

theorem node_new_g (s : PuzzleState) (g h : Int) (p : Option Node) :
    (Node.new s g h p).g = g := rfl

theorem node_new_f (s : PuzzleState) (g h : Int) (p : Option Node) :
    (Node.new s g h p).f = g + h := rfl

theorem node_new_chain (s : PuzzleState) (g h : Int) (p : Node) :
    (Node.new s g h (some p)).chain = s :: p.chain := rfl

theorem node_new_chain_none (s : PuzzleState) (g h : Int) :
    (Node.new s g h none).chain = [s] := rfl

theorem nodeOK_g_nonneg {start : PuzzleState} {n : Node} (h : NodeOK start n) : 0 ≤ n.g := by
  obtain ⟨h1, h2, -⟩ := h
  have := isPath_length_pos h1
  simp only [List.length_reverse] at this
  omega

theorem nodeOK_child {start : PuzzleState} {node : Node} (h : NodeOK start node)
    {nbr : PuzzleState} (hn : nbr ∈ node.state.neighbors) :
    NodeOK start (Node.new nbr (node.g + 1) (manhattan nbr) (some node)) := by
  obtain ⟨h1, h2, -⟩ := h
  refine ⟨?_, ?_, ?_⟩
  · rw [node_new_chain, node_new_state, List.reverse_cons]
    exact isPath_snoc h1 hn
  · rw [node_new_chain, node_new_g, List.length_cons]
    push_cast
    omega
  · rw [node_new_f, node_new_g, node_new_state]

theorem nodeOK_valid {start : PuzzleState} (hv : Valid start) {n : Node} (h : NodeOK start n) :
    Valid n.state :=
  isPath_last_valid h.1 hv

/-- One iteration of the A* loop that expands a node keeps the loop invariant. -/
theorem astarInv_step {pq : PriorityQueue} (hl : pq.Lawful) {start : PuzzleState}
    {fr fr1 : pq.Q} {bg : BestG} {node : Node} (hinv : AStarInv pq start fr bg)
    (hpop : pq.pop fr = some (node, fr1)) :
    AStarInv pq start (expand pq node node.state.neighbors fr1 bg).1
      (expand pq node node.state.neighbors fr1 bg).2 := by
  obtain ⟨hnodes, hstart, hbg⟩ := hinv
  have hnode : NodeOK start node := hnodes node ((mem_pop hl hpop node).mpr (Or.inl rfl))
  refine ⟨?_, ?_, ?_⟩
  · intro n hn
    rcases expand_frontier hl node _ _ _ n hn with h1 | ⟨nbr, hnbr, rfl⟩
    · exact hnodes n ((mem_pop hl hpop n).mpr (Or.inr h1))
    · exact nodeOK_child hnode hnbr
  · rcases expand_bestG hl node node.state.neighbors fr1 bg start.tiles with
      h1 | ⟨nbr, -, -, -, h3, -⟩
    · rw [h1]; exact hstart
    · exfalso
      have := nodeOK_g_nonneg hnode
      rcases h3 with h3 | ⟨g0, h3, h3'⟩
      · rw [hstart] at h3; exact absurd h3 (by simp)
      · rw [hstart] at h3
        simp only [Option.some.injEq] at h3
        omega
  · intro t g ht
    rcases expand_bestG hl node node.state.neighbors fr1 bg t with
      h1 | ⟨nbr, hnbr, htn, h2, -, -⟩
    · rw [h1] at ht; exact hbg t g ht
    · rw [h2] at ht
      simp only [Option.some.injEq] at ht
      obtain ⟨hp, hlen, -⟩ := nodeOK_child hnode hnbr
      rw [node_new_state] at hp
      rw [node_new_g] at hlen
      refine ⟨_, nbr, hp, htn.symm, ?_⟩
      rw [List.length_reverse, hlen, ht]

theorem astarLoop_succ {pq : PriorityQueue} (fuel : Nat) (fr : pq.Q) (bg : BestG) :
    astarLoop pq (fuel + 1) fr bg =
      match pq.pop fr with
      | none => some []
      | some (node, frontier) =>
        if node.state.isGoal then some node.chain.reverse
        else
          astarLoop pq fuel (expand pq node node.state.neighbors frontier bg).1
            (expand pq node node.state.neighbors frontier bg).2 := rfl

theorem astarLoop_mono {pq : PriorityQueue} : ∀ (fuel : Nat) (fr : pq.Q) (bg : BestG)
    (r : List PuzzleState), astarLoop pq fuel fr bg = some r →
    ∀ fuel', fuel ≤ fuel' → astarLoop pq fuel' fr bg = some r := by
  intro fuel
  induction fuel with
  | zero => intro fr bg r h; simp [astarLoop] at h
  | succ fuel ih =>
    intro fr bg r h fuel' hle
    obtain ⟨k, rfl⟩ : ∃ k, fuel' = k + 1 := ⟨fuel' - 1, by omega⟩
    rw [astarLoop_succ] at h ⊢
    cases hpop : pq.pop fr with
    | none => rw [hpop] at h; exact h
    | some p =>
      obtain ⟨node, fr1⟩ := p
      rw [hpop] at h
      simp only at h ⊢
      split
      · rename_i hg
        rw [if_pos hg] at h
        exact h
      · rename_i hg
        rw [if_neg hg] at h
        exact ih _ _ r h k (by omega)

/-- The A* loop, run from any state satisfying the loop invariant and an extra
invariant `Extra`, stops after finitely many iterations, and its result
satisfies any `Post` that holds at the two exits of the loop. -/
theorem astarLoop_run {pq : PriorityQueue} (hl : pq.Lawful) {start : PuzzleState}
    (hv : Valid start) (Extra : pq.Q → BestG → Prop) (Post : List PuzzleState → Prop)
    (hstep : ∀ fr bg node fr1, AStarInv pq start fr bg → Extra fr bg →
      pq.pop fr = some (node, fr1) → ¬ node.state.isGoal = true →
      Extra (expand pq node node.state.neighbors fr1 bg).1
        (expand pq node node.state.neighbors fr1 bg).2)
    (hgoal : ∀ fr bg node fr1, AStarInv pq start fr bg → Extra fr bg →
      pq.pop fr = some (node, fr1) → node.state.isGoal = true → Post node.chain.reverse)
    (hempty : ∀ fr bg, AStarInv pq start fr bg → Extra fr bg → pq.pop fr = none → Post []) :
    ∀ fr bg, AStarInv pq start fr bg → Extra fr bg →
      ∃ N r, (∀ fuel, N ≤ fuel → astarLoop pq fuel fr bg = some r) ∧ Post r := by
  haveI := tiles9_finite
  suffices H : ∀ (c : Tiles9 → WithTop Nat) (n : Nat) (fr : pq.Q) (bg : BestG),
      costOf bg = c → (pq.toList fr).length = n → AStarInv pq start fr bg → Extra fr bg →
      ∃ N r, (∀ fuel, N ≤ fuel → astarLoop pq fuel fr bg = some r) ∧ Post r from
    fun fr bg hinv hex => H _ _ fr bg rfl rfl hinv hex
  intro c
  induction c using (wellFounded_lt (α := Tiles9 → WithTop Nat)).induction with
  | _ c ihc =>
    intro n
    induction n using Nat.strong_induction_on with
    | _ n ihn =>
      intro fr bg hc hn hinv hex
      cases hpop : pq.pop fr with
      | none =>
        refine ⟨1, [], fun fuel hf => ?_, hempty fr bg hinv hex hpop⟩
        obtain ⟨k, rfl⟩ : ∃ k, fuel = k + 1 := ⟨fuel - 1, by omega⟩
        rw [astarLoop_succ, hpop]
      | some p =>
        obtain ⟨node, fr1⟩ := p
        by_cases hg : node.state.isGoal = true
        · refine ⟨1, node.chain.reverse, fun fuel hf => ?_, hgoal fr bg node fr1 hinv hex hpop hg⟩
          obtain ⟨k, rfl⟩ : ∃ k, fuel = k + 1 := ⟨fuel - 1, by omega⟩
          rw [astarLoop_succ, hpop]
          simp only
          rw [if_pos hg]
        · have hinv' := astarInv_step hl hinv hpop
          have hex' := hstep fr bg node fr1 hinv hex hpop hg
          have hnode : NodeOK start node :=
            hinv.1 node ((mem_pop hl hpop node).mpr (Or.inl rfl))
          have hnv : ∀ nbr ∈ node.state.neighbors, nbr.tiles.Perm [0, 1, 2, 3, 4, 5, 6, 7, 8] :=
            fun nbr hnbr => (neighbors_valid (nodeOK_valid hv hnode) hnbr).1
          have hrec : ∃ N r, (∀ fuel, N ≤ fuel →
              astarLoop pq fuel (expand pq node node.state.neighbors fr1 bg).1
                (expand pq node node.state.neighbors fr1 bg).2 = some r) ∧ Post r := by
            rcases expand_measure node (nodeOK_g_nonneg hnode) node.state.neighbors fr1 bg hnv
              with ⟨h1, h2⟩ | h3
            · have hlen := length_pop hl hpop
              exact ihn _ (by omega) _ _ (by rw [h1, hc]) rfl hinv' hex'
            · exact ihc _ (by rw [← hc]; exact h3) _ _ _ rfl rfl hinv' hex'
          obtain ⟨N, r, hN, hP⟩ := hrec
          refine ⟨N + 1, r, fun fuel hf => ?_, hP⟩
          obtain ⟨k, rfl⟩ : ∃ k, fuel = k + 1 := ⟨fuel - 1, by omega⟩
          rw [astarLoop_succ, hpop]
          simp only
          rw [if_neg hg]
          exact hN k (by omega)

theorem isPath_append {l B : List PuzzleState} {a x g : PuzzleState} (h1 : IsPath l a x)
    (h2 : IsPath (x :: B) x g) : IsPath (l ++ B) a g := by
  induction B generalizing l x with
  | nil =>
    obtain ⟨-, h, -⟩ := h2
    simp only [List.getLast?_singleton, Option.some.injEq] at h
    subst h
    simpa using h1
  | cons y B ih =>
    obtain ⟨-, hy, hrest⟩ := isPath_cons_cons h2
    have := ih (isPath_snoc h1 hy) hrest
    simpa using this

theorem astarInv_init {pq : PriorityQueue} (hl : pq.Lawful) (start : PuzzleState) :
    AStarInv pq start (pq.push pq.empty (Node.new start 0 (manhattan start) none))
      (BestG.set (fun _ => none) start 0) := by
  refine ⟨?_, ?_, ?_⟩
  · intro n hn
    rw [mem_push hl, hl.toList_empty] at hn
    simp only [List.not_mem_nil, or_false] at hn
    subst hn
    refine ⟨?_, ?_, ?_⟩
    · rw [node_new_chain_none, node_new_state]
      exact isPath_singleton start
    · rw [node_new_chain_none, node_new_g]; simp
    · rw [node_new_f, node_new_g, node_new_state]
  · exact bestG_set_same _ _ _
  · intro t g h
    by_cases ht : t = start.tiles
    · rw [ht, bestG_set_same] at h
      simp only [Option.some.injEq] at h
      subst h
      exact ⟨[start], start, isPath_singleton start, ht.symm, by simp⟩
    · rw [bestG_set_other _ _ _ ht] at h
      exact absurd h (by simp)

theorem solveAStar_eq (pq : PriorityQueue) (fuel : Nat) (start : PuzzleState) :
    solveAStar pq fuel start =
      astarLoop pq fuel (pq.push pq.empty (Node.new start 0 (manhattan start) none))
        (BestG.set (fun _ => none) start 0) := rfl

/-- C5: over any lawful priority queue and for every valid start board,
`solveAStar` returns (the same result for every large enough bound on the
number of iterations), and a non-empty result begins with the start board, ends
with a goal board and links consecutive boards by legal moves
(`q ∈ p.neighbors`). -/
theorem solveAStar_valid_chain (pq : PriorityQueue) (start : PuzzleState)
    (hl : pq.Lawful) (hv : Valid start) :
    ∃ N r, (∀ fuel, N ≤ fuel → solveAStar pq fuel start = some r) ∧
      (∀ fuel r', solveAStar pq fuel start = some r' → r' = r) ∧
      (r ≠ [] → r.head? = some start ∧ (∃ g, r.getLast? = some g ∧ g.isGoal = true) ∧
        MoveChain r) := by
  obtain ⟨N, r, hN, hP⟩ := astarLoop_run hl hv (fun _ _ => True)
    (fun r => r ≠ [] → r.head? = some start ∧ (∃ g, r.getLast? = some g ∧ g.isGoal = true) ∧
        MoveChain r)
    (fun _ _ _ _ _ _ _ _ => trivial)
    (fun fr bg node fr1 hinv _ hpop hg _ => by
      obtain ⟨h1, h2, h3⟩ := (hinv.1 node ((mem_pop hl hpop node).mpr (Or.inl rfl))).1
      exact ⟨h1, ⟨node.state, h2, hg⟩, h3⟩)
    (fun _ _ _ _ _ hne => absurd rfl hne)
    _ _ (astarInv_init hl start) trivial
  refine ⟨N, r, hN, fun fuel r' h => ?_, hP⟩
  have h1 := astarLoop_mono fuel _ _ r' h (max fuel N) (le_max_left _ _)
  have h2 := hN (max fuel N) (le_max_right _ _)
  rw [h1] at h2
  exact Option.some.inj h2

/-- C5, witness: the list-based queue on the start board 1 2 3 4 5 6 0 7 8. -/
theorem solveAStar_valid_chain_witness :
    ∃ N r, (∀ fuel, N ≤ fuel →
        solveAStar listQueue fuel (PuzzleState.ofTiles [1, 2, 3, 4, 5, 6, 0, 7, 8]) = some r) ∧
      (∀ fuel r',
        solveAStar listQueue fuel (PuzzleState.ofTiles [1, 2, 3, 4, 5, 6, 0, 7, 8]) = some r' →
          r' = r) ∧
      (r ≠ [] → r.head? = some (PuzzleState.ofTiles [1, 2, 3, 4, 5, 6, 0, 7, 8]) ∧
        (∃ g, r.getLast? = some g ∧ g.isGoal = true) ∧ MoveChain r) :=
  solveAStar_valid_chain listQueue (PuzzleState.ofTiles [1, 2, 3, 4, 5, 6, 0, 7, 8])
    listQueue_lawful (by decide)

/-- Along a shortest chain `P` to a goal board, a recorded cost of the board at
position `A.length` is at least `A.length`. -/
theorem bestG_lower_bound {start g : PuzzleState} {P A B : List PuzzleState}
    {x : PuzzleState} {bg : BestG} (hv : Valid start) (hP : IsPath P start g)
    (hg : g.isGoal = true) (hmin : ∀ m, ReachesGoalIn start m → P.length - 1 ≤ m)
    (hbg : BestGOK start bg) (hsplit : P = A ++ x :: B) {g0 : Int}
    (hx : bg x.tiles = some g0) : (A.length : Int) ≤ g0 := by
  obtain ⟨l, s, hl, hs, hlen⟩ := hbg.2 _ _ hx
  have hxv : Valid x := isPath_valid hP hv x (by rw [hsplit]; simp)
  have hsx : s = x := valid_eq_of_tiles (isPath_last_valid hl hv) hxv hs
  subst hsx
  have hsuf : IsPath (s :: B) s g := by
    rw [hsplit] at hP
    exact isPath_suffix hP
  have hcat := isPath_append hl hsuf
  have hlpos := isPath_length_pos hl
  have := hmin (l.length - 1 + B.length) ⟨l ++ B, g, hcat, hg, by
    rw [List.length_append]; omega⟩
  rw [hsplit] at this
  simp only [List.length_append, List.length_cons] at this
  omega

/-- Under the optimality invariant some frontier node has `f` at most the
length of the shortest chain. -/
theorem onPath_frontier {pq : PriorityQueue} {start g : PuzzleState} {P : List PuzzleState}
    {fr : pq.Q} {bg : BestG} (hv : Valid start) (hP : IsPath P start g)
    (hg : g.isGoal = true) (hmin : ∀ m, ReachesGoalIn start m → P.length - 1 ≤ m)
    (hinv : AStarInv pq start fr bg) (hJ : OnPathInv pq P fr bg) :
    ∀ (B A : List PuzzleState) (x : PuzzleState), P = A ++ x :: B →
      bg x.tiles = some (A.length : Int) →
      ∃ n ∈ pq.toList fr, n.f ≤ (P.length : Int) - 1 := by
  intro B
  induction B with
  | nil =>
    intro A x hsplit hx
    rcases hJ A x [] hsplit hx with ⟨n, hn, hns, hng⟩ | ⟨y, B', hB, -⟩
    · refine ⟨n, hn, ?_⟩
      have hxv : Valid x := isPath_valid hP hv x (by rw [hsplit]; simp)
      have hsuf : IsPath [x] x g := by
        rw [hsplit] at hP
        exact isPath_suffix hP
      have hadm := manhattan_admissible x g [x] hxv hsuf hg
      rw [(hinv.1 n hn).2.2, hns, hng, hsplit]
      simp only [List.length_append, List.length_cons, List.length_nil, List.length_singleton,
        Nat.cast_add, Nat.cast_one, Nat.cast_zero] at hadm ⊢
      omega
    · exact absurd hB (by simp)
  | cons y B ih =>
    intro A x hsplit hx
    rcases hJ A x (y :: B) hsplit hx with ⟨n, hn, hns, hng⟩ | ⟨y', B', hB, g', hy, hle⟩
    · refine ⟨n, hn, ?_⟩
      have hxv : Valid x := isPath_valid hP hv x (by rw [hsplit]; simp)
      have hsuf : IsPath (x :: y :: B) x g := by
        rw [hsplit] at hP
        exact isPath_suffix hP
      have hadm := manhattan_admissible x g (x :: y :: B) hxv hsuf hg
      rw [(hinv.1 n hn).2.2, hns, hng, hsplit]
      simp only [List.length_append, List.length_cons, Nat.cast_add, Nat.cast_one] at hadm ⊢
      omega
    · simp only [List.cons.injEq] at hB
      obtain ⟨rfl, rfl⟩ := hB
      have hsplit' : P = (A ++ [x]) ++ y :: B := by rw [hsplit]; simp
      have hlb := bestG_lower_bound hv hP hg hmin hinv.2 hsplit' hy
      simp only [List.length_append, List.length_singleton, Nat.cast_add, Nat.cast_one] at hlb
      have hg' : g' = ((A ++ [x]).length : Int) := by
        simp only [List.length_append, List.length_singleton, Nat.cast_add, Nat.cast_one]
        omega
      rw [hg'] at hy
      exact ih (A ++ [x]) y hsplit' hy

theorem onPathInv_init {pq : PriorityQueue} (hl : pq.Lawful) {start g : PuzzleState}
    {P : List PuzzleState} (hv : Valid start) (hP : IsPath P start g) :
    OnPathInv pq P (pq.push pq.empty (Node.new start 0 (manhattan start) none))
      (BestG.set (fun _ => none) start 0) := by
  intro A x B hsplit hx
  left
  refine ⟨Node.new start 0 (manhattan start) none, (mem_push hl _ _ _).mpr (Or.inl rfl), ?_, ?_⟩
  · rw [node_new_state]
    by_cases ht : x.tiles = start.tiles
    · have hxv : Valid x := isPath_valid hP hv x (by rw [hsplit]; simp)
      exact (valid_eq_of_tiles hxv hv ht).symm
    · rw [bestG_set_other _ _ _ ht] at hx
      exact absurd hx (by simp)
  · rw [node_new_g]
    by_cases ht : x.tiles = start.tiles
    · rw [ht, bestG_set_same] at hx
      simp only [Option.some.injEq] at hx
      exact hx
    · rw [bestG_set_other _ _ _ ht] at hx
      exact absurd hx (by simp)

theorem onPathInv_step {pq : PriorityQueue} (hl : pq.Lawful) {start g : PuzzleState}
    {P : List PuzzleState} (hv : Valid start) (hP : IsPath P start g)
    (hg : g.isGoal = true)
    {fr fr1 : pq.Q} {bg : BestG} {node : Node} (hinv : AStarInv pq start fr bg)
    (hJ : OnPathInv pq P fr bg) (hpop : pq.pop fr = some (node, fr1))
    (hng : ¬ node.state.isGoal = true) :
    OnPathInv pq P (expand pq node node.state.neighbors fr1 bg).1
      (expand pq node node.state.neighbors fr1 bg).2 := by
  intro A x B hsplit hx
  have hnode : NodeOK start node := hinv.1 node ((mem_pop hl hpop node).mpr (Or.inl rfl))
  have hxv : Valid x := isPath_valid hP hv x (by rw [hsplit]; simp)
  rcases expand_bestG hl node node.state.neighbors fr1 bg x.tiles with
    h1 | ⟨nbr, hnbr, htn, h2, -, h4⟩
  · rw [h1] at hx
    rcases hJ A x B hsplit hx with ⟨n, hn, hns, hng'⟩ | ⟨y, B', rfl, g', hy, hle⟩
    · rcases (mem_pop hl hpop n).mp hn with rfl | hn1
      · -- the node for `x` is the one being expanded
        cases B with
        | nil =>
          exfalso
          apply hng
          rw [hsplit] at hP
          obtain ⟨-, hlast, -⟩ := hP
          have hxg : x = g := by simpa using hlast
          rw [hns, hxg]
          exact hg
        | cons y B' =>
          right
          have hsuf : IsPath (x :: y :: B') x g := by
            rw [hsplit] at hP
            exact isPath_suffix hP
          obtain ⟨-, hy, -⟩ := isPath_cons_cons hsuf
          rw [← hns] at hy
          obtain ⟨g', hg', hle⟩ := expand_nbr hl n n.state.neighbors fr1 bg y hy
          exact ⟨y, B', rfl, g', hg', by omega⟩
      · exact Or.inl ⟨n, expand_mem_old hl node _ _ _ n hn1, hns, hng'⟩
    · right
      refine ⟨y, B', rfl, ?_⟩
      rcases expand_bestG hl node node.state.neighbors fr1 bg y.tiles with
        h5 | ⟨-, -, -, h6, h7, -⟩
      · exact ⟨g', by rw [h5]; exact hy, hle⟩
      · refine ⟨node.g + 1, h6, ?_⟩
        rcases h7 with h7 | ⟨g0, h7, h7'⟩
        · rw [hy] at h7; exact absurd h7 (by simp)
        · rw [hy] at h7
          simp only [Option.some.injEq] at h7
          omega
  · left
    rw [h2] at hx
    simp only [Option.some.injEq] at hx
    have hnv : Valid nbr := neighbors_valid (nodeOK_valid hv hnode) hnbr
    refine ⟨_, h4, ?_, ?_⟩
    · rw [node_new_state]
      exact valid_eq_of_tiles hnv hxv htn.symm
    · rw [node_new_g]; exact hx

/-- The optimality of `solveAStar`, shared by the claims about its result. -/
theorem astar_shortest_core (pq : PriorityQueue) (start : PuzzleState)
    (hl : pq.Lawful) (hv : Valid start) (hreach : ∃ m, ReachesGoalIn start m) :
    ∃ N r, (∀ fuel, N ≤ fuel → solveAStar pq fuel start = some r) ∧
      (∀ fuel r', solveAStar pq fuel start = some r' → r' = r) ∧
      r ≠ [] ∧ ReachesGoalIn start (r.length - 1) ∧
      ∀ m, ReachesGoalIn start m → r.length - 1 ≤ m := by
  classical
  have hmin0 := fun m (h : m < Nat.find hreach) => Nat.find_min hreach h
  obtain ⟨P, g, hP, hg, hPlen⟩ := Nat.find_spec hreach
  have hmin : ∀ m, ReachesGoalIn start m → P.length - 1 ≤ m := by
    intro m hm
    rw [hPlen, Nat.add_sub_cancel]
    exact Nat.find_min' hreach hm
  obtain ⟨P', hP'⟩ := isPath_head hP
  have hfront : ∀ fr bg, AStarInv pq start fr bg → OnPathInv pq P fr bg →
      ∃ n ∈ pq.toList fr, n.f ≤ (P.length : Int) - 1 := fun fr bg hinv hJ =>
    onPath_frontier hv hP hg hmin hinv hJ P' [] start hP' hinv.2.1
  obtain ⟨N, r, hN, hne, hreach', hlen⟩ := astarLoop_run hl hv (OnPathInv pq P)
    (fun r => r ≠ [] ∧ ReachesGoalIn start (r.length - 1) ∧ r.length = P.length)
    (fun fr bg node fr1 hinv hJ hpop hng => onPathInv_step hl hv hP hg hinv hJ hpop hng)
    (fun fr bg node fr1 hinv hJ hpop hgoal => by
      have hnode : NodeOK start node := hinv.1 node ((mem_pop hl hpop node).mpr (Or.inl rfl))
      obtain ⟨hpath, hclen, hf⟩ := hnode
      obtain ⟨n, hn, hnf⟩ := hfront fr bg hinv hJ
      have hle := (hl.pop_some fr node fr1 hpop).2 n hn
      have hpos := isPath_length_pos hpath
      have hr : ReachesGoalIn start (node.chain.reverse.length - 1) :=
        ⟨_, node.state, hpath, hgoal, by omega⟩
      have hk := hmin _ hr
      rw [manhattan_goal hgoal] at hf
      have hPpos := isPath_length_pos hP
      simp only [List.length_reverse] at hk hpos hr ⊢
      refine ⟨?_, hr, by omega⟩
      intro h0
      rw [List.reverse_eq_nil_iff] at h0
      rw [h0] at hpos
      simp at hpos)
    (fun fr bg hinv hJ hpop => by
      exfalso
      obtain ⟨n, hn, -⟩ := hfront fr bg hinv hJ
      rw [(hl.pop_none fr).mp hpop] at hn
      simp at hn)
    _ _ (astarInv_init hl start) (onPathInv_init hl hv hP)
  refine ⟨N, r, hN, fun fuel r' h => ?_, hne, hreach', fun m hm => ?_⟩
  · have h1 := astarLoop_mono fuel _ _ r' h (max fuel N) (le_max_left _ _)
    have h2 := hN (max fuel N) (le_max_right _ _)
    rw [h1] at h2
    exact Option.some.inj h2
  · rw [hlen]; exact hmin m hm

/-- C1: over any lawful priority queue, for every valid start board from which
a goal board is reachable, `solveAStar` returns (the same result for every
large enough bound on the number of iterations) a non-empty move chain from the
start to a goal board whose number of moves, its length minus one, is the
shortest-path distance: no move chain from the start to a goal board has fewer
moves. -/
theorem solveAStar_shortest (pq : PriorityQueue) (start : PuzzleState)
    (hl : pq.Lawful) (hv : Valid start) (hreach : ∃ m, ReachesGoalIn start m) :
    ∃ N r, (∀ fuel, N ≤ fuel → solveAStar pq fuel start = some r) ∧
      (∀ fuel r', solveAStar pq fuel start = some r' → r' = r) ∧
      r ≠ [] ∧ ReachesGoalIn start (r.length - 1) ∧
      ∀ m, ReachesGoalIn start m → r.length - 1 ≤ m :=
  astar_shortest_core pq start hl hv hreach

/-- C1, witness: with the list-based queue, start 1 2 3 4 5 6 0 7 8 gives a
sequence of 3 boards (2 moves), which is the least possible. -/
theorem solveAStar_shortest_witness :
    (solveAStar listQueue 3 (PuzzleState.ofTiles [1, 2, 3, 4, 5, 6, 0, 7, 8])).map List.length
        = some 3 ∧
      ∃ N r, (∀ fuel, N ≤ fuel →
          solveAStar listQueue fuel (PuzzleState.ofTiles [1, 2, 3, 4, 5, 6, 0, 7, 8]) = some r) ∧
        (∀ fuel r',
          solveAStar listQueue fuel (PuzzleState.ofTiles [1, 2, 3, 4, 5, 6, 0, 7, 8]) = some r' →
            r' = r) ∧
        r ≠ [] ∧ ReachesGoalIn (PuzzleState.ofTiles [1, 2, 3, 4, 5, 6, 0, 7, 8]) (r.length - 1) ∧
        ∀ m, ReachesGoalIn (PuzzleState.ofTiles [1, 2, 3, 4, 5, 6, 0, 7, 8]) m →
          r.length - 1 ≤ m :=
  ⟨by decide,
    solveAStar_shortest listQueue (PuzzleState.ofTiles [1, 2, 3, 4, 5, 6, 0, 7, 8])
      listQueue_lawful (by decide)
      ⟨2, [PuzzleState.ofTiles [1, 2, 3, 4, 5, 6, 0, 7, 8],
          PuzzleState.ofTiles [1, 2, 3, 4, 5, 6, 7, 0, 8],
          PuzzleState.ofTiles [1, 2, 3, 4, 5, 6, 7, 8, 0]],
        PuzzleState.ofTiles [1, 2, 3, 4, 5, 6, 7, 8, 0], by decide, by decide, by decide⟩⟩

/-! ## Inversion parity -/

theorem inv_step (a b inv : Int) :
    (if a ≠ 0 ∧ b ≠ 0 ∧ a > b then inv + 1 else inv) = inv + invPair a b := by
  unfold invPair
  split <;> simp

theorem inversions_eq (a0 a1 a2 a3 a4 a5 a6 a7 a8 : Int) :
    inversions [a0, a1, a2, a3, a4, a5, a6, a7, a8] =
      0 + invPair a0 a1 + invPair a0 a2 + invPair a0 a3 + invPair a0 a4 + invPair a0 a5 + invPair a0 a6 + invPair a0 a7 + invPair a0 a8 + invPair a1 a2 + invPair a1 a3 + invPair a1 a4 + invPair a1 a5 + invPair a1 a6 + invPair a1 a7 + invPair a1 a8 + invPair a2 a3 + invPair a2 a4 + invPair a2 a5 + invPair a2 a6 + invPair a2 a7 + invPair a2 a8 + invPair a3 a4 + invPair a3 a5 + invPair a3 a6 + invPair a3 a7 + invPair a3 a8 + invPair a4 a5 + invPair a4 a6 + invPair a4 a7 + invPair a4 a8 + invPair a5 a6 + invPair a5 a7 + invPair a5 a8 + invPair a6 a7 + invPair a6 a8 + invPair a7 a8 := by
  have h9 : List.range 9 = [0, 1, 2, 3, 4, 5, 6, 7, 8] := by decide
  have r0 : List.range' 1 8 = [1, 2, 3, 4, 5, 6, 7, 8] := by decide
  have r1 : List.range' 2 7 = [2, 3, 4, 5, 6, 7, 8] := by decide
  have r2 : List.range' 3 6 = [3, 4, 5, 6, 7, 8] := by decide
  have r3 : List.range' 4 5 = [4, 5, 6, 7, 8] := by decide
  have r4 : List.range' 5 4 = [5, 6, 7, 8] := by decide
  have r5 : List.range' 6 3 = [6, 7, 8] := by decide
  have r6 : List.range' 7 2 = [7, 8] := by decide
  have r7 : List.range' 8 1 = [8] := by decide
  have r8 : List.range' 9 0 = [] := by decide
  simp only [inversions, invInner, h9, List.foldl_cons, List.foldl_nil, Nat.reduceAdd,
    Nat.reduceSub, r0, r1, r2, r3, r4, r5, r6, r7, r8, inv_step, List.getD_cons_zero,
    List.getD_cons_succ]

theorem invPair_zero_left (x : Int) : invPair 0 x = 0 := by
  simp [invPair]

theorem invPair_zero_right (x : Int) : invPair x 0 = 0 := by
  simp [invPair]

theorem invPair_add (x y : Int) (hxy : x ≠ y) (hx : x ≠ 0) (hy : y ≠ 0) :
    invPair x y + invPair y x = 1 := by
  unfold invPair
  split_ifs <;> omega

theorem isSolvable_iff (s : PuzzleState) :
    isSolvable s = true ↔ inversions s.tiles % 2 = 0 := by
  simp only [isSolvable, decide_eq_true_eq]
  rw [← Int.dvd_iff_tmod_eq_zero, Int.dvd_iff_emod_eq_zero]

theorem isSolvable_congr {s q : PuzzleState}
    (h : inversions q.tiles % 2 = inversions s.tiles % 2) : isSolvable q = isSolvable s := by
  rw [Bool.eq_iff_iff, isSolvable_iff, isSolvable_iff, h]

/-- A move changes the inversion count by an even amount, and not at all when
the blank stays in its row (a horizontal move). -/
theorem inversions_step {s q : PuzzleState} (h : Valid s) (hq : q ∈ s.neighbors) :
    (inversions q.tiles - inversions s.tiles) % 2 = 0 ∧
      (q.blankIdx.tdiv 3 = s.blankIdx.tdiv 3 → inversions q.tiles = inversions s.tiles) := by
  obtain ⟨a0, a1, a2, a3, a4, a5, a6, a7, a8, b, rfl, h0, h9, hnd, hr, hz⟩ := valid_cases h
  have hne : ∀ i j : Nat, i < 9 → j < 9 → i ≠ j →
      [a0, a1, a2, a3, a4, a5, a6, a7, a8].getD i 0 ≠
        [a0, a1, a2, a3, a4, a5, a6, a7, a8].getD j 0 := by
    intro i j hi hj hij heq
    rw [List.getD_eq_getElem _ _ (by simpa using hi), List.getD_eq_getElem _ _ (by simpa using hj)]
      at heq
    exact hij ((hnd.getElem_inj_iff).mp heq)
  clear hnd hr h
  interval_cases b
  · simp [tileAt] at hz
    subst hz
    simp only [neighbors_b0, List.mem_cons, List.mem_singleton, List.not_mem_nil,
      or_false] at hq
    rcases hq with rfl | rfl
    · simp only [inversions_eq, invPair_zero_left, invPair_zero_right]
      exact ⟨by omega, fun _ => by omega⟩
    · have e1 := invPair_add a3 a1 (by simpa using hne 3 1 (by norm_num) (by norm_num) (by norm_num))
        (by simpa using hne 3 0 (by norm_num) (by norm_num) (by norm_num)) (by simpa using hne 1 0 (by norm_num) (by norm_num) (by norm_num))
      have e2 := invPair_add a3 a2 (by simpa using hne 3 2 (by norm_num) (by norm_num) (by norm_num))
        (by simpa using hne 3 0 (by norm_num) (by norm_num) (by norm_num)) (by simpa using hne 2 0 (by norm_num) (by norm_num) (by norm_num))
      simp only [inversions_eq, invPair_zero_left, invPair_zero_right]
      exact ⟨by omega, fun hrow => absurd hrow (by decide)⟩
  · simp [tileAt] at hz
    subst hz
    simp only [neighbors_b1, List.mem_cons, List.mem_singleton, List.not_mem_nil,
      or_false] at hq
    rcases hq with rfl | rfl | rfl
    · simp only [inversions_eq, invPair_zero_left, invPair_zero_right]
      exact ⟨by omega, fun _ => by omega⟩
    · simp only [inversions_eq, invPair_zero_left, invPair_zero_right]
      exact ⟨by omega, fun _ => by omega⟩
    · have e1 := invPair_add a4 a2 (by simpa using hne 4 2 (by norm_num) (by norm_num) (by norm_num))
        (by simpa using hne 4 1 (by norm_num) (by norm_num) (by norm_num)) (by simpa using hne 2 1 (by norm_num) (by norm_num) (by norm_num))
      have e2 := invPair_add a4 a3 (by simpa using hne 4 3 (by norm_num) (by norm_num) (by norm_num))
        (by simpa using hne 4 1 (by norm_num) (by norm_num) (by norm_num)) (by simpa using hne 3 1 (by norm_num) (by norm_num) (by norm_num))
      simp only [inversions_eq, invPair_zero_left, invPair_zero_right]
      exact ⟨by omega, fun hrow => absurd hrow (by decide)⟩
  · simp [tileAt] at hz
    subst hz
    simp only [neighbors_b2, List.mem_cons, List.mem_singleton, List.not_mem_nil,
      or_false] at hq
    rcases hq with rfl | rfl
    · simp only [inversions_eq, invPair_zero_left, invPair_zero_right]
      exact ⟨by omega, fun _ => by omega⟩
    · have e1 := invPair_add a5 a3 (by simpa using hne 5 3 (by norm_num) (by norm_num) (by norm_num))
        (by simpa using hne 5 2 (by norm_num) (by norm_num) (by norm_num)) (by simpa using hne 3 2 (by norm_num) (by norm_num) (by norm_num))
      have e2 := invPair_add a5 a4 (by simpa using hne 5 4 (by norm_num) (by norm_num) (by norm_num))
        (by simpa using hne 5 2 (by norm_num) (by norm_num) (by norm_num)) (by simpa using hne 4 2 (by norm_num) (by norm_num) (by norm_num))
      simp only [inversions_eq, invPair_zero_left, invPair_zero_right]
      exact ⟨by omega, fun hrow => absurd hrow (by decide)⟩
  · simp [tileAt] at hz
    subst hz
    simp only [neighbors_b3, List.mem_cons, List.mem_singleton, List.not_mem_nil,
      or_false] at hq
    rcases hq with rfl | rfl | rfl
    · simp only [inversions_eq, invPair_zero_left, invPair_zero_right]
      exact ⟨by omega, fun _ => by omega⟩
    · have e1 := invPair_add a0 a1 (by simpa using hne 0 1 (by norm_num) (by norm_num) (by norm_num))
        (by simpa using hne 0 3 (by norm_num) (by norm_num) (by norm_num)) (by simpa using hne 1 3 (by norm_num) (by norm_num) (by norm_num))
      have e2 := invPair_add a0 a2 (by simpa using hne 0 2 (by norm_num) (by norm_num) (by norm_num))
        (by simpa using hne 0 3 (by norm_num) (by norm_num) (by norm_num)) (by simpa using hne 2 3 (by norm_num) (by norm_num) (by norm_num))
      simp only [inversions_eq, invPair_zero_left, invPair_zero_right]
      exact ⟨by omega, fun hrow => absurd hrow (by decide)⟩
    · have e1 := invPair_add a6 a4 (by simpa using hne 6 4 (by norm_num) (by norm_num) (by norm_num))
        (by simpa using hne 6 3 (by norm_num) (by norm_num) (by norm_num)) (by simpa using hne 4 3 (by norm_num) (by norm_num) (by norm_num))
      have e2 := invPair_add a6 a5 (by simpa using hne 6 5 (by norm_num) (by norm_num) (by norm_num))
        (by simpa using hne 6 3 (by norm_num) (by norm_num) (by norm_num)) (by simpa using hne 5 3 (by norm_num) (by norm_num) (by norm_num))
      simp only [inversions_eq, invPair_zero_left, invPair_zero_right]
      exact ⟨by omega, fun hrow => absurd hrow (by decide)⟩
  · simp [tileAt] at hz
    subst hz
    simp only [neighbors_b4, List.mem_cons, List.mem_singleton, List.not_mem_nil,
      or_false] at hq
    rcases hq with rfl | rfl | rfl | rfl
    · simp only [inversions_eq, invPair_zero_left, invPair_zero_right]
      exact ⟨by omega, fun _ => by omega⟩
    · simp only [inversions_eq, invPair_zero_left, invPair_zero_right]
      exact ⟨by omega, fun _ => by omega⟩
    · have e1 := invPair_add a1 a2 (by simpa using hne 1 2 (by norm_num) (by norm_num) (by norm_num))
        (by simpa using hne 1 4 (by norm_num) (by norm_num) (by norm_num)) (by simpa using hne 2 4 (by norm_num) (by norm_num) (by norm_num))
      have e2 := invPair_add a1 a3 (by simpa using hne 1 3 (by norm_num) (by norm_num) (by norm_num))
        (by simpa using hne 1 4 (by norm_num) (by norm_num) (by norm_num)) (by simpa using hne 3 4 (by norm_num) (by norm_num) (by norm_num))
      simp only [inversions_eq, invPair_zero_left, invPair_zero_right]
      exact ⟨by omega, fun hrow => absurd hrow (by decide)⟩
    · have e1 := invPair_add a7 a5 (by simpa using hne 7 5 (by norm_num) (by norm_num) (by norm_num))
        (by simpa using hne 7 4 (by norm_num) (by norm_num) (by norm_num)) (by simpa using hne 5 4 (by norm_num) (by norm_num) (by norm_num))
      have e2 := invPair_add a7 a6 (by simpa using hne 7 6 (by norm_num) (by norm_num) (by norm_num))
        (by simpa using hne 7 4 (by norm_num) (by norm_num) (by norm_num)) (by simpa using hne 6 4 (by norm_num) (by norm_num) (by norm_num))
      simp only [inversions_eq, invPair_zero_left, invPair_zero_right]
      exact ⟨by omega, fun hrow => absurd hrow (by decide)⟩
  · simp [tileAt] at hz
    subst hz
    simp only [neighbors_b5, List.mem_cons, List.mem_singleton, List.not_mem_nil,
      or_false] at hq
    rcases hq with rfl | rfl | rfl
    · simp only [inversions_eq, invPair_zero_left, invPair_zero_right]
      exact ⟨by omega, fun _ => by omega⟩
    · have e1 := invPair_add a2 a3 (by simpa using hne 2 3 (by norm_num) (by norm_num) (by norm_num))
        (by simpa using hne 2 5 (by norm_num) (by norm_num) (by norm_num)) (by simpa using hne 3 5 (by norm_num) (by norm_num) (by norm_num))
      have e2 := invPair_add a2 a4 (by simpa using hne 2 4 (by norm_num) (by norm_num) (by norm_num))
        (by simpa using hne 2 5 (by norm_num) (by norm_num) (by norm_num)) (by simpa using hne 4 5 (by norm_num) (by norm_num) (by norm_num))
      simp only [inversions_eq, invPair_zero_left, invPair_zero_right]
      exact ⟨by omega, fun hrow => absurd hrow (by decide)⟩
    · have e1 := invPair_add a8 a6 (by simpa using hne 8 6 (by norm_num) (by norm_num) (by norm_num))
        (by simpa using hne 8 5 (by norm_num) (by norm_num) (by norm_num)) (by simpa using hne 6 5 (by norm_num) (by norm_num) (by norm_num))
      have e2 := invPair_add a8 a7 (by simpa using hne 8 7 (by norm_num) (by norm_num) (by norm_num))
        (by simpa using hne 8 5 (by norm_num) (by norm_num) (by norm_num)) (by simpa using hne 7 5 (by norm_num) (by norm_num) (by norm_num))
      simp only [inversions_eq, invPair_zero_left, invPair_zero_right]
      exact ⟨by omega, fun hrow => absurd hrow (by decide)⟩
  · simp [tileAt] at hz
    subst hz
    simp only [neighbors_b6, List.mem_cons, List.mem_singleton, List.not_mem_nil,
      or_false] at hq
    rcases hq with rfl | rfl
    · simp only [inversions_eq, invPair_zero_left, invPair_zero_right]
      exact ⟨by omega, fun _ => by omega⟩
    · have e1 := invPair_add a3 a4 (by simpa using hne 3 4 (by norm_num) (by norm_num) (by norm_num))
        (by simpa using hne 3 6 (by norm_num) (by norm_num) (by norm_num)) (by simpa using hne 4 6 (by norm_num) (by norm_num) (by norm_num))
      have e2 := invPair_add a3 a5 (by simpa using hne 3 5 (by norm_num) (by norm_num) (by norm_num))
        (by simpa using hne 3 6 (by norm_num) (by norm_num) (by norm_num)) (by simpa using hne 5 6 (by norm_num) (by norm_num) (by norm_num))
      simp only [inversions_eq, invPair_zero_left, invPair_zero_right]
      exact ⟨by omega, fun hrow => absurd hrow (by decide)⟩
  · simp [tileAt] at hz
    subst hz
    simp only [neighbors_b7, List.mem_cons, List.mem_singleton, List.not_mem_nil,
      or_false] at hq
    rcases hq with rfl | rfl | rfl
    · simp only [inversions_eq, invPair_zero_left, invPair_zero_right]
      exact ⟨by omega, fun _ => by omega⟩
    · simp only [inversions_eq, invPair_zero_left, invPair_zero_right]
      exact ⟨by omega, fun _ => by omega⟩
    · have e1 := invPair_add a4 a5 (by simpa using hne 4 5 (by norm_num) (by norm_num) (by norm_num))
        (by simpa using hne 4 7 (by norm_num) (by norm_num) (by norm_num)) (by simpa using hne 5 7 (by norm_num) (by norm_num) (by norm_num))
      have e2 := invPair_add a4 a6 (by simpa using hne 4 6 (by norm_num) (by norm_num) (by norm_num))
        (by simpa using hne 4 7 (by norm_num) (by norm_num) (by norm_num)) (by simpa using hne 6 7 (by norm_num) (by norm_num) (by norm_num))
      simp only [inversions_eq, invPair_zero_left, invPair_zero_right]
      exact ⟨by omega, fun hrow => absurd hrow (by decide)⟩
  · simp [tileAt] at hz
    subst hz
    simp only [neighbors_b8, List.mem_cons, List.mem_singleton, List.not_mem_nil,
      or_false] at hq
    rcases hq with rfl | rfl
    · simp only [inversions_eq, invPair_zero_left, invPair_zero_right]
      exact ⟨by omega, fun _ => by omega⟩
    · have e1 := invPair_add a5 a6 (by simpa using hne 5 6 (by norm_num) (by norm_num) (by norm_num))
        (by simpa using hne 5 8 (by norm_num) (by norm_num) (by norm_num)) (by simpa using hne 6 8 (by norm_num) (by norm_num) (by norm_num))
      have e2 := invPair_add a5 a7 (by simpa using hne 5 7 (by norm_num) (by norm_num) (by norm_num))
        (by simpa using hne 5 8 (by norm_num) (by norm_num) (by norm_num)) (by simpa using hne 7 8 (by norm_num) (by norm_num) (by norm_num))
      simp only [inversions_eq, invPair_zero_left, invPair_zero_right]
      exact ⟨by omega, fun hrow => absurd hrow (by decide)⟩

/-- A move keeps the answer of `isSolvable`. -/
theorem isSolvable_step {s q : PuzzleState} (h : Valid s) (hq : q ∈ s.neighbors) :
    isSolvable q = isSolvable s := by
  apply isSolvable_congr
  have := (inversions_step h hq).1
  omega

theorem isSolvable_of_isGoal {g : PuzzleState} (hg : g.isGoal = true) : isSolvable g = true := by
  obtain ⟨t, b⟩ := g
  simp only [PuzzleState.isGoal, decide_eq_true_eq] at hg
  subst hg
  rfl

/-- Along a move chain from a valid board the answer of `isSolvable` is constant. -/
theorem isSolvable_path {l : List PuzzleState} {a b : PuzzleState} (h : IsPath l a b)
    (ha : Valid a) : isSolvable b = isSolvable a := by
  induction l generalizing a with
  | nil => simp [IsPath] at h
  | cons p l ih =>
    cases l with
    | nil =>
      obtain ⟨h1, h2, -⟩ := h
      simp only [List.head?_cons, Option.some.injEq, List.getLast?_singleton] at h1 h2
      rw [← h1, ← h2]
    | cons q l =>
      obtain ⟨rfl, hq, hrest⟩ := isPath_cons_cons h
      rw [ih hrest (neighbors_valid ha hq), isSolvable_step ha hq]

theorem neighbors_blank_ne {s q : PuzzleState} (h : Valid s) (hq : q ∈ s.neighbors) :
    q.blankIdx ≠ s.blankIdx := by
  obtain ⟨a0, a1, a2, a3, a4, a5, a6, a7, a8, b, rfl, h0, h9, -, -, -⟩ := valid_cases h
  interval_cases b
  all_goals
    simp only [neighbors_b0, neighbors_b1, neighbors_b2, neighbors_b3, neighbors_b4,
      neighbors_b5, neighbors_b6, neighbors_b7, neighbors_b8, List.mem_cons, List.mem_singleton,
      List.not_mem_nil, or_false] at hq
    rcases hq with rfl | rfl | rfl | rfl <;> simp

theorem neighbors_symm {s q : PuzzleState} (h : Valid s) (hq : q ∈ s.neighbors) :
    s ∈ q.neighbors := by
  obtain ⟨a0, a1, a2, a3, a4, a5, a6, a7, a8, b, rfl, h0, h9, -, -, -⟩ := valid_cases h
  interval_cases b
  all_goals
    simp only [neighbors_b0, neighbors_b1, neighbors_b2, neighbors_b3, neighbors_b4,
      neighbors_b5, neighbors_b6, neighbors_b7, neighbors_b8, List.mem_cons, List.mem_singleton,
      List.not_mem_nil, or_false] at hq
    rcases hq with rfl | rfl | rfl | rfl
  all_goals
    simp [neighbors_b0, neighbors_b1, neighbors_b2, neighbors_b3, neighbors_b4,
      neighbors_b5, neighbors_b6, neighbors_b7, neighbors_b8]

theorem neighbors_tiles_ne {s q : PuzzleState} (h : Valid s) (hq : q ∈ s.neighbors) :
    q.tiles ≠ s.tiles := by
  intro heq
  have := valid_eq_of_tiles (neighbors_valid h hq) h heq
  exact neighbors_blank_ne h hq (by rw [this])

/-- C11: the Manhattan heuristic is consistent under unit move cost: for a
valid board `s` and every `t` in `s.neighbors`, `manhattan s ≤ 1 + manhattan t`;
and `manhattan` of the goal board is 0. -/
theorem manhattan_consistent (s t : PuzzleState) (hv : Valid s) (ht : t ∈ s.neighbors) :
    manhattan s ≤ 1 + manhattan t ∧ manhattan (PuzzleState.ofTiles goal) = 0 :=
  ⟨manhattan_step hv ht, manhattan_goal (by decide)⟩

/-- C11, witness: the board 8 1 2 7 0 3 6 5 4 and its left neighbour. -/
theorem manhattan_consistent_witness :
    manhattan (PuzzleState.ofTiles [8, 1, 2, 7, 0, 3, 6, 5, 4]) ≤
        1 + manhattan ⟨[8, 1, 2, 0, 7, 3, 6, 5, 4], 3⟩ ∧
      manhattan (PuzzleState.ofTiles goal) = 0 :=
  manhattan_consistent (PuzzleState.ofTiles [8, 1, 2, 7, 0, 3, 6, 5, 4])
    ⟨[8, 1, 2, 0, 7, 3, 6, 5, 4], 3⟩ (by decide) (by decide)

/-- C18: inversion parity is invariant under moves: for a valid board `s` and
every `t` in `s.neighbors`, `isSolvable t = isSolvable s`; a move within the
blank's row leaves the inversion count unchanged, any move changes it by an even
amount; and `isSolvable` of the goal board is true. -/
theorem isSolvable_invariant (s t : PuzzleState) (hv : Valid s) (ht : t ∈ s.neighbors) :
    isSolvable t = isSolvable s ∧
      (t.blankIdx.tdiv 3 = s.blankIdx.tdiv 3 → inversions t.tiles = inversions s.tiles) ∧
      (inversions t.tiles - inversions s.tiles) % 2 = 0 ∧
      isSolvable (PuzzleState.ofTiles goal) = true :=
  ⟨isSolvable_step hv ht, (inversions_step hv ht).2, (inversions_step hv ht).1,
    isSolvable_of_isGoal (by decide)⟩

/-- C18, witness: the board 8 1 2 7 0 3 6 5 4 and its upper neighbour. -/
theorem isSolvable_invariant_witness :
    isSolvable ⟨[8, 0, 2, 7, 1, 3, 6, 5, 4], 1⟩ =
        isSolvable (PuzzleState.ofTiles [8, 1, 2, 7, 0, 3, 6, 5, 4]) ∧
      ((1 : Int).tdiv 3 = (PuzzleState.ofTiles [8, 1, 2, 7, 0, 3, 6, 5, 4]).blankIdx.tdiv 3 →
        inversions [8, 0, 2, 7, 1, 3, 6, 5, 4] = inversions [8, 1, 2, 7, 0, 3, 6, 5, 4]) ∧
      (inversions [8, 0, 2, 7, 1, 3, 6, 5, 4] - inversions [8, 1, 2, 7, 0, 3, 6, 5, 4]) % 2 = 0 ∧
      isSolvable (PuzzleState.ofTiles goal) = true :=
  isSolvable_invariant (PuzzleState.ofTiles [8, 1, 2, 7, 0, 3, 6, 5, 4])
    ⟨[8, 0, 2, 7, 1, 3, 6, 5, 4], 1⟩ (by decide) (by decide)

/-- C20: the move relation is symmetric: for a valid board `s` and every `t`
in `s.neighbors`, `s` is in `t.neighbors`, and `t` differs from `s` (as compared
by `operator==`, on the tiles). -/
theorem neighbors_symmetric (s t : PuzzleState) (hv : Valid s) (ht : t ∈ s.neighbors) :
    s ∈ t.neighbors ∧ t.tiles ≠ s.tiles :=
  ⟨neighbors_symm hv ht, neighbors_tiles_ne hv ht⟩

/-- C20, witness: the board 8 1 2 7 0 3 6 5 4 and its left neighbour. -/
theorem neighbors_symmetric_witness :
    PuzzleState.ofTiles [8, 1, 2, 7, 0, 3, 6, 5, 4] ∈
        PuzzleState.neighbors ⟨[8, 1, 2, 0, 7, 3, 6, 5, 4], 3⟩ ∧
      [8, 1, 2, 0, 7, 3, 6, 5, 4] ≠ (PuzzleState.ofTiles [8, 1, 2, 7, 0, 3, 6, 5, 4]).tiles :=
  neighbors_symmetric (PuzzleState.ofTiles [8, 1, 2, 7, 0, 3, 6, 5, 4])
    ⟨[8, 1, 2, 0, 7, 3, 6, 5, 4], 3⟩ (by decide) (by decide)

/-! ## Further properties of the two solvers -/

theorem pop_push_empty {pq : PriorityQueue} (hl : pq.Lawful) (n : Node) :
    ∃ q', pq.pop (pq.push pq.empty n) = some (n, q') := by
  cases hpop : pq.pop (pq.push pq.empty n) with
  | none =>
    have h1 := (hl.pop_none _).mp hpop
    have h2 := (mem_push hl pq.empty n n).mpr (Or.inl rfl)
    rw [h1] at h2
    simp at h2
  | some p =>
    obtain ⟨m, q'⟩ := p
    have h1 : m ∈ pq.toList (pq.push pq.empty n) := (mem_pop hl hpop m).mpr (Or.inl rfl)
    rw [mem_push hl, hl.toList_empty] at h1
    simp only [List.not_mem_nil, or_false] at h1
    subst h1
    exact ⟨q', rfl⟩

/-- C12: on the already-solved board 1 2 3 4 5 6 7 8 0, `solveAStar` (over any
lawful priority queue, with room for at least one iteration) and
`solveBacktracking` (with any non-negative ceiling) return exactly the
one-element sequence consisting of that board. -/
theorem solved_board (pq : PriorityQueue) (fuel : Nat) (maxDepth : Int) (hl : pq.Lawful)
    (hf : 1 ≤ fuel) (hd : 0 ≤ maxDepth) :
    solveAStar pq fuel (PuzzleState.ofTiles goal) = some [PuzzleState.ofTiles goal] ∧
      solveBacktracking (PuzzleState.ofTiles goal) maxDepth =
        some [PuzzleState.ofTiles goal] := by
  constructor
  · obtain ⟨k, rfl⟩ : ∃ k, fuel = k + 1 := ⟨fuel - 1, by omega⟩
    obtain ⟨q', hq'⟩ := pop_push_empty hl
      (Node.new (PuzzleState.ofTiles goal) 0 (manhattan (PuzzleState.ofTiles goal)) none)
    rw [solveAStar_eq, astarLoop_succ, hq']
    rfl
  · obtain ⟨n, hn⟩ : ∃ n, (maxDepth + 1).toNat = n + 1 := ⟨maxDepth.toNat, by omega⟩
    unfold solveBacktracking
    rw [hn, List.range_succ_eq_map]
    rfl

/-- C12, witness: the list-based queue with room for one iteration, and the
ceiling 50 used by `main`. -/
theorem solved_board_witness :
    solveAStar listQueue 1 (PuzzleState.ofTiles goal) = some [PuzzleState.ofTiles goal] ∧
      solveBacktracking (PuzzleState.ofTiles goal) 50 = some [PuzzleState.ofTiles goal] :=
  solved_board listQueue 1 50 listQueue_lawful (by decide) (by decide)

/-- C13: over any lawful priority queue and for every valid start board the A*
loop stops after finitely many iterations, and when no goal board is reachable
from the start its result is the empty sequence (the frontier ran empty). -/
theorem solveAStar_terminates (pq : PriorityQueue) (start : PuzzleState)
    (hl : pq.Lawful) (hv : Valid start) :
    ∃ N r, (∀ fuel, N ≤ fuel → solveAStar pq fuel start = some r) ∧
      ((¬ ∃ m, ReachesGoalIn start m) → r = []) := by
  obtain ⟨N, r, hN, hP⟩ := astarLoop_run hl hv (fun _ _ => True)
    (fun r => (¬ ∃ m, ReachesGoalIn start m) → r = [])
    (fun _ _ _ _ _ _ _ _ => trivial)
    (fun fr bg node fr1 hinv _ hpop hg hno => by
      exfalso
      apply hno
      have hp := (hinv.1 node ((mem_pop hl hpop node).mpr (Or.inl rfl))).1
      have hpos := isPath_length_pos hp
      exact ⟨node.chain.reverse.length - 1, _, node.state, hp, hg, by omega⟩)
    (fun _ _ _ _ _ _ => rfl)
    _ _ (astarInv_init hl start) trivial
  exact ⟨N, r, hN, hP⟩

/-- C13, witness: from 1 2 3 4 5 6 8 7 0 (odd inversion parity) no goal board
is reachable, and the list-based queue runs empty. -/
theorem solveAStar_terminates_witness :
    ∃ N, ∀ fuel, N ≤ fuel →
      solveAStar listQueue fuel (PuzzleState.ofTiles [1, 2, 3, 4, 5, 6, 8, 7, 0]) = some [] := by
  obtain ⟨N, r, hN, hr⟩ := solveAStar_terminates listQueue
    (PuzzleState.ofTiles [1, 2, 3, 4, 5, 6, 8, 7, 0]) listQueue_lawful (by decide)
  have hno : ¬ ∃ m, ReachesGoalIn (PuzzleState.ofTiles [1, 2, 3, 4, 5, 6, 8, 7, 0]) m := by
    rintro ⟨m, l, g, hp, hg, -⟩
    have h1 := isSolvable_path hp (by decide)
    rw [isSolvable_of_isGoal hg] at h1
    exact absurd h1 (by decide)
  rw [hr hno] at hN
  exact ⟨N, hN⟩

theorem dfs_frame_aux (fuel : Nat) (current : PuzzleState) (visited : List (List Int))
    (path : List PuzzleState) (depth depthLimit : Int) (r : DfsResult)
    (h : dfs fuel current visited path depth depthLimit = some r) (hf : r.found = false)
    (hv : current.tiles ∉ visited) : r.visited = visited ∧ r.path = path := by
  by_cases hd : depth ≤ depthLimit
  · have := (dfs_post fuel current visited path depth depthLimit r hd h).2 hf
    exact ⟨this.2 hv, this.1⟩
  · cases fuel with
    | zero => simp [dfs] at h
    | succ fuel =>
      rw [dfs] at h
      split at h
      · simp only [Option.some.injEq] at h
        subst h
        simp at hf
      · rw [if_pos (by omega)] at h
        simp only [Option.some.injEq] at h
        subst h
        exact ⟨rfl, rfl⟩

theorem dfsLoop_visited
    {call : PuzzleState → List (List Int) → List PuzzleState → Option DfsResult}
    (current : PuzzleState)
    (hfail : ∀ nxt v p r, call nxt v p = some r → r.found = false → nxt.tiles ∉ v →
      r.visited = v ∧ r.path = p)
    (hsucc : ∀ nxt v p r, call nxt v p = some r → r.found = true → nxt.tiles ∉ v →
      ∃ ext, r.path = p ++ ext ∧
        r.visited = ((nxt :: ext).dropLast.map PuzzleState.tiles).reverse ++ v) :
    ∀ (nbrs : List PuzzleState) (v : List (List Int)) (path : List PuzzleState)
      (r : DfsResult), dfsLoop call current nbrs v path = some r → r.found = true →
      ∃ nxt ext, r.path = path ++ nxt :: ext ∧
        r.visited = ((nxt :: ext).dropLast.map PuzzleState.tiles).reverse ++ v := by
  intro nbrs
  induction nbrs with
  | nil =>
    intro v path r h hf
    simp only [dfsLoop, Option.some.injEq] at h
    subst h
    simp at hf
  | cons nxt rest ih =>
    intro v path r h hf
    rw [dfsLoop] at h
    split at h
    · exact ih v path r h hf
    · rename_i hcount
      have hnv : nxt.tiles ∉ v := by simpa [visitedCount] using hcount
      split at h
      · exact absurd h (by simp)
      · rename_i r' hr'
        split at h
        · rename_i hfound
          simp only [Option.some.injEq] at h
          subst h
          obtain ⟨ext, hp, hvis⟩ := hsucc _ _ _ _ hr' hfound hnv
          exact ⟨nxt, ext, by simp [hp], hvis⟩
        · rename_i hfound
          have hf' : r'.found = false := by simpa using hfound
          obtain ⟨hvis, hpath⟩ := hfail _ _ _ _ hr' hf' hnv
          rw [hpath, hvis, List.dropLast_concat] at h
          exact ih v path r h hf

/-- On success `visited` has grown by exactly the boards of the path found,
the goal board at its end excepted. -/
theorem dfs_visited : ∀ (fuel : Nat) (current : PuzzleState) (visited : List (List Int))
    (path : List PuzzleState) (depth depthLimit : Int) (r : DfsResult),
    dfs fuel current visited path depth depthLimit = some r → r.found = true →
    current.tiles ∉ visited →
    ∃ ext, r.path = path ++ ext ∧
      r.visited = ((current :: ext).dropLast.map PuzzleState.tiles).reverse ++ visited := by
  intro fuel
  induction fuel with
  | zero => intro current visited path depth depthLimit r h; simp [dfs] at h
  | succ fuel ih =>
    intro current visited path depth depthLimit r h hf hv
    rw [dfs] at h
    split at h
    · simp only [Option.some.injEq] at h
      subst h
      exact ⟨[], by simp, by simp⟩
    · split at h
      · simp only [Option.some.injEq] at h
        subst h
        simp at hf
      · obtain ⟨nxt, ext, hp, hvis⟩ := dfsLoop_visited current
          (fun nxt v p r hr hfr hnv => dfs_frame_aux fuel nxt v p (depth + 1) depthLimit r hr hfr hnv)
          (fun nxt v p r hr hfr hnv => ih nxt v p (depth + 1) depthLimit r hr hfr hnv)
          current.neighbors _ path r h hf
        refine ⟨nxt :: ext, hp, ?_⟩
        rw [hvis]
        simp [visitedInsert, hv]

/-- C14: a call of `dfs` on a `current` that was not in `visited` leaves
`visited` and `path` as they were at entry when it returns false; when it
returns true, `path` has grown by the chain found and `visited` by exactly the
boards of that chain from `current` on, the goal board at its end excepted: the
boards on the active path. -/
theorem dfs_frame (fuel : Nat) (current : PuzzleState) (visited : List (List Int))
    (path : List PuzzleState) (depth depthLimit : Int) (r : DfsResult)
    (h : dfs fuel current visited path depth depthLimit = some r)
    (hv : current.tiles ∉ visited) :
    (r.found = false → r.visited = visited ∧ r.path = path) ∧
      (r.found = true → ∃ ext, r.path = path ++ ext ∧
        r.visited = ((current :: ext).dropLast.map PuzzleState.tiles).reverse ++ visited) :=
  ⟨fun hf => dfs_frame_aux fuel current visited path depth depthLimit r h hf hv,
    fun hf => dfs_visited fuel current visited path depth depthLimit r h hf hv⟩

/-- C14, witness: the failing sweep at depth limit 1 from 1 2 3 4 5 6 0 7 8. -/
theorem dfs_frame_witness :
    (⟨false, [], [PuzzleState.ofTiles [1, 2, 3, 4, 5, 6, 0, 7, 8]]⟩ : DfsResult).visited = [] ∧
      (⟨false, [], [PuzzleState.ofTiles [1, 2, 3, 4, 5, 6, 0, 7, 8]]⟩ : DfsResult).path =
        [PuzzleState.ofTiles [1, 2, 3, 4, 5, 6, 0, 7, 8]] :=
  (dfs_frame 2 (PuzzleState.ofTiles [1, 2, 3, 4, 5, 6, 0, 7, 8]) []
    [PuzzleState.ofTiles [1, 2, 3, 4, 5, 6, 0, 7, 8]] 0 1
    ⟨false, [], [PuzzleState.ofTiles [1, 2, 3, 4, 5, 6, 0, 7, 8]]⟩ (by decide) (by decide)).1 rfl

/-- C17: for a valid start board and a ceiling for which `solveBacktracking`
returns a non-empty sequence, `solveAStar` (over any lawful priority queue)
returns a non-empty sequence of the same length. -/
theorem solvers_agree (pq : PriorityQueue) (start : PuzzleState) (maxDepth : Int)
    (r : List PuzzleState) (hl : pq.Lawful) (hv : Valid start)
    (hb : solveBacktracking start maxDepth = some r) (hne : r ≠ []) :
    ∃ N r', (∀ fuel, N ≤ fuel → solveAStar pq fuel start = some r') ∧ r' ≠ [] ∧
      r'.length = r.length := by
  obtain ⟨g, hp, hg, -, hmin⟩ := solveBacktracking_nonempty hv hb hne
  have hpos := isPath_length_pos hp
  have hreach : ReachesGoalIn start (r.length - 1) := ⟨r, g, hp, hg, by omega⟩
  obtain ⟨N, r', hN, -, hne', hreach', hmin'⟩ := astar_shortest_core pq start hl hv ⟨_, hreach⟩
  refine ⟨N, r', hN, hne', ?_⟩
  have h1 := hmin _ hreach'
  have h2 := hmin' _ hreach
  have hpos' : 0 < r'.length := List.length_pos.mpr hne'
  omega

/-- C17, witness: start 1 2 3 4 5 6 0 7 8 with ceiling 2 and the list-based
queue: both solvers return 3 boards. -/
theorem solvers_agree_witness :
    ∃ N r', (∀ fuel, N ≤ fuel →
        solveAStar listQueue fuel (PuzzleState.ofTiles [1, 2, 3, 4, 5, 6, 0, 7, 8]) = some r') ∧
      r' ≠ [] ∧
      r'.length = [PuzzleState.ofTiles [1, 2, 3, 4, 5, 6, 0, 7, 8],
        PuzzleState.ofTiles [1, 2, 3, 4, 5, 6, 7, 0, 8],
        PuzzleState.ofTiles [1, 2, 3, 4, 5, 6, 7, 8, 0]].length :=
  solvers_agree listQueue (PuzzleState.ofTiles [1, 2, 3, 4, 5, 6, 0, 7, 8]) 2
    [PuzzleState.ofTiles [1, 2, 3, 4, 5, 6, 0, 7, 8],
      PuzzleState.ofTiles [1, 2, 3, 4, 5, 6, 7, 0, 8],
      PuzzleState.ofTiles [1, 2, 3, 4, 5, 6, 7, 8, 0]]
    listQueue_lawful (by decide) (by decide) (by decide)

/-! ## The cost table and stale frontier entries -/

theorem node_new_parent (s : PuzzleState) (g h : Int) (p : Option Node) :
    (Node.new s g h p).parent = p := rfl

theorem expand_pushed {pq : PriorityQueue} (hl : pq.Lawful) (node : Node) :
    ∀ (nbrs : List PuzzleState) (fr : pq.Q) (bg : BestG) (n : Node),
      n ∈ pq.toList (expand pq node nbrs fr bg).1 →
      n ∈ pq.toList fr ∨
        ∃ nbr ∈ nbrs, n = Node.new nbr (node.g + 1) (manhattan nbr) (some node) ∧
          (expand pq node nbrs fr bg).2 nbr.tiles = some (node.g + 1) ∧
          (bg nbr.tiles = none ∨ ∃ g0, bg nbr.tiles = some g0 ∧ node.g + 1 < g0) := by
  intro nbrs
  induction nbrs with
  | nil => intro fr bg n h; exact Or.inl h
  | cons nbr rest ih =>
    intro fr bg n h
    by_cases hc : bg nbr.tiles = none ∨ ∃ g0, bg nbr.tiles = some g0 ∧ node.g + 1 < g0
    · rw [expand_cons_pos pq node nbr rest fr bg hc] at h ⊢
      rcases ih _ _ n h with h1 | ⟨x, hx, hn, h2, h3⟩
      · rcases (mem_push hl _ _ _).mp h1 with rfl | h1'
        · right
          refine ⟨nbr, List.mem_cons_self _ _, rfl, ?_, hc⟩
          rcases expand_bestG hl node rest
            (pq.push fr (Node.new nbr (node.g + 1) (manhattan nbr) (some node)))
            (bg.set nbr (node.g + 1)) nbr.tiles with h4 | ⟨-, -, -, h5, -, -⟩
          · rw [h4, bestG_set_same]
          · exact h5
        · exact Or.inl h1'
      · right
        have hne : x.tiles ≠ nbr.tiles := by
          intro heq
          rw [heq, bestG_set_same] at h3
          rcases h3 with h3 | ⟨g0, h3, h3'⟩
          · exact absurd h3 (by simp)
          · simp only [Option.some.injEq] at h3
            omega
        rw [bestG_set_other _ _ _ hne] at h3
        exact ⟨x, List.mem_cons_of_mem _ hx, hn, h2, h3⟩
    · rw [expand_cons_neg pq node nbr rest fr bg hc] at h ⊢
      rcases ih _ _ n h with h1 | ⟨x, hx, hn, h2, h3⟩
      · exact Or.inl h1
      · exact Or.inr ⟨x, List.mem_cons_of_mem _ hx, hn, h2, h3⟩

/-- C16: one iteration of the A* loop only improves the cost table: the
expansion of the popped node removes no entry and changes an entry only to a
strictly smaller value; every entry written is carried by a node pushed for it;
and every node pushed has the popped node as parent, `g` equal to the parent's
`g` plus 1, and that `g` written into `bestG` for its board, where before there
was no entry or a strictly larger one.  Nothing leaves the frontier. -/
theorem bestG_only_improves (pq : PriorityQueue) (node : Node) (nbrs : List PuzzleState)
    (fr : pq.Q) (bg : BestG) (hl : pq.Lawful) :
    (∀ t g0, bg t = some g0 →
        ∃ g1, (expand pq node nbrs fr bg).2 t = some g1 ∧ (g1 = g0 ∨ g1 < g0)) ∧
      (∀ t, (expand pq node nbrs fr bg).2 t ≠ bg t →
        ∃ n ∈ pq.toList (expand pq node nbrs fr bg).1, n.state.tiles = t ∧
          (expand pq node nbrs fr bg).2 t = some n.g ∧ n.g = node.g + 1 ∧
          n.parent = some node) ∧
      (∀ n ∈ pq.toList (expand pq node nbrs fr bg).1, n ∈ pq.toList fr ∨
        (n.parent = some node ∧ n.g = node.g + 1 ∧ n.state ∈ nbrs ∧
          (expand pq node nbrs fr bg).2 n.state.tiles = some n.g ∧
          (bg n.state.tiles = none ∨ ∃ g0, bg n.state.tiles = some g0 ∧ n.g < g0))) ∧
      (∀ n ∈ pq.toList fr, n ∈ pq.toList (expand pq node nbrs fr bg).1) := by
  refine ⟨fun t g0 ht => ?_, fun t ht => ?_, fun n hn => ?_,
    fun n hn => expand_mem_old hl node nbrs fr bg n hn⟩
  · rcases expand_bestG hl node nbrs fr bg t with h1 | ⟨nbr, -, -, h2, h3, -⟩
    · exact ⟨g0, by rw [h1, ht], Or.inl rfl⟩
    · refine ⟨node.g + 1, h2, Or.inr ?_⟩
      rcases h3 with h3 | ⟨g0', h3, h3'⟩
      · rw [ht] at h3; exact absurd h3 (by simp)
      · rw [ht] at h3
        simp only [Option.some.injEq] at h3
        omega
  · rcases expand_bestG hl node nbrs fr bg t with h1 | ⟨nbr, -, htn, h2, -, h4⟩
    · exact absurd h1 ht
    · exact ⟨_, h4, by rw [node_new_state, htn], by rw [h2, node_new_g], node_new_g _ _ _ _,
        node_new_parent _ _ _ _⟩
  · rcases expand_pushed hl node nbrs fr bg n hn with h1 | ⟨nbr, hnbr, rfl, h2, h3⟩
    · exact Or.inl h1
    · right
      rw [node_new_parent, node_new_g, node_new_state]
      exact ⟨rfl, rfl, hnbr, h2, h3⟩

/-- C16, witness: the expansion of the start node of 1 2 3 4 5 6 0 7 8 writes
cost 1 for its right neighbour, where there was no entry. -/
theorem bestG_only_improves_witness :
    (expand listQueue
        (Node.new (PuzzleState.ofTiles [1, 2, 3, 4, 5, 6, 0, 7, 8]) 0 2 none)
        (PuzzleState.ofTiles [1, 2, 3, 4, 5, 6, 0, 7, 8]).neighbors []
        (BestG.set (fun _ => none) (PuzzleState.ofTiles [1, 2, 3, 4, 5, 6, 0, 7, 8]) 0)).2
        [1, 2, 3, 4, 5, 6, 0, 7, 8] = some 0 ∧
      (expand listQueue
        (Node.new (PuzzleState.ofTiles [1, 2, 3, 4, 5, 6, 0, 7, 8]) 0 2 none)
        (PuzzleState.ofTiles [1, 2, 3, 4, 5, 6, 0, 7, 8]).neighbors []
        (BestG.set (fun _ => none) (PuzzleState.ofTiles [1, 2, 3, 4, 5, 6, 0, 7, 8]) 0)).2
        [1, 2, 3, 4, 5, 6, 7, 0, 8] = some 1 := by
  obtain ⟨g1, h1, h2⟩ := (bestG_only_improves listQueue
    (Node.new (PuzzleState.ofTiles [1, 2, 3, 4, 5, 6, 0, 7, 8]) 0 2 none)
    (PuzzleState.ofTiles [1, 2, 3, 4, 5, 6, 0, 7, 8]).neighbors []
    (BestG.set (fun _ => none) (PuzzleState.ofTiles [1, 2, 3, 4, 5, 6, 0, 7, 8]) 0)
    listQueue_lawful).1 [1, 2, 3, 4, 5, 6, 0, 7, 8] 0 (by decide)
  exact ⟨by decide, by decide⟩

theorem expand_noop (pq : PriorityQueue) (node : Node) :
    ∀ (nbrs : List PuzzleState) (fr : pq.Q) (bg : BestG),
      (∀ nbr ∈ nbrs, ∃ g'', bg nbr.tiles = some g'' ∧ g'' ≤ node.g + 1) →
      expand pq node nbrs fr bg = (fr, bg) := by
  intro nbrs
  induction nbrs with
  | nil => intro fr bg _; rfl
  | cons nbr rest ih =>
    intro fr bg h
    obtain ⟨g'', h1, h2⟩ := h nbr (List.mem_cons_self _ _)
    have hc : ¬ (bg nbr.tiles = none ∨ ∃ g0, bg nbr.tiles = some g0 ∧ node.g + 1 < g0) := by
      rintro (hn | ⟨g0, hg0, hlt⟩)
      · rw [h1] at hn; exact absurd hn (by simp)
      · rw [h1] at hg0
        simp only [Option.some.injEq] at hg0
        omega
    rw [expand_cons_neg pq node nbr rest fr bg hc]
    exact ih fr bg (fun x hx => h x (List.mem_cons_of_mem _ hx))

theorem closedInv_init {pq : PriorityQueue} (hl : pq.Lawful) {start : PuzzleState}
    (hv : Valid start) : ClosedInv pq (astarInit pq start).1 (astarInit pq start).2 := by
  intro s g' hs hbg
  left
  simp only [astarInit] at hbg ⊢
  by_cases ht : s.tiles = start.tiles
  · rw [ht, bestG_set_same] at hbg
    simp only [Option.some.injEq] at hbg
    exact ⟨_, (mem_push hl _ _ _).mpr (Or.inl rfl),
      (valid_eq_of_tiles hs hv ht).symm, by rw [node_new_g]; exact hbg⟩
  · rw [bestG_set_other _ _ _ ht] at hbg
    exact absurd hbg (by simp)

theorem closedInv_step {pq : PriorityQueue} (hl : pq.Lawful) {start : PuzzleState}
    (hv : Valid start) {fr fr1 : pq.Q} {bg : BestG} {node : Node}
    (hinv : AStarInv pq start fr bg) (hC : ClosedInv pq fr bg)
    (hpop : pq.pop fr = some (node, fr1)) :
    ClosedInv pq (expand pq node node.state.neighbors fr1 bg).1
      (expand pq node node.state.neighbors fr1 bg).2 := by
  intro s g' hs hbg
  have hnode : NodeOK start node := hinv.1 node ((mem_pop hl hpop node).mpr (Or.inl rfl))
  have hmono : ∀ (x : PuzzleState) (g0 : Int), bg x.tiles = some g0 →
      ∃ g1, (expand pq node node.state.neighbors fr1 bg).2 x.tiles = some g1 ∧ g1 ≤ g0 := by
    intro x g0 hx
    rcases expand_bestG hl node node.state.neighbors fr1 bg x.tiles with
      h5 | ⟨-, -, -, h6, h7, -⟩
    · exact ⟨g0, by rw [h5]; exact hx, le_refl _⟩
    · refine ⟨node.g + 1, h6, ?_⟩
      rcases h7 with h7 | ⟨g0', h7, h7'⟩
      · rw [hx] at h7; exact absurd h7 (by simp)
      · rw [hx] at h7
        simp only [Option.some.injEq] at h7
        omega
  rcases expand_bestG hl node node.state.neighbors fr1 bg s.tiles with
    h1 | ⟨nbr, hnbr, htn, h2, -, h4⟩
  · rw [h1] at hbg
    rcases hC s g' hs hbg with ⟨n, hn, hns, hng⟩ | hclosed
    · rcases (mem_pop hl hpop n).mp hn with rfl | hn1
      · right
        intro nbr hnbr
        rw [← hns] at hnbr
        obtain ⟨g'', h5, h6⟩ := expand_nbr hl n n.state.neighbors fr1 bg nbr hnbr
        exact ⟨g'', h5, by omega⟩
      · exact Or.inl ⟨n, expand_mem_old hl node _ _ _ n hn1, hns, hng⟩
    · right
      intro nbr hnbr
      obtain ⟨g'', h5, h6⟩ := hclosed nbr hnbr
      obtain ⟨g1, h7, h8⟩ := hmono nbr g'' h5
      exact ⟨g1, h7, by omega⟩
  · left
    rw [h2] at hbg
    simp only [Option.some.injEq] at hbg
    have hnv : Valid nbr := neighbors_valid (nodeOK_valid hv hnode) hnbr
    exact ⟨_, h4, by rw [node_new_state]; exact valid_eq_of_tiles hnv hs htn.symm,
      by rw [node_new_g]; exact hbg⟩

theorem astarIter_inv {pq : PriorityQueue} (hl : pq.Lawful) {start : PuzzleState}
    (hv : Valid start) : ∀ (k : Nat) (fr : pq.Q) (bg : BestG),
    astarIter pq start k = some (fr, bg) → AStarInv pq start fr bg ∧ ClosedInv pq fr bg := by
  intro k
  induction k with
  | zero =>
    intro fr bg h
    simp only [astarIter, Option.some.injEq] at h
    have h1 : fr = (astarInit pq start).1 := by rw [h]
    have h2 : bg = (astarInit pq start).2 := by rw [h]
    subst h1; subst h2
    exact ⟨astarInv_init hl start, closedInv_init hl hv⟩
  | succ k ih =>
    intro fr bg h
    rw [astarIter] at h
    split at h
    · exact absurd h (by simp)
    · rename_i st hst
      obtain ⟨fr0, bg0⟩ := st
      obtain ⟨hinv, hC⟩ := ih fr0 bg0 hst
      split at h
      · exact absurd h (by simp)
      · rename_i node fr1 hpop
        split at h
        · exact absurd h (by simp)
        · simp only [Option.some.injEq] at h
          have h1 : fr = (expand pq node node.state.neighbors fr1 bg0).1 := by rw [h]
          have h2 : bg = (expand pq node node.state.neighbors fr1 bg0).2 := by rw [h]
          subst h1; subst h2
          exact ⟨astarInv_step hl hinv hpop, closedInv_step hl hv hinv hC hpop⟩

/-- The states listed by `astarIter` are the states the loop of `solveAStar`
goes through: running the loop `k` iterations longer from the initial state is
running it from the state after `k` iterations. -/
theorem astarLoop_iter (pq : PriorityQueue) (start : PuzzleState) :
    ∀ (k : Nat) (st : pq.Q × BestG), astarIter pq start k = some st →
      ∀ fuel, solveAStar pq (k + fuel) start = astarLoop pq fuel st.1 st.2 := by
  intro k
  induction k with
  | zero =>
    intro st h fuel
    simp only [astarIter, Option.some.injEq] at h
    subst h
    rw [Nat.zero_add]
    rfl
  | succ k ih =>
    intro st h fuel
    rw [astarIter] at h
    split at h
    · exact absurd h (by simp)
    · rename_i st0 hst0
      split at h
      · exact absurd h (by simp)
      · rename_i node fr1 hpop
        split at h
        · exact absurd h (by simp)
        · rename_i hng
          simp only [Option.some.injEq] at h
          subst h
          have := ih st0 hst0 (fuel + 1)
          rw [show k + 1 + fuel = k + (fuel + 1) by omega, this, astarLoop_succ, hpop]
          simp only
          rw [if_neg hng]

/-- C15: stale frontier entries are skipped in effect.  In every state the loop
of `solveAStar` reaches (over any lawful priority queue, from a valid start
board), when the node popped has a `g` strictly greater than the cost recorded
in `bestG` for its board, expanding it pushes no node and changes no entry of
`bestG`. -/
theorem stale_node_skipped (pq : PriorityQueue) (start : PuzzleState) (k : Nat)
    (fr fr1 : pq.Q) (bg : BestG) (node : Node) (hl : pq.Lawful) (hv : Valid start)
    (hiter : astarIter pq start k = some (fr, bg)) (hpop : pq.pop fr = some (node, fr1))
    (hstale : ∃ g', bg node.state.tiles = some g' ∧ g' < node.g) :
    expand pq node node.state.neighbors fr1 bg = (fr1, bg) := by
  obtain ⟨hinv, hC⟩ := astarIter_inv hl hv k fr bg hiter
  obtain ⟨g', hg', hlt⟩ := hstale
  have hmem : node ∈ pq.toList fr := (mem_pop hl hpop node).mpr (Or.inl rfl)
  have hnode : NodeOK start node := hinv.1 node hmem
  apply expand_noop
  rcases hC node.state g' (nodeOK_valid hv hnode) hg' with ⟨n, hn, hns, hng⟩ | hclosed
  · exfalso
    have hle := (hl.pop_some fr node fr1 hpop).2 n hn
    rw [(hinv.1 n hn).2.2, hnode.2.2, hns, hng] at hle
    omega
  · intro nbr hnbr
    obtain ⟨g'', h1, h2⟩ := hclosed nbr hnbr
    exact ⟨g'', h1, by omega⟩

theorem option_eq_some_getD {α : Type} (o : Option α) (d : α) (h : o.isSome = true) :
    o = some (o.getD d) := by
  cases o with
  | none => simp at h
  | some a => rfl

/-- C15, witness: with the list-based queue and the start board
3 1 2 4 0 8 7 6 5, the node popped after 19 iterations is the board
3 1 2 4 5 0 7 8 6 with `g = 7` while `bestG` records 5 for it; expanding it
changes nothing. -/
theorem stale_node_skipped_witness :
    ∃ (st : List Node × BestG) (node : Node) (fr1 : List Node),
      astarIter listQueue (PuzzleState.ofTiles [3, 1, 2, 4, 0, 8, 7, 6, 5]) 19 = some st ∧
      listPopMin st.1 = some (node, fr1) ∧ node.state.tiles = [3, 1, 2, 4, 5, 0, 7, 8, 6] ∧
      node.g = 7 ∧ st.2 node.state.tiles = some 5 ∧
      expand listQueue node node.state.neighbors fr1 st.2 = (fr1, st.2) :=
  ⟨_, _, _,
    option_eq_some_getD
      (astarIter listQueue (PuzzleState.ofTiles [3, 1, 2, 4, 0, 8, 7, 6, 5]) 19)
      (astarInit listQueue (PuzzleState.ofTiles [3, 1, 2, 4, 0, 8, 7, 6, 5])) (by decide),
    option_eq_some_getD
      (listPopMin ((astarIter listQueue (PuzzleState.ofTiles [3, 1, 2, 4, 0, 8, 7, 6, 5]) 19).getD
        (astarInit listQueue (PuzzleState.ofTiles [3, 1, 2, 4, 0, 8, 7, 6, 5]))).1)
      (Node.new (PuzzleState.ofTiles [3, 1, 2, 4, 0, 8, 7, 6, 5]) 0 0 none, []) (by decide),
    by decide, by decide, by decide,
    stale_node_skipped listQueue (PuzzleState.ofTiles [3, 1, 2, 4, 0, 8, 7, 6, 5]) 19 _ _ _ _
      listQueue_lawful (by decide)
      (option_eq_some_getD
        (astarIter listQueue (PuzzleState.ofTiles [3, 1, 2, 4, 0, 8, 7, 6, 5]) 19)
        (astarInit listQueue (PuzzleState.ofTiles [3, 1, 2, 4, 0, 8, 7, 6, 5])) (by decide))
      (option_eq_some_getD
        (listPopMin
          ((astarIter listQueue (PuzzleState.ofTiles [3, 1, 2, 4, 0, 8, 7, 6, 5]) 19).getD
            (astarInit listQueue (PuzzleState.ofTiles [3, 1, 2, 4, 0, 8, 7, 6, 5]))).1)
        (Node.new (PuzzleState.ofTiles [3, 1, 2, 4, 0, 8, 7, 6, 5]) 0 0 none, []) (by decide))
      ⟨5, by decide, by decide⟩⟩

/-! ## Solvability and reachability -/

theorem stepDir_mem {s q : PuzzleState} {d : Nat} (h : stepDir s d = some q) :
    q ∈ s.neighbors := by
  unfold stepDir at h
  split at h
  · exact absurd h (by simp)
  · rename_i mv hmv
    unfold PuzzleState.neighbors
    rw [List.mem_filterMap]
    exact ⟨mv, List.getElem?_mem hmv, h⟩

theorem runWord_path : ∀ (w : List Nat) (s q : PuzzleState), runWord s w = some q →
    ∃ l, IsPath l s q := by
  intro w
  induction w with
  | nil =>
    intro s q h
    simp only [runWord, Option.some.injEq] at h
    subst h
    exact ⟨[s], isPath_singleton s⟩
  | cons d w ih =>
    intro s q h
    rw [runWord] at h
    split at h
    · exact absurd h (by simp)
    · rename_i q1 hq1
      obtain ⟨l, hl⟩ := ih q1 q h
      obtain ⟨l', rfl⟩ := isPath_head hl
      exact ⟨s :: q1 :: l', isPath_cons (stepDir_mem hq1) hl⟩

theorem tileAt_map (f : Int → Int) (hf : f 0 = 0) (t : List Int) (i : Int) :
    tileAt (t.map f) i = f (tileAt t i) := by
  unfold tileAt
  have := List.getD_map (l := t) (d := 0) (n := i.toNat) f
  rw [hf] at this
  exact this

theorem swapAt_map (f : Int → Int) (hf : f 0 = 0) (t : List Int) (i j : Int) :
    swapAt (t.map f) i j = (swapAt t i j).map f := by
  unfold swapAt
  rw [tileAt_map f hf, tileAt_map f hf, List.map_set, List.map_set]

theorem stepDir_map (f : Int → Int) (hf : f 0 = 0) (s : PuzzleState) (d : Nat) :
    stepDir (mapState f s) d = (stepDir s d).map (mapState f) := by
  unfold stepDir
  cases moves[d]? with
  | none => rfl
  | some mv =>
    simp only
    have h1 : moveIdx (mapState f s) mv = moveIdx s mv := rfl
    rw [h1]
    cases moveIdx s mv with
    | none => rfl
    | some n =>
      simp only [Option.map_some', Option.some.injEq]
      unfold moveTo mapState
      simp only [swapAt_map f hf]

theorem runWord_map (f : Int → Int) (hf : f 0 = 0) : ∀ (w : List Nat) (s : PuzzleState),
    runWord (mapState f s) w = (runWord s w).map (mapState f) := by
  intro w
  induction w with
  | nil => intro s; rfl
  | cons d w ih =>
    intro s
    rw [runWord, runWord, stepDir_map f hf]
    cases stepDir s d with
    | none => rfl
    | some q => exact ih q

theorem labelTile_zero (s : PuzzleState) : labelTile s 0 = 0 := by
  simp [labelTile]

theorem labelTile_succ (s : PuzzleState) (i : Nat) :
    labelTile s ((i : Int) + 1) = s.tiles.getD i 0 := by
  unfold labelTile
  rw [if_neg (by omega)]
  congr 1
  omega

theorem mapState_base {s : PuzzleState} (h : Valid s) :
    mapState (labelTile s) (baseBoard s.blankIdx.toNat) = s := by
  obtain ⟨a0, a1, a2, a3, a4, a5, a6, a7, a8, b, rfl, h0, h9, -, -, -⟩ := valid_cases h
  simp only [mapState, baseBoard, PuzzleState.mk.injEq]
  refine ⟨?_, by omega⟩
  have e : ∀ i : Nat, labelTile ⟨[a0, a1, a2, a3, a4, a5, a6, a7, a8], b⟩ ((i : Int) + 1) =
      [a0, a1, a2, a3, a4, a5, a6, a7, a8].getD i 0 := fun i => labelTile_succ _ i
  have e0 := e 0
  have e1 := e 1
  have e2 := e 2
  have e3 := e 3
  have e4 := e 4
  have e5 := e 5
  have e6 := e 6
  have e7 := e 7
  have e8 := e 8
  norm_num at e0 e1 e2 e3 e4 e5 e6 e7 e8
  simp [e0, e1, e2, e3, e4, e5, e6, e7, e8]

theorem stage_table : ∀ k ∈ List.range 6, ∀ b ∈ List.range 9, ∀ p ∈ List.range 9,
    k ≤ b → k ≤ p → b ≠ p → stageOK k b p = true := by
  decide

/-- One stage: with the tiles `1 .. k` in place, a chain of moves puts tile
`k + 1` in place as well. -/
theorem stage_step {s : PuzzleState} {k : Nat} (h : Valid s) (hk : k < 6)
    (hpre : PrefixOK k s.tiles) :
    ∃ q l, IsPath l s q ∧ PrefixOK (k + 1) q.tiles := by
  obtain ⟨hperm, hb0, hb9, hbz⟩ := id h
  have hlen : s.tiles.length = 9 := hperm.length_eq
  -- the cell of tile `k + 1`
  have hmem : ((k : Int) + 1) ∈ s.tiles := by
    apply hperm.mem_iff.mpr
    have : k = 0 ∨ k = 1 ∨ k = 2 ∨ k = 3 ∨ k = 4 ∨ k = 5 := by omega
    rcases this with rfl | rfl | rfl | rfl | rfl | rfl <;> decide
  obtain ⟨p, hp, hpk⟩ := List.mem_iff_getElem.mp hmem
  have hpD : s.tiles.getD p 0 = (k : Int) + 1 := by
    rw [List.getD_eq_getElem _ _ hp]; exact hpk
  have hbD : s.tiles.getD s.blankIdx.toNat 0 = 0 := hbz
  have hkb : k ≤ s.blankIdx.toNat := by
    by_contra hlt
    have := hpre s.blankIdx.toNat (by omega)
    rw [hbD] at this
    omega
  have hkp : k ≤ p := by
    by_contra hlt
    have := hpre p (by omega)
    rw [hpD] at this
    omega
  have hbp : s.blankIdx.toNat ≠ p := by
    intro heq
    rw [heq, hpD] at hbD
    omega
  have hok := stage_table k (List.mem_range.mpr hk) s.blankIdx.toNat
    (List.mem_range.mpr (by omega)) p (List.mem_range.mpr (by omega)) hkb hkp hbp
  unfold stageOK at hok
  split at hok
  · exact absurd hok (by simp)
  · rename_i q0 hq0
    rw [Bool.and_eq_true, List.all_eq_true, decide_eq_true_eq] at hok
    obtain ⟨hq0pre, hq0k⟩ := hok
    have hrun := runWord_map (labelTile s) (labelTile_zero s)
      (stageWord k s.blankIdx.toNat p) (baseBoard s.blankIdx.toNat)
    rw [mapState_base h, hq0] at hrun
    obtain ⟨l, hl⟩ := runWord_path _ _ _ hrun
    refine ⟨mapState (labelTile s) q0, l, hl, ?_⟩
    intro i hi
    have hmapD : ∀ j, (mapState (labelTile s) q0).tiles.getD j 0 =
        labelTile s (q0.tiles.getD j 0) := by
      intro j
      have := List.getD_map (l := q0.tiles) (d := 0) (n := j) (labelTile s)
      rw [labelTile_zero] at this
      exact this
    rw [hmapD]
    by_cases hik : i < k
    · have := hq0pre i (List.mem_range.mpr hik)
      rw [decide_eq_true_eq] at this
      rw [this, labelTile_succ]
      exact hpre i hik
    · have hik' : i = k := by omega
      subst hik'
      rw [hq0k, labelTile_succ, hpD]

/-- All stages: from a valid board a chain of moves leads to a board with the
tiles 1 to 6 in place. -/
theorem stage_all {s : PuzzleState} (h : Valid s) :
    ∀ k, k ≤ 6 → ∃ q l, IsPath l s q ∧ PrefixOK k q.tiles := by
  intro k
  induction k with
  | zero => intro _; exact ⟨s, [s], isPath_singleton s, fun i hi => absurd hi (by omega)⟩
  | succ k ih =>
    intro hk
    obtain ⟨q, l, hl, hpre⟩ := ih (by omega)
    have hq : Valid q := isPath_last_valid hl h
    obtain ⟨q', l', hl', hpre'⟩ := stage_step hq (by omega) hpre
    obtain ⟨l'', rfl⟩ := isPath_head hl'
    exact ⟨q', l ++ l'', isPath_append hl hl', hpre'⟩

/-- The last stage: a valid board with the tiles 1 to 6 in place and an even
inversion count is at most two moves from the goal. -/
theorem stage_final {s : PuzzleState} (h : Valid s) (hpre : PrefixOK 6 s.tiles)
    (hsolv : isSolvable s = true) : ∃ l g, IsPath l s g ∧ g.isGoal = true := by
  obtain ⟨a0, a1, a2, a3, a4, a5, a6, a7, a8, b, rfl, h0, h9, hnd, hr, hz⟩ := valid_cases h
  have e0 := hpre 0 (by omega)
  have e1 := hpre 1 (by omega)
  have e2 := hpre 2 (by omega)
  have e3 := hpre 3 (by omega)
  have e4 := hpre 4 (by omega)
  have e5 := hpre 5 (by omega)
  norm_num at e0 e1 e2 e3 e4 e5
  subst e0 e1 e2 e3 e4 e5
  have r6 := hr a6 (by simp)
  have r7 := hr a7 (by simp)
  have r8 := hr a8 (by simp)
  simp only [List.nodup_cons, List.mem_cons, List.mem_singleton, List.not_mem_nil, not_or,
    or_false, not_false_eq_true, List.nodup_nil, and_true] at hnd
  have c6 : a6 = 0 ∨ a6 = 7 ∨ a6 = 8 := by omega
  have c7 : a7 = 0 ∨ a7 = 7 ∨ a7 = 8 := by omega
  have c8 : a8 = 0 ∨ a8 = 7 ∨ a8 = 8 := by omega
  clear h hpre hr r6 r7 r8
  rcases c6 with rfl | rfl | rfl <;> rcases c7 with rfl | rfl | rfl <;>
    rcases c8 with rfl | rfl | rfl <;> simp at hnd
  · -- 0 7 8
    have hb : b = 6 := by
      interval_cases b <;> simp [tileAt] at hz ⊢
    subst hb
    exact ⟨[⟨[1, 2, 3, 4, 5, 6, 0, 7, 8], 6⟩, ⟨[1, 2, 3, 4, 5, 6, 7, 0, 8], 7⟩,
      ⟨[1, 2, 3, 4, 5, 6, 7, 8, 0], 8⟩], ⟨[1, 2, 3, 4, 5, 6, 7, 8, 0], 8⟩, by decide, by decide⟩
  · exact absurd hsolv (ne_true_of_eq_false rfl)
  · -- 7 0 8
    have hb : b = 7 := by
      interval_cases b <;> simp [tileAt] at hz ⊢
    subst hb
    exact ⟨[⟨[1, 2, 3, 4, 5, 6, 7, 0, 8], 7⟩, ⟨[1, 2, 3, 4, 5, 6, 7, 8, 0], 8⟩],
      ⟨[1, 2, 3, 4, 5, 6, 7, 8, 0], 8⟩, by decide, by decide⟩
  · -- 7 8 0
    have hb : b = 8 := by
      interval_cases b <;> simp [tileAt] at hz ⊢
    subst hb
    exact ⟨[⟨[1, 2, 3, 4, 5, 6, 7, 8, 0], 8⟩], ⟨[1, 2, 3, 4, 5, 6, 7, 8, 0], 8⟩,
      by decide, by decide⟩
  · exact absurd hsolv (ne_true_of_eq_false rfl)
  · exact absurd hsolv (ne_true_of_eq_false rfl)

/-- Every valid board with an even inversion count can be solved. -/
theorem reachable_of_isSolvable {s : PuzzleState} (h : Valid s) (hsolv : isSolvable s = true) :
    ∃ m, ReachesGoalIn s m := by
  obtain ⟨q, l, hl, hpre⟩ := stage_all h 6 (le_refl 6)
  have hq : Valid q := isPath_last_valid hl h
  have hqs : isSolvable q = true := by rw [isSolvable_path hl h]; exact hsolv
  obtain ⟨l', g, hl', hg⟩ := stage_final hq hpre hqs
  obtain ⟨l'', rfl⟩ := isPath_head hl'
  have hcat := isPath_append hl hl'
  have hpos := isPath_length_pos hcat
  exact ⟨(l ++ l'').length - 1, l ++ l'', g, hcat, hg, by omega⟩

/-- C3: for every valid board, `isSolvable` returns true if and only if a goal
board is reachable from it by a finite chain of `neighbors` moves. -/
theorem isSolvable_iff_reachable (s : PuzzleState) (h : Valid s) :
    isSolvable s = true ↔ ∃ m, ReachesGoalIn s m := by
  constructor
  · exact reachable_of_isSolvable h
  · rintro ⟨m, l, g, hl, hg, -⟩
    rw [← isSolvable_path hl h]
    exact isSolvable_of_isGoal hg

/-- C3, witness: the board 8 1 2 7 0 3 6 5 4 has an even inversion count, so a
goal board is reachable from it. -/
theorem isSolvable_iff_reachable_witness :
    ∃ m, ReachesGoalIn (PuzzleState.ofTiles [8, 1, 2, 7, 0, 3, 6, 5, 4]) m :=
  (isSolvable_iff_reachable (PuzzleState.ofTiles [8, 1, 2, 7, 0, 3, 6, 5, 4])
    (by decide)).mp (by decide)

/-! ## The bound of 31 moves: index arithmetic -/

theorem leh_digits (i lo u w hi : Nat) (hi7 : i < 7) (hlo : lo < lehW.getD i 0)
    (hu : u < lehR.getD i 0) (hw : w < lehR.getD (i + 1) 0) :
    (lo + u * lehW.getD i 0 + w * lehW.getD (i + 1) 0 + hi * lehW.getD (i + 2) 0) /
        lehW.getD i 0 % lehR.getD i 0 = u ∧
      (lo + u * lehW.getD i 0 + w * lehW.getD (i + 1) 0 + hi * lehW.getD (i + 2) 0) /
        lehW.getD (i + 1) 0 % lehR.getD (i + 1) 0 = w := by
  interval_cases i <;>
    simp only [lehW, lehR, List.getD_cons_zero, List.getD_cons_succ, List.getD_nil,
      Nat.reduceAdd] at hlo hu hw ⊢ <;>
    omega

theorem leh_decomp (i x : Nat) (hi7 : i < 7) (hx : x < 40320) :
    ∃ lo u w hi, lo < lehW.getD i 0 ∧ u < lehR.getD i 0 ∧ w < lehR.getD (i + 1) 0 ∧
      x = lo + u * lehW.getD i 0 + w * lehW.getD (i + 1) 0 + hi * lehW.getD (i + 2) 0 ∧
      (hi + 1) * lehW.getD (i + 2) 0 ≤ 40320 := by
  refine ⟨x % lehW.getD i 0, x / lehW.getD i 0 % lehR.getD i 0,
    x / lehW.getD (i + 1) 0 % lehR.getD (i + 1) 0, x / lehW.getD (i + 2) 0, ?_⟩
  interval_cases i <;>
    simp only [lehW, lehR, List.getD_cons_zero, List.getD_cons_succ, List.getD_nil,
      Nat.reduceAdd] <;>
    omega

theorem lehSwap_decomp (i lo u w hi : Nat) (hi7 : i < 7) (hlo : lo < lehW.getD i 0)
    (hu : u < lehR.getD i 0) (hw : w < lehR.getD (i + 1) 0) :
    lehSwap i (lo + u * lehW.getD i 0 + w * lehW.getD (i + 1) 0 + hi * lehW.getD (i + 2) 0) =
      lo + (swapNew u w).1 * lehW.getD i 0 + (swapNew u w).2 * lehW.getD (i + 1) 0 +
        hi * lehW.getD (i + 2) 0 := by
  obtain ⟨h1, h2⟩ := leh_digits i lo u w hi hi7 hlo hu hw
  unfold lehSwap
  rw [h1, h2]
  clear h1 h2 hlo hu hw
  generalize (swapNew u w).1 * lehW.getD i 0 = z1
  generalize (swapNew u w).2 * lehW.getD (i + 1) 0 = z2
  generalize u * lehW.getD i 0 = a
  generalize w * lehW.getD (i + 1) 0 = b
  generalize hi * lehW.getD (i + 2) 0 = c
  omega

theorem swapNew_bounds (r u w : Nat) (hu : u < r) (hw : w + 1 < r) :
    (swapNew u w).1 < r ∧ (swapNew u w).2 + 1 < r ∧
      swapNew (swapNew u w).1 (swapNew u w).2 = (u, w) := by
  unfold swapNew
  split
  · simp only
    rw [if_neg (by omega)]
    refine ⟨by omega, by omega, ?_⟩
    congr 1
    omega
  · simp only
    rw [if_pos (by omega)]
    refine ⟨by omega, by omega, ?_⟩
    simp

theorem lehR_succ (i : Nat) (hi7 : i < 7) : lehR.getD (i + 1) 0 + 1 = lehR.getD i 0 := by
  interval_cases i <;> rfl

theorem lehSwap_lt (i x : Nat) (hi : i < 7) (hx : x < 40320) : lehSwap i x < 40320 := by
  obtain ⟨lo, u, w, h, hlo, hu, hw, rfl, hhi⟩ := leh_decomp i x hi hx
  rw [lehSwap_decomp i lo u w h hi hlo hu hw]
  obtain ⟨b1, b2, -⟩ := swapNew_bounds (lehR.getD i 0) u w hu (by rw [← lehR_succ i hi]; omega)
  generalize (swapNew u w).1 = u' at b1 ⊢
  generalize (swapNew u w).2 = w' at b2 ⊢
  interval_cases i <;>
    simp only [lehW, lehR, List.getD_cons_zero, List.getD_cons_succ, List.getD_nil,
      Nat.reduceAdd] at hlo hu hw b1 b2 hhi ⊢ <;>
    omega

theorem lehSwap_invol (i x : Nat) (hi : i < 7) (hx : x < 40320) :
    lehSwap i (lehSwap i x) = x := by
  obtain ⟨lo, u, w, h, hlo, hu, hw, rfl, hhi⟩ := leh_decomp i x hi hx
  obtain ⟨b1, b2, b3⟩ := swapNew_bounds (lehR.getD i 0) u w hu (by rw [← lehR_succ i hi]; omega)
  rw [lehSwap_decomp i lo u w h hi hlo hu hw,
    lehSwap_decomp i lo _ _ h hi hlo b1 (by rw [← lehR_succ i hi] at b2; omega), b3]

theorem foldl_or_testBit {α : Type} (f : α → Nat) (l : List α) (init y : Nat) :
    Nat.testBit (l.foldl (fun B a => B ||| f a) init) y =
      (Nat.testBit init y || l.any (fun a => Nat.testBit (f a) y)) := by
  induction l generalizing init with
  | nil => simp
  | cons a l ih =>
    rw [List.foldl_cons, ih, Nat.testBit_or, List.any_cons, Bool.or_assoc]

theorem maskLevel_spec (A w : Nat) (ds : List Nat) (_ : 0 < w)
    (hA : ∀ x, Nat.testBit A x = true → x < w) (y : Nat) :
    Nat.testBit (maskLevel A w ds) y = true ↔ y / w ∈ ds ∧ Nat.testBit A (y % w) = true := by
  unfold maskLevel
  rw [foldl_or_testBit]
  simp only [Nat.zero_testBit, Bool.false_or, List.any_eq_true, Nat.testBit_shiftLeft,
    Bool.and_eq_true, decide_eq_true_eq, ge_iff_le]
  constructor
  · rintro ⟨d, hd, hle, hbit⟩
    have hlt := hA _ hbit
    have hdiv : y / w = d := by
      apply Nat.div_eq_of_lt_le
      · exact hle
      · rw [Nat.succ_mul]; omega
    have hmod : y % w = y - d * w := by
      have := Nat.div_add_mod y w
      rw [hdiv, Nat.mul_comm] at this
      omega
    rw [hdiv, hmod]
    exact ⟨hd, hbit⟩
  · rintro ⟨hd, hbit⟩
    refine ⟨y / w, hd, Nat.div_mul_le_self y w, ?_⟩
    have : y - y / w * w = y % w := by
      have := Nat.div_add_mod y w
      rw [Nat.mul_comm] at this
      omega
    rw [this]
    exact hbit

/-- The masks built level by level: after the places below `k`, the mask holds
the indices below the weight of place `k` with digit `u` at place `i` (when `i`
is below `k`). -/
theorem maskUpTo_spec (i u : Nat) (hi : i < 8) (hu : u < lehR.getD i 0) :
    ∀ k, k ≤ 8 → ∀ x,
      Nat.testBit ((List.range k).foldl
        (fun A k => maskLevel A (lehW.getD k 0)
          (if k = i then [u] else List.range (lehR.getD k 0))) 1) x = true ↔
      x < lehW.getD k 0 ∧ (i < k → x / lehW.getD i 0 % lehR.getD i 0 = u) := by
  intro k
  induction k with
  | zero =>
    intro _ x
    simp only [List.range_zero, List.foldl_nil, lehW, List.getD_cons_zero]
    rw [Nat.testBit_one_eq_true_iff_self_eq_zero]
    constructor
    · rintro rfl; exact ⟨by omega, fun h => absurd h (by omega)⟩
    · rintro ⟨h, -⟩; omega
  | succ k ih =>
    intro hk x
    have ih' := ih (by omega)
    have hk8 : k < 8 := by omega
    rw [List.range_succ, List.foldl_append, List.foldl_cons, List.foldl_nil]
    have hwpos : 0 < lehW.getD k 0 := by
      interval_cases k <;> decide
    rw [maskLevel_spec _ _ _ hwpos (fun y hy => ((ih' y).mp hy).1), ih']
    by_cases hki : k = i
    · subst hki
      rw [if_pos rfl, List.mem_singleton]
      interval_cases k <;>
        simp only [lehW, lehR, List.getD_cons_zero, List.getD_cons_succ, Nat.reduceAdd] at hu ⊢ <;>
        omega
    · rw [if_neg hki, List.mem_range]
      interval_cases k <;> interval_cases i <;>
        simp only [lehW, lehR, List.getD_cons_zero, List.getD_cons_succ, Nat.reduceAdd] at hu ⊢ <;>
        omega

theorem maskAt_eq : ∀ i ∈ List.range 8, ∀ u ∈ List.range (lehR.getD i 0),
    maskAt i u = maskDigit i u := by
  decide!

theorem maskAt_spec (i u x : Nat) (hi : i < 8) (hu : u < lehR.getD i 0) :
    Nat.testBit (maskAt i u) x = true ↔ x < 40320 ∧ x / lehW.getD i 0 % lehR.getD i 0 = u := by
  rw [maskAt_eq i (List.mem_range.mpr hi) u (List.mem_range.mpr hu)]
  have := maskUpTo_spec i u hi hu 8 (le_refl 8) x
  unfold maskDigit
  rw [this]
  simp only [lehW, List.getD_cons_zero, List.getD_cons_succ]
  constructor
  · rintro ⟨h1, h2⟩; exact ⟨h1, h2 hi⟩
  · rintro ⟨h1, h2⟩; exact ⟨h1, fun _ => h2⟩

theorem digits_le (i x : Nat) (hi : i < 7) (hx : x < 40320) :
    x / lehW.getD i 0 % lehR.getD i 0 * lehW.getD i 0 +
      x / lehW.getD (i + 1) 0 % lehR.getD (i + 1) 0 * lehW.getD (i + 1) 0 ≤ x := by
  obtain ⟨lo, u, w, h, hlo, hu, hw, rfl, -⟩ := leh_decomp i x hi hx
  obtain ⟨h1, h2⟩ := leh_digits i lo u w h hi hlo hu hw
  rw [h1, h2]
  omega

theorem foldl2_or_testBit (g : Nat → Nat → Nat) (l1 l2 : List Nat) (init y : Nat) :
    Nat.testBit (l1.foldl (fun acc u => l2.foldl (fun acc w => acc ||| g u w) acc) init) y =
      (Nat.testBit init y || l1.any (fun u => l2.any (fun w => Nat.testBit (g u w) y))) := by
  induction l1 generalizing init with
  | nil => simp
  | cons u l1 ih =>
    rw [List.foldl_cons, ih, foldl_or_testBit, List.any_cons, Bool.or_assoc]

theorem swapPart_spec (i u w S y : Nat) (hi : i < 7) (hu : u < lehR.getD i 0)
    (hw : w < lehR.getD (i + 1) 0) :
    Nat.testBit (swapPart i S u w) y = true ↔
      ∃ x, Nat.testBit S x = true ∧ x < 40320 ∧ x / lehW.getD i 0 % lehR.getD i 0 = u ∧
        x / lehW.getD (i + 1) 0 % lehR.getD (i + 1) 0 = w ∧ y = lehSwap i x := by
  have key : ∀ x, x < 40320 → x / lehW.getD i 0 % lehR.getD i 0 = u →
      x / lehW.getD (i + 1) 0 % lehR.getD (i + 1) 0 = w →
      u * lehW.getD i 0 + w * lehW.getD (i + 1) 0 ≤ x ∧
        lehSwap i x = x - (u * lehW.getD i 0 + w * lehW.getD (i + 1) 0) +
          ((swapNew u w).1 * lehW.getD i 0 + (swapNew u w).2 * lehW.getD (i + 1) 0) := by
    intro x hx h1 h2
    have := digits_le i x hi hx
    rw [h1, h2] at this
    refine ⟨this, ?_⟩
    unfold lehSwap
    rw [h1, h2]
  have hmem : ∀ x, Nat.testBit ((S &&& maskAt i u) &&& maskAt (i + 1) w) x = true ↔
      Nat.testBit S x = true ∧ x < 40320 ∧ x / lehW.getD i 0 % lehR.getD i 0 = u ∧
        x / lehW.getD (i + 1) 0 % lehR.getD (i + 1) 0 = w := by
    intro x
    rw [Nat.testBit_and, Nat.testBit_and, Bool.and_eq_true, Bool.and_eq_true,
      maskAt_spec i u x (by omega) hu, maskAt_spec (i + 1) w x (by omega) hw]
    constructor
    · rintro ⟨⟨h1, h2, h3⟩, -, h4⟩; exact ⟨h1, h2, h3, h4⟩
    · rintro ⟨h1, h2, h3, h4⟩; exact ⟨⟨h1, h2, h3⟩, h2, h4⟩
  unfold swapPart
  generalize hold : u * lehW.getD i 0 + w * lehW.getD (i + 1) 0 = old at key ⊢
  generalize hnew : (swapNew u w).1 * lehW.getD i 0 + (swapNew u w).2 * lehW.getD (i + 1) 0 = new
    at key ⊢
  split
  · rename_i hle
    rw [Nat.testBit_shiftLeft, Bool.and_eq_true, decide_eq_true_eq, hmem]
    constructor
    · rintro ⟨hge, h1, h2, h3, h4⟩
      obtain ⟨k1, k2⟩ := key _ h2 h3 h4
      exact ⟨_, h1, h2, h3, h4, by rw [k2]; omega⟩
    · rintro ⟨x, h1, h2, h3, h4, rfl⟩
      obtain ⟨k1, k2⟩ := key _ h2 h3 h4
      rw [k2]
      have e : x - old + new - (new - old) = x := by omega
      rw [e]
      exact ⟨by omega, h1, h2, h3, h4⟩
  · rename_i hle
    rw [Nat.testBit_shiftRight, hmem]
    constructor
    · rintro ⟨h1, h2, h3, h4⟩
      obtain ⟨k1, k2⟩ := key _ h2 h3 h4
      exact ⟨_, h1, h2, h3, h4, by rw [k2]; omega⟩
    · rintro ⟨x, h1, h2, h3, h4, rfl⟩
      obtain ⟨k1, k2⟩ := key _ h2 h3 h4
      rw [k2]
      have e : old - new + (x - old + new) = x := by omega
      rw [e]
      exact ⟨h1, h2, h3, h4⟩

theorem lehR_pos (i : Nat) (hi : i < 8) : 0 < lehR.getD i 0 := by
  interval_cases i <;> decide

theorem swapSet_spec (i S y : Nat) (hi : i < 7) :
    Nat.testBit (swapSet i S) y = true ↔
      ∃ x, Nat.testBit S x = true ∧ x < 40320 ∧ y = lehSwap i x := by
  unfold swapSet
  rw [foldl2_or_testBit]
  simp only [Nat.zero_testBit, Bool.false_or, List.any_eq_true, List.mem_range]
  constructor
  · rintro ⟨u, hu, w, hw, h⟩
    obtain ⟨x, h1, h2, -, -, h5⟩ := (swapPart_spec i u w S y hi hu hw).mp h
    exact ⟨x, h1, h2, h5⟩
  · rintro ⟨x, h1, h2, h3⟩
    have hu := Nat.mod_lt (x / lehW.getD i 0) (lehR_pos i (by omega))
    have hw := Nat.mod_lt (x / lehW.getD (i + 1) 0) (lehR_pos (i + 1) (by omega))
    exact ⟨_, hu, _, hw, (swapPart_spec i _ _ S y hi hu hw).mpr ⟨x, h1, h2, rfl, rfl, h3⟩⟩

/-- The set `swapSet i S` holds the indices whose exchange at places `i`,
`i + 1` is in `S`. -/
theorem swapSet_iff (i S y : Nat) (hi : i < 7) :
    Nat.testBit (swapSet i S) y = true ↔
      y < 40320 ∧ Nat.testBit S (lehSwap i y) = true := by
  rw [swapSet_spec i S y hi]
  constructor
  · rintro ⟨x, h1, h2, rfl⟩
    exact ⟨lehSwap_lt i x hi h2, by rw [lehSwap_invol i x hi h2]; exact h1⟩
  · rintro ⟨h1, h2⟩
    exact ⟨lehSwap i y, h2, lehSwap_lt i y hi h1, (lehSwap_invol i y hi h1).symm⟩

/-! ## The bound of 31 moves: Lehmer codes of sequences -/

theorem lehmer_length (l : List Int) : (lehmer l).length = l.length := by
  induction l with
  | nil => rfl
  | cons a l ih => simp [lehmer, ih]

theorem lehmer_append (pre r1 r2 : List Int) (h : r1.Perm r2) :
    ∃ T, T.length = pre.length ∧ lehmer (pre ++ r1) = T ++ lehmer r1 ∧
      lehmer (pre ++ r2) = T ++ lehmer r2 := by
  induction pre with
  | nil => exact ⟨[], rfl, rfl, rfl⟩
  | cons a pre ih =>
    obtain ⟨T, h1, h2, h3⟩ := ih
    refine ⟨(pre ++ r1).countP (fun z => decide (z < a)) :: T, by simp [h1], ?_, ?_⟩
    · rw [List.cons_append, lehmer, h2, List.cons_append]
    · have e : (pre ++ r2).countP (fun z => decide (z < a)) =
          (pre ++ r1).countP (fun z => decide (z < a)) :=
        ((List.Perm.append_left pre h).countP_eq _).symm
      rw [List.cons_append, lehmer, h3, e, List.cons_append]

theorem digitsOK_lehmer (l : List Int) (r : Nat) (h : l.length ≤ r) :
    DigitsOK r (lehmer l) := by
  induction l generalizing r with
  | nil => exact trivial
  | cons a l ih =>
    simp only [List.length_cons] at h
    refine ⟨?_, ih (r - 1) (by omega)⟩
    have := List.countP_le_length (fun z => decide (z < a)) (l := l)
    omega

theorem digitsOK_append (ds es : List Nat) (r : Nat) (h : DigitsOK r (ds ++ es)) :
    DigitsOK r ds := by
  induction ds generalizing r with
  | nil => exact trivial
  | cons d ds ih => exact ⟨h.1, ih (r - 1) h.2⟩

theorem lehIdx_lt (ds : List Nat) (r : Nat) (h : DigitsOK r ds) :
    lehIdx r ds < lehWt r ds.length := by
  induction ds generalizing r with
  | nil => exact Nat.one_pos
  | cons d ds ih =>
    have h1 := ih (r - 1) h.2
    have h2 := h.1
    simp only [lehIdx, List.length_cons, lehWt]
    have h3 : r * (lehIdx (r - 1) ds + 1) ≤ r * lehWt (r - 1) ds.length :=
      Nat.mul_le_mul_left r h1
    rw [Nat.mul_add, Nat.mul_one] at h3
    omega

theorem lehIdx_append (ds es : List Nat) (r : Nat) :
    lehIdx r (ds ++ es) = lehIdx r ds + lehWt r ds.length * lehIdx (r - ds.length) es := by
  induction ds generalizing r with
  | nil => simp [lehIdx, lehWt]
  | cons d ds ih =>
    have e : r - 1 - ds.length = r - (ds.length + 1) := by omega
    rw [List.cons_append, lehIdx, ih (r - 1), e]
    simp only [lehIdx, List.length_cons, lehWt]
    ring

theorem lehWt_eq (i : Nat) (hi : i ≤ 8) : lehWt 8 i = lehW.getD i 0 := by
  interval_cases i <;> rfl

theorem lehR_eq (i : Nat) (hi : i < 8) : lehR.getD i 0 = 8 - i := by
  interval_cases i <;> rfl

theorem lehIdx_split (i : Nat) (hi7 : i < 7) (T P : List Nat) (u w : Nat)
    (hT : T.length = i) :
    lehIdx 8 (T ++ u :: w :: P) =
      lehIdx 8 T + u * lehW.getD i 0 + w * lehW.getD (i + 1) 0 +
        lehIdx (6 - i) P * lehW.getD (i + 2) 0 := by
  rw [lehIdx_append, hT]
  simp only [lehIdx]
  generalize lehIdx 8 T = lo
  interval_cases i <;>
    simp only [lehWt, lehW, List.getD_cons_zero, List.getD_cons_succ, List.getD_nil,
      Nat.reduceAdd, Nat.reduceSub, Nat.reduceMul] <;>
    ring

theorem lehmer_swap_digits (x y : Int) (post : List Int) (hxy : x ≠ y) :
    ((x :: post).countP (fun z => decide (z < y)), post.countP (fun z => decide (z < x))) =
      swapNew ((y :: post).countP (fun z => decide (z < x)))
        (post.countP (fun z => decide (z < y))) := by
  rw [List.countP_cons, List.countP_cons]
  unfold swapNew
  rcases lt_or_gt_of_ne hxy with h | h
  · have hle : post.countP (fun z => decide (z < x)) ≤ post.countP (fun z => decide (z < y)) :=
      List.countP_mono_left (fun z _ hz => by
        simp only [decide_eq_true_eq] at hz ⊢; omega)
    have e1 : decide (x < y) = true := by simpa using h
    have e2 : decide (y < x) = false := by simp; omega
    simp only [e1, e2, if_true, Bool.false_eq_true, if_false, Nat.add_zero]
    rw [if_neg (by omega)]
  · have hle : post.countP (fun z => decide (z < y)) ≤ post.countP (fun z => decide (z < x)) :=
      List.countP_mono_left (fun z _ hz => by
        simp only [decide_eq_true_eq] at hz ⊢; omega)
    have e1 : decide (x < y) = false := by simp; omega
    have e2 : decide (y < x) = true := by simpa using h
    simp only [e1, e2, if_true, Bool.false_eq_true, if_false, Nat.add_zero]
    rw [if_pos (by omega)]
    simp

/-- Exchanging two neighbouring entries of a sequence of eight distinct values
changes its index by `lehSwap`. -/
theorem lehIdx_swap (pre post : List Int) (x y : Int) (hxy : x ≠ y)
    (hlen : (pre ++ x :: y :: post).length = 8) :
    lehIdx 8 (lehmer (pre ++ y :: x :: post)) =
      lehSwap pre.length (lehIdx 8 (lehmer (pre ++ x :: y :: post))) := by
  have hl : pre.length + post.length = 6 := by
    simp only [List.length_append, List.length_cons] at hlen
    omega
  have hi7 : pre.length < 7 := by omega
  obtain ⟨T, hT, h1, h2⟩ :=
    lehmer_append pre (x :: y :: post) (y :: x :: post) (List.Perm.swap y x post)
  have hok := digitsOK_lehmer (pre ++ x :: y :: post) 8 (by omega)
  rw [h1] at hok
  have hlo := lehIdx_lt T 8 (digitsOK_append _ _ 8 hok)
  rw [hT, lehWt_eq _ (by omega)] at hlo
  have hu : (y :: post).countP (fun z => decide (z < x)) < lehR.getD pre.length 0 := by
    have := List.countP_le_length (fun z => decide (z < x)) (l := y :: post)
    rw [lehR_eq _ (by omega)]
    simp only [List.length_cons] at this
    omega
  have hw : post.countP (fun z => decide (z < y)) < lehR.getD (pre.length + 1) 0 := by
    have := List.countP_le_length (fun z => decide (z < y)) (l := post)
    rw [lehR_eq _ (by omega)]
    omega
  have hd := lehmer_swap_digits x y post hxy
  rw [h1, h2]
  simp only [lehmer]
  rw [lehIdx_split _ hi7 T _ _ _ hT, lehIdx_split _ hi7 T _ _ _ hT,
    lehSwap_decomp _ _ _ _ _ hi7 hlo hu hw, ← hd]

theorem lehIdx_lehmer_lt (l : List Int) (h : l.length = 8) :
    lehIdx 8 (lehmer l) < 40320 := by
  have := lehIdx_lt (lehmer l) 8 (digitsOK_lehmer l 8 (by omega))
  rw [lehmer_length, h] at this
  exact this

/-! ## The bound of 31 moves: one breadth-first step -/

theorem bfsStep_getD (R : List Nat) (n : Nat) (hn : n < 9) :
    (bfsStep R).getD n 0 = bfsCell R n := by
  interval_cases n <;> rfl

theorem swapSet_swapSet (i j S y : Nat) (hi : i < 7) (hj : j < 7) (hy : y < 40320) :
    Nat.testBit (swapSet i (swapSet j S)) y = true ↔
      Nat.testBit S (lehSwap j (lehSwap i y)) = true := by
  rw [swapSet_iff i _ y hi, swapSet_iff j _ _ hj]
  exact ⟨fun h => h.2.2, fun h => ⟨hy, lehSwap_lt i y hi hy, h⟩⟩

theorem bfsCell_iff (R : List Nat) (n y : Nat) (hn : n < 9) (hy : y < 40320) :
    Nat.testBit (bfsCell R n) y = true ↔
      Nat.testBit (R.getD n 0) y = true ∨
      (n % 3 ≠ 0 ∧ Nat.testBit (R.getD (n - 1) 0) y = true) ∨
      (n % 3 ≠ 2 ∧ Nat.testBit (R.getD (n + 1) 0) y = true) ∨
      (3 ≤ n ∧ Nat.testBit (R.getD (n - 3) 0) (lehSwap (n - 2) (lehSwap (n - 3) y)) = true) ∨
      (n ≤ 5 ∧ Nat.testBit (R.getD (n + 3) 0) (lehSwap n (lehSwap (n + 1) y)) = true) := by
  unfold bfsCell
  simp only [Nat.testBit_or, Bool.or_eq_true, or_assoc]
  refine or_congr Iff.rfl (or_congr ?_ (or_congr ?_ (or_congr ?_ ?_)))
  · by_cases h : n % 3 = 0
    · simp [h]
    · simp [h]
  · by_cases h : n % 3 = 2
    · simp [h]
    · simp [h]
  · by_cases h : 3 ≤ n
    · rw [if_pos h, swapSet_swapSet _ _ _ _ (by omega) (by omega) hy]
      simp [h]
    · simp [h]
  · by_cases h : n ≤ 5
    · rw [if_pos h, swapSet_swapSet _ _ _ _ (by omega) (by omega) hy]
      simp [h]
    · simp [h]

theorem lehIdx_rotR (pre post : List Int) (x y z : Int) (hxy : x ≠ y) (hxz : x ≠ z)
    (hlen : (pre ++ x :: y :: z :: post).length = 8) :
    lehIdx 8 (lehmer (pre ++ y :: z :: x :: post)) =
      lehSwap (pre.length + 1) (lehSwap pre.length
        (lehIdx 8 (lehmer (pre ++ x :: y :: z :: post)))) := by
  have h1 := lehIdx_swap pre (z :: post) x y hxy hlen
  have h2 := lehIdx_swap (pre ++ [y]) post x z hxz (by
    simp only [List.length_append, List.length_cons, List.length_nil] at hlen ⊢; omega)
  simp only [List.append_assoc, List.singleton_append, List.length_append, List.length_cons,
    List.length_nil, Nat.zero_add] at h2
  rw [h2, h1]

theorem lehIdx_rotL (pre post : List Int) (x y z : Int) (hyz : y ≠ z) (hxz : x ≠ z)
    (hlen : (pre ++ x :: y :: z :: post).length = 8) :
    lehIdx 8 (lehmer (pre ++ z :: x :: y :: post)) =
      lehSwap pre.length (lehSwap (pre.length + 1)
        (lehIdx 8 (lehmer (pre ++ x :: y :: z :: post)))) := by
  have h1 := lehIdx_swap (pre ++ [x]) post y z hyz (by
    simp only [List.length_append, List.length_cons, List.length_nil] at hlen ⊢; omega)
  have h2 := lehIdx_swap pre (y :: post) x z hxz (by
    simp only [List.length_append, List.length_cons] at hlen ⊢; omega)
  simp only [List.append_assoc, List.singleton_append, List.length_append, List.length_cons,
    List.length_nil, Nat.zero_add] at h1
  rw [h2, h1]

theorem nodup_getD_ne (l : List Int) (h : l.Nodup) (i j : Nat) (hij : i < j)
    (hj : j < l.length) : l.getD i 0 ≠ l.getD j 0 := by
  intro e
  apply List.nodup_iff_getElem?_ne_getElem?.mp h i j hij hj
  rw [List.getD_eq_getElem _ _ (by omega), List.getD_eq_getElem _ _ hj] at e
  rw [List.getElem?_eq_getElem (by omega), List.getElem?_eq_getElem hj, e]

theorem bfsStep_mem_b0 (R : List Nat) (a0 a1 a2 a3 a4 a5 a6 a7 a8 : Int)
    (hnd : [a0, a1, a2, a3, a4, a5, a6, a7, a8].Nodup) :
    BoardMem (bfsStep R) ⟨[a0, a1, a2, a3, a4, a5, a6, a7, a8], 0⟩ ↔
      BoardMem R ⟨[a0, a1, a2, a3, a4, a5, a6, a7, a8], 0⟩ ∨
        ∃ s ∈ PuzzleState.neighbors ⟨[a0, a1, a2, a3, a4, a5, a6, a7, a8], 0⟩, BoardMem R s := by
  rw [neighbors_b0]
  have hq : encode ⟨[a0, a1, a2, a3, a4, a5, a6, a7, a8], 0⟩ =
      lehIdx 8 (lehmer [a1, a2, a3, a4, a5, a6, a7, a8]) := rfl
  have hy : lehIdx 8 (lehmer [a1, a2, a3, a4, a5, a6, a7, a8]) < 40320 :=
    lehIdx_lehmer_lt [a1, a2, a3, a4, a5, a6, a7, a8] rfl
  have e0 : encode ⟨[a1, a0, a2, a3, a4, a5, a6, a7, a8], 1⟩ =
      lehIdx 8 (lehmer [a1, a2, a3, a4, a5, a6, a7, a8]) := rfl
  have e1 : encode ⟨[a3, a1, a2, a0, a4, a5, a6, a7, a8], 3⟩ =
      lehSwap 0 (lehSwap 1 (lehIdx 8 (lehmer [a1, a2, a3, a4, a5, a6, a7, a8]))) :=
    (rfl : encode ⟨[a3, a1, a2, a0, a4, a5, a6, a7, a8], 3⟩ =
      lehIdx 8 (lehmer [a3, a1, a2, a4, a5, a6, a7, a8])).trans
    (lehIdx_rotL [] [a4, a5, a6, a7, a8] a1 a2 a3
      (nodup_getD_ne _ hnd 2 3 (by decide) (by simp))
      (nodup_getD_ne _ hnd 1 3 (by decide) (by simp)) rfl)
  have hb := bfsCell_iff R 0 _ (by omega) hy
  simp only [BoardMem, List.mem_cons, List.mem_singleton, List.not_mem_nil, or_false,
    exists_eq_or_imp, exists_eq_left, hq, e0, e1, Int.reduceToNat]
  rw [bfsStep_getD R 0 (by omega), hb]
  simp

theorem bfsStep_mem_b1 (R : List Nat) (a0 a1 a2 a3 a4 a5 a6 a7 a8 : Int)
    (hnd : [a0, a1, a2, a3, a4, a5, a6, a7, a8].Nodup) :
    BoardMem (bfsStep R) ⟨[a0, a1, a2, a3, a4, a5, a6, a7, a8], 1⟩ ↔
      BoardMem R ⟨[a0, a1, a2, a3, a4, a5, a6, a7, a8], 1⟩ ∨
        ∃ s ∈ PuzzleState.neighbors ⟨[a0, a1, a2, a3, a4, a5, a6, a7, a8], 1⟩, BoardMem R s := by
  rw [neighbors_b1]
  have hq : encode ⟨[a0, a1, a2, a3, a4, a5, a6, a7, a8], 1⟩ =
      lehIdx 8 (lehmer [a0, a2, a3, a4, a5, a6, a7, a8]) := rfl
  have hy : lehIdx 8 (lehmer [a0, a2, a3, a4, a5, a6, a7, a8]) < 40320 :=
    lehIdx_lehmer_lt [a0, a2, a3, a4, a5, a6, a7, a8] rfl
  have e0 : encode ⟨[a1, a0, a2, a3, a4, a5, a6, a7, a8], 0⟩ =
      lehIdx 8 (lehmer [a0, a2, a3, a4, a5, a6, a7, a8]) := rfl
  have e1 : encode ⟨[a0, a2, a1, a3, a4, a5, a6, a7, a8], 2⟩ =
      lehIdx 8 (lehmer [a0, a2, a3, a4, a5, a6, a7, a8]) := rfl
  have e2 : encode ⟨[a0, a4, a2, a3, a1, a5, a6, a7, a8], 4⟩ =
      lehSwap 1 (lehSwap 2 (lehIdx 8 (lehmer [a0, a2, a3, a4, a5, a6, a7, a8]))) :=
    (rfl : encode ⟨[a0, a4, a2, a3, a1, a5, a6, a7, a8], 4⟩ =
      lehIdx 8 (lehmer [a0, a4, a2, a3, a5, a6, a7, a8])).trans
    (lehIdx_rotL [a0] [a5, a6, a7, a8] a2 a3 a4
      (nodup_getD_ne _ hnd 3 4 (by decide) (by simp))
      (nodup_getD_ne _ hnd 2 4 (by decide) (by simp)) rfl)
  have hb := bfsCell_iff R 1 _ (by omega) hy
  simp only [BoardMem, List.mem_cons, List.mem_singleton, List.not_mem_nil, or_false,
    exists_eq_or_imp, exists_eq_left, hq, e0, e1, e2, Int.reduceToNat]
  rw [bfsStep_getD R 1 (by omega), hb]
  simp

theorem bfsStep_mem_b2 (R : List Nat) (a0 a1 a2 a3 a4 a5 a6 a7 a8 : Int)
    (hnd : [a0, a1, a2, a3, a4, a5, a6, a7, a8].Nodup) :
    BoardMem (bfsStep R) ⟨[a0, a1, a2, a3, a4, a5, a6, a7, a8], 2⟩ ↔
      BoardMem R ⟨[a0, a1, a2, a3, a4, a5, a6, a7, a8], 2⟩ ∨
        ∃ s ∈ PuzzleState.neighbors ⟨[a0, a1, a2, a3, a4, a5, a6, a7, a8], 2⟩, BoardMem R s := by
  rw [neighbors_b2]
  have hq : encode ⟨[a0, a1, a2, a3, a4, a5, a6, a7, a8], 2⟩ =
      lehIdx 8 (lehmer [a0, a1, a3, a4, a5, a6, a7, a8]) := rfl
  have hy : lehIdx 8 (lehmer [a0, a1, a3, a4, a5, a6, a7, a8]) < 40320 :=
    lehIdx_lehmer_lt [a0, a1, a3, a4, a5, a6, a7, a8] rfl
  have e0 : encode ⟨[a0, a2, a1, a3, a4, a5, a6, a7, a8], 1⟩ =
      lehIdx 8 (lehmer [a0, a1, a3, a4, a5, a6, a7, a8]) := rfl
  have e1 : encode ⟨[a0, a1, a5, a3, a4, a2, a6, a7, a8], 5⟩ =
      lehSwap 2 (lehSwap 3 (lehIdx 8 (lehmer [a0, a1, a3, a4, a5, a6, a7, a8]))) :=
    (rfl : encode ⟨[a0, a1, a5, a3, a4, a2, a6, a7, a8], 5⟩ =
      lehIdx 8 (lehmer [a0, a1, a5, a3, a4, a6, a7, a8])).trans
    (lehIdx_rotL [a0, a1] [a6, a7, a8] a3 a4 a5
      (nodup_getD_ne _ hnd 4 5 (by decide) (by simp))
      (nodup_getD_ne _ hnd 3 5 (by decide) (by simp)) rfl)
  have hb := bfsCell_iff R 2 _ (by omega) hy
  simp only [BoardMem, List.mem_cons, List.mem_singleton, List.not_mem_nil, or_false,
    exists_eq_or_imp, exists_eq_left, hq, e0, e1, Int.reduceToNat]
  rw [bfsStep_getD R 2 (by omega), hb]
  simp

theorem bfsStep_mem_b3 (R : List Nat) (a0 a1 a2 a3 a4 a5 a6 a7 a8 : Int)
    (hnd : [a0, a1, a2, a3, a4, a5, a6, a7, a8].Nodup) :
    BoardMem (bfsStep R) ⟨[a0, a1, a2, a3, a4, a5, a6, a7, a8], 3⟩ ↔
      BoardMem R ⟨[a0, a1, a2, a3, a4, a5, a6, a7, a8], 3⟩ ∨
        ∃ s ∈ PuzzleState.neighbors ⟨[a0, a1, a2, a3, a4, a5, a6, a7, a8], 3⟩, BoardMem R s := by
  rw [neighbors_b3]
  have hq : encode ⟨[a0, a1, a2, a3, a4, a5, a6, a7, a8], 3⟩ =
      lehIdx 8 (lehmer [a0, a1, a2, a4, a5, a6, a7, a8]) := rfl
  have hy : lehIdx 8 (lehmer [a0, a1, a2, a4, a5, a6, a7, a8]) < 40320 :=
    lehIdx_lehmer_lt [a0, a1, a2, a4, a5, a6, a7, a8] rfl
  have e0 : encode ⟨[a0, a1, a2, a4, a3, a5, a6, a7, a8], 4⟩ =
      lehIdx 8 (lehmer [a0, a1, a2, a4, a5, a6, a7, a8]) := rfl
  have e1 : encode ⟨[a3, a1, a2, a0, a4, a5, a6, a7, a8], 0⟩ =
      lehSwap 1 (lehSwap 0 (lehIdx 8 (lehmer [a0, a1, a2, a4, a5, a6, a7, a8]))) :=
    (rfl : encode ⟨[a3, a1, a2, a0, a4, a5, a6, a7, a8], 0⟩ =
      lehIdx 8 (lehmer [a1, a2, a0, a4, a5, a6, a7, a8])).trans
    (lehIdx_rotR [] [a4, a5, a6, a7, a8] a0 a1 a2
      (nodup_getD_ne _ hnd 0 1 (by decide) (by simp))
      (nodup_getD_ne _ hnd 0 2 (by decide) (by simp)) rfl)
  have e2 : encode ⟨[a0, a1, a2, a6, a4, a5, a3, a7, a8], 6⟩ =
      lehSwap 3 (lehSwap 4 (lehIdx 8 (lehmer [a0, a1, a2, a4, a5, a6, a7, a8]))) :=
    (rfl : encode ⟨[a0, a1, a2, a6, a4, a5, a3, a7, a8], 6⟩ =
      lehIdx 8 (lehmer [a0, a1, a2, a6, a4, a5, a7, a8])).trans
    (lehIdx_rotL [a0, a1, a2] [a7, a8] a4 a5 a6
      (nodup_getD_ne _ hnd 5 6 (by decide) (by simp))
      (nodup_getD_ne _ hnd 4 6 (by decide) (by simp)) rfl)
  have hb := bfsCell_iff R 3 _ (by omega) hy
  simp only [BoardMem, List.mem_cons, List.mem_singleton, List.not_mem_nil, or_false,
    exists_eq_or_imp, exists_eq_left, hq, e0, e1, e2, Int.reduceToNat]
  rw [bfsStep_getD R 3 (by omega), hb]
  simp

theorem bfsStep_mem_b4 (R : List Nat) (a0 a1 a2 a3 a4 a5 a6 a7 a8 : Int)
    (hnd : [a0, a1, a2, a3, a4, a5, a6, a7, a8].Nodup) :
    BoardMem (bfsStep R) ⟨[a0, a1, a2, a3, a4, a5, a6, a7, a8], 4⟩ ↔
      BoardMem R ⟨[a0, a1, a2, a3, a4, a5, a6, a7, a8], 4⟩ ∨
        ∃ s ∈ PuzzleState.neighbors ⟨[a0, a1, a2, a3, a4, a5, a6, a7, a8], 4⟩, BoardMem R s := by
  rw [neighbors_b4]
  have hq : encode ⟨[a0, a1, a2, a3, a4, a5, a6, a7, a8], 4⟩ =
      lehIdx 8 (lehmer [a0, a1, a2, a3, a5, a6, a7, a8]) := rfl
  have hy : lehIdx 8 (lehmer [a0, a1, a2, a3, a5, a6, a7, a8]) < 40320 :=
    lehIdx_lehmer_lt [a0, a1, a2, a3, a5, a6, a7, a8] rfl
  have e0 : encode ⟨[a0, a1, a2, a4, a3, a5, a6, a7, a8], 3⟩ =
      lehIdx 8 (lehmer [a0, a1, a2, a3, a5, a6, a7, a8]) := rfl
  have e1 : encode ⟨[a0, a1, a2, a3, a5, a4, a6, a7, a8], 5⟩ =
      lehIdx 8 (lehmer [a0, a1, a2, a3, a5, a6, a7, a8]) := rfl
  have e2 : encode ⟨[a0, a4, a2, a3, a1, a5, a6, a7, a8], 1⟩ =
      lehSwap 2 (lehSwap 1 (lehIdx 8 (lehmer [a0, a1, a2, a3, a5, a6, a7, a8]))) :=
    (rfl : encode ⟨[a0, a4, a2, a3, a1, a5, a6, a7, a8], 1⟩ =
      lehIdx 8 (lehmer [a0, a2, a3, a1, a5, a6, a7, a8])).trans
    (lehIdx_rotR [a0] [a5, a6, a7, a8] a1 a2 a3
      (nodup_getD_ne _ hnd 1 2 (by decide) (by simp))
      (nodup_getD_ne _ hnd 1 3 (by decide) (by simp)) rfl)
  have e3 : encode ⟨[a0, a1, a2, a3, a7, a5, a6, a4, a8], 7⟩ =
      lehSwap 4 (lehSwap 5 (lehIdx 8 (lehmer [a0, a1, a2, a3, a5, a6, a7, a8]))) :=
    (rfl : encode ⟨[a0, a1, a2, a3, a7, a5, a6, a4, a8], 7⟩ =
      lehIdx 8 (lehmer [a0, a1, a2, a3, a7, a5, a6, a8])).trans
    (lehIdx_rotL [a0, a1, a2, a3] [a8] a5 a6 a7
      (nodup_getD_ne _ hnd 6 7 (by decide) (by simp))
      (nodup_getD_ne _ hnd 5 7 (by decide) (by simp)) rfl)
  have hb := bfsCell_iff R 4 _ (by omega) hy
  simp only [BoardMem, List.mem_cons, List.mem_singleton, List.not_mem_nil, or_false,
    exists_eq_or_imp, exists_eq_left, hq, e0, e1, e2, e3, Int.reduceToNat]
  rw [bfsStep_getD R 4 (by omega), hb]
  simp

theorem bfsStep_mem_b5 (R : List Nat) (a0 a1 a2 a3 a4 a5 a6 a7 a8 : Int)
    (hnd : [a0, a1, a2, a3, a4, a5, a6, a7, a8].Nodup) :
    BoardMem (bfsStep R) ⟨[a0, a1, a2, a3, a4, a5, a6, a7, a8], 5⟩ ↔
      BoardMem R ⟨[a0, a1, a2, a3, a4, a5, a6, a7, a8], 5⟩ ∨
        ∃ s ∈ PuzzleState.neighbors ⟨[a0, a1, a2, a3, a4, a5, a6, a7, a8], 5⟩, BoardMem R s := by
  rw [neighbors_b5]
  have hq : encode ⟨[a0, a1, a2, a3, a4, a5, a6, a7, a8], 5⟩ =
      lehIdx 8 (lehmer [a0, a1, a2, a3, a4, a6, a7, a8]) := rfl
  have hy : lehIdx 8 (lehmer [a0, a1, a2, a3, a4, a6, a7, a8]) < 40320 :=
    lehIdx_lehmer_lt [a0, a1, a2, a3, a4, a6, a7, a8] rfl
  have e0 : encode ⟨[a0, a1, a2, a3, a5, a4, a6, a7, a8], 4⟩ =
      lehIdx 8 (lehmer [a0, a1, a2, a3, a4, a6, a7, a8]) := rfl
  have e1 : encode ⟨[a0, a1, a5, a3, a4, a2, a6, a7, a8], 2⟩ =
      lehSwap 3 (lehSwap 2 (lehIdx 8 (lehmer [a0, a1, a2, a3, a4, a6, a7, a8]))) :=
    (rfl : encode ⟨[a0, a1, a5, a3, a4, a2, a6, a7, a8], 2⟩ =
      lehIdx 8 (lehmer [a0, a1, a3, a4, a2, a6, a7, a8])).trans
    (lehIdx_rotR [a0, a1] [a6, a7, a8] a2 a3 a4
      (nodup_getD_ne _ hnd 2 3 (by decide) (by simp))
      (nodup_getD_ne _ hnd 2 4 (by decide) (by simp)) rfl)
  have e2 : encode ⟨[a0, a1, a2, a3, a4, a8, a6, a7, a5], 8⟩ =
      lehSwap 5 (lehSwap 6 (lehIdx 8 (lehmer [a0, a1, a2, a3, a4, a6, a7, a8]))) :=
    (rfl : encode ⟨[a0, a1, a2, a3, a4, a8, a6, a7, a5], 8⟩ =
      lehIdx 8 (lehmer [a0, a1, a2, a3, a4, a8, a6, a7])).trans
    (lehIdx_rotL [a0, a1, a2, a3, a4] [] a6 a7 a8
      (nodup_getD_ne _ hnd 7 8 (by decide) (by simp))
      (nodup_getD_ne _ hnd 6 8 (by decide) (by simp)) rfl)
  have hb := bfsCell_iff R 5 _ (by omega) hy
  simp only [BoardMem, List.mem_cons, List.mem_singleton, List.not_mem_nil, or_false,
    exists_eq_or_imp, exists_eq_left, hq, e0, e1, e2, Int.reduceToNat]
  rw [bfsStep_getD R 5 (by omega), hb]
  simp

theorem bfsStep_mem_b6 (R : List Nat) (a0 a1 a2 a3 a4 a5 a6 a7 a8 : Int)
    (hnd : [a0, a1, a2, a3, a4, a5, a6, a7, a8].Nodup) :
    BoardMem (bfsStep R) ⟨[a0, a1, a2, a3, a4, a5, a6, a7, a8], 6⟩ ↔
      BoardMem R ⟨[a0, a1, a2, a3, a4, a5, a6, a7, a8], 6⟩ ∨
        ∃ s ∈ PuzzleState.neighbors ⟨[a0, a1, a2, a3, a4, a5, a6, a7, a8], 6⟩, BoardMem R s := by
  rw [neighbors_b6]
  have hq : encode ⟨[a0, a1, a2, a3, a4, a5, a6, a7, a8], 6⟩ =
      lehIdx 8 (lehmer [a0, a1, a2, a3, a4, a5, a7, a8]) := rfl
  have hy : lehIdx 8 (lehmer [a0, a1, a2, a3, a4, a5, a7, a8]) < 40320 :=
    lehIdx_lehmer_lt [a0, a1, a2, a3, a4, a5, a7, a8] rfl
  have e0 : encode ⟨[a0, a1, a2, a3, a4, a5, a7, a6, a8], 7⟩ =
      lehIdx 8 (lehmer [a0, a1, a2, a3, a4, a5, a7, a8]) := rfl
  have e1 : encode ⟨[a0, a1, a2, a6, a4, a5, a3, a7, a8], 3⟩ =
      lehSwap 4 (lehSwap 3 (lehIdx 8 (lehmer [a0, a1, a2, a3, a4, a5, a7, a8]))) :=
    (rfl : encode ⟨[a0, a1, a2, a6, a4, a5, a3, a7, a8], 3⟩ =
      lehIdx 8 (lehmer [a0, a1, a2, a4, a5, a3, a7, a8])).trans
    (lehIdx_rotR [a0, a1, a2] [a7, a8] a3 a4 a5
      (nodup_getD_ne _ hnd 3 4 (by decide) (by simp))
      (nodup_getD_ne _ hnd 3 5 (by decide) (by simp)) rfl)
  have hb := bfsCell_iff R 6 _ (by omega) hy
  simp only [BoardMem, List.mem_cons, List.mem_singleton, List.not_mem_nil, or_false,
    exists_eq_or_imp, exists_eq_left, hq, e0, e1, Int.reduceToNat]
  rw [bfsStep_getD R 6 (by omega), hb]
  simp

theorem bfsStep_mem_b7 (R : List Nat) (a0 a1 a2 a3 a4 a5 a6 a7 a8 : Int)
    (hnd : [a0, a1, a2, a3, a4, a5, a6, a7, a8].Nodup) :
    BoardMem (bfsStep R) ⟨[a0, a1, a2, a3, a4, a5, a6, a7, a8], 7⟩ ↔
      BoardMem R ⟨[a0, a1, a2, a3, a4, a5, a6, a7, a8], 7⟩ ∨
        ∃ s ∈ PuzzleState.neighbors ⟨[a0, a1, a2, a3, a4, a5, a6, a7, a8], 7⟩, BoardMem R s := by
  rw [neighbors_b7]
  have hq : encode ⟨[a0, a1, a2, a3, a4, a5, a6, a7, a8], 7⟩ =
      lehIdx 8 (lehmer [a0, a1, a2, a3, a4, a5, a6, a8]) := rfl
  have hy : lehIdx 8 (lehmer [a0, a1, a2, a3, a4, a5, a6, a8]) < 40320 :=
    lehIdx_lehmer_lt [a0, a1, a2, a3, a4, a5, a6, a8] rfl
  have e0 : encode ⟨[a0, a1, a2, a3, a4, a5, a7, a6, a8], 6⟩ =
      lehIdx 8 (lehmer [a0, a1, a2, a3, a4, a5, a6, a8]) := rfl
  have e1 : encode ⟨[a0, a1, a2, a3, a4, a5, a6, a8, a7], 8⟩ =
      lehIdx 8 (lehmer [a0, a1, a2, a3, a4, a5, a6, a8]) := rfl
  have e2 : encode ⟨[a0, a1, a2, a3, a7, a5, a6, a4, a8], 4⟩ =
      lehSwap 5 (lehSwap 4 (lehIdx 8 (lehmer [a0, a1, a2, a3, a4, a5, a6, a8]))) :=
    (rfl : encode ⟨[a0, a1, a2, a3, a7, a5, a6, a4, a8], 4⟩ =
      lehIdx 8 (lehmer [a0, a1, a2, a3, a5, a6, a4, a8])).trans
    (lehIdx_rotR [a0, a1, a2, a3] [a8] a4 a5 a6
      (nodup_getD_ne _ hnd 4 5 (by decide) (by simp))
      (nodup_getD_ne _ hnd 4 6 (by decide) (by simp)) rfl)
  have hb := bfsCell_iff R 7 _ (by omega) hy
  simp only [BoardMem, List.mem_cons, List.mem_singleton, List.not_mem_nil, or_false,
    exists_eq_or_imp, exists_eq_left, hq, e0, e1, e2, Int.reduceToNat]
  rw [bfsStep_getD R 7 (by omega), hb]
  simp

theorem bfsStep_mem_b8 (R : List Nat) (a0 a1 a2 a3 a4 a5 a6 a7 a8 : Int)
    (hnd : [a0, a1, a2, a3, a4, a5, a6, a7, a8].Nodup) :
    BoardMem (bfsStep R) ⟨[a0, a1, a2, a3, a4, a5, a6, a7, a8], 8⟩ ↔
      BoardMem R ⟨[a0, a1, a2, a3, a4, a5, a6, a7, a8], 8⟩ ∨
        ∃ s ∈ PuzzleState.neighbors ⟨[a0, a1, a2, a3, a4, a5, a6, a7, a8], 8⟩, BoardMem R s := by
  rw [neighbors_b8]
  have hq : encode ⟨[a0, a1, a2, a3, a4, a5, a6, a7, a8], 8⟩ =
      lehIdx 8 (lehmer [a0, a1, a2, a3, a4, a5, a6, a7]) := rfl
  have hy : lehIdx 8 (lehmer [a0, a1, a2, a3, a4, a5, a6, a7]) < 40320 :=
    lehIdx_lehmer_lt [a0, a1, a2, a3, a4, a5, a6, a7] rfl
  have e0 : encode ⟨[a0, a1, a2, a3, a4, a5, a6, a8, a7], 7⟩ =
      lehIdx 8 (lehmer [a0, a1, a2, a3, a4, a5, a6, a7]) := rfl
  have e1 : encode ⟨[a0, a1, a2, a3, a4, a8, a6, a7, a5], 5⟩ =
      lehSwap 6 (lehSwap 5 (lehIdx 8 (lehmer [a0, a1, a2, a3, a4, a5, a6, a7]))) :=
    (rfl : encode ⟨[a0, a1, a2, a3, a4, a8, a6, a7, a5], 5⟩ =
      lehIdx 8 (lehmer [a0, a1, a2, a3, a4, a6, a7, a5])).trans
    (lehIdx_rotR [a0, a1, a2, a3, a4] [] a5 a6 a7
      (nodup_getD_ne _ hnd 5 6 (by decide) (by simp))
      (nodup_getD_ne _ hnd 5 7 (by decide) (by simp)) rfl)
  have hb := bfsCell_iff R 8 _ (by omega) hy
  simp only [BoardMem, List.mem_cons, List.mem_singleton, List.not_mem_nil, or_false,
    exists_eq_or_imp, exists_eq_left, hq, e0, e1, Int.reduceToNat]
  rw [bfsStep_getD R 8 (by omega), hb]
  simp

/-- One breadth-first step adds exactly the boards that have a neighbour in the
set. -/
theorem bfsStep_mem (R : List Nat) (q : PuzzleState) (hq : Valid q) :
    BoardMem (bfsStep R) q ↔ BoardMem R q ∨ ∃ s ∈ q.neighbors, BoardMem R s := by
  obtain ⟨a0, a1, a2, a3, a4, a5, a6, a7, a8, b, rfl, h0, h9, hnd, -, -⟩ := valid_cases hq
  interval_cases b
  · exact bfsStep_mem_b0 R _ _ _ _ _ _ _ _ _ hnd
  · exact bfsStep_mem_b1 R _ _ _ _ _ _ _ _ _ hnd
  · exact bfsStep_mem_b2 R _ _ _ _ _ _ _ _ _ hnd
  · exact bfsStep_mem_b3 R _ _ _ _ _ _ _ _ _ hnd
  · exact bfsStep_mem_b4 R _ _ _ _ _ _ _ _ _ hnd
  · exact bfsStep_mem_b5 R _ _ _ _ _ _ _ _ _ hnd
  · exact bfsStep_mem_b6 R _ _ _ _ _ _ _ _ _ hnd
  · exact bfsStep_mem_b7 R _ _ _ _ _ _ _ _ _ hnd
  · exact bfsStep_mem_b8 R _ _ _ _ _ _ _ _ _ hnd

/-! ## The bound of 31 moves: the breadth-first search from the goal -/

theorem bfsIter_succ (k : Nat) (R : List Nat) : bfsIter (k + 1) R = bfsStep (bfsIter k R) := by
  induction k generalizing R with
  | zero => rfl
  | succ k ih =>
    show bfsIter (k + 1) (bfsStep R) = bfsStep (bfsIter k (bfsStep R))
    exact ih (bfsStep R)

theorem bfsIter_mono (k : Nat) (R : List Nat) (q : PuzzleState) (hq : Valid q)
    (h : BoardMem R q) : BoardMem (bfsIter k R) q := by
  induction k with
  | zero => exact h
  | succ k ih =>
    rw [bfsIter_succ]
    exact (bfsStep_mem _ q hq).mpr (Or.inl ih)

theorem lehIdx_zero (d0 d1 d2 d3 d4 d5 d6 d7 : Nat)
    (h : lehIdx 8 [d0, d1, d2, d3, d4, d5, d6, d7] = 0) :
    d0 = 0 ∧ d1 = 0 ∧ d2 = 0 ∧ d3 = 0 ∧ d4 = 0 ∧ d5 = 0 ∧ d6 = 0 := by
  simp only [lehIdx, Nat.reduceSub] at h
  omega

/-- The start set of the search holds the goal board only. -/
theorem bfsStart_mem (q : PuzzleState) (hq : Valid q) (h : BoardMem bfsStart q) :
    q.isGoal = true := by
  obtain ⟨a0, a1, a2, a3, a4, a5, a6, a7, a8, b, rfl, h0, h9, hnd, hr, hz⟩ := valid_cases hq
  have hbit : ∀ x, Nat.testBit 1 x = true → x = 0 := by
    intro x hx
    by_contra hne
    obtain ⟨y, rfl⟩ := Nat.exists_eq_succ_of_ne_zero hne
    simp [Nat.testBit_succ] at hx
  unfold BoardMem at h
  interval_cases b
  all_goals simp only [bfsStart, Int.reduceToNat, List.getD_cons_zero, List.getD_cons_succ,
    Nat.zero_testBit, Bool.false_eq_true] at h
  have he := hbit _ h
  have hz8 : a8 = 0 := hz
  obtain ⟨c0, c1, c2, c3, c4, c5, c6⟩ := lehIdx_zero _ _ _ _ _ _ _ _ he
  have n01 := nodup_getD_ne _ hnd 0 1 (by decide) (by simp)
  have n12 := nodup_getD_ne _ hnd 1 2 (by decide) (by simp)
  have n23 := nodup_getD_ne _ hnd 2 3 (by decide) (by simp)
  have n34 := nodup_getD_ne _ hnd 3 4 (by decide) (by simp)
  have n45 := nodup_getD_ne _ hnd 4 5 (by decide) (by simp)
  have n56 := nodup_getD_ne _ hnd 5 6 (by decide) (by simp)
  have n67 := nodup_getD_ne _ hnd 6 7 (by decide) (by simp)
  have n08 := nodup_getD_ne _ hnd 0 8 (by decide) (by simp)
  simp only [List.getD_cons_zero, List.getD_cons_succ] at n01 n12 n23 n34 n45 n56 n67 n08
  have l01 := List.countP_eq_zero.mp c0 a1 (by simp)
  have l12 := List.countP_eq_zero.mp c1 a2 (by simp)
  have l23 := List.countP_eq_zero.mp c2 a3 (by simp)
  have l34 := List.countP_eq_zero.mp c3 a4 (by simp)
  have l45 := List.countP_eq_zero.mp c4 a5 (by simp)
  have l56 := List.countP_eq_zero.mp c5 a6 (by simp)
  have l67 := List.countP_eq_zero.mp c6 a7 (by simp)
  simp only [decide_eq_true_eq, not_lt] at l01 l12 l23 l34 l45 l56 l67
  have r0 := hr a0 (by simp)
  have r7 := hr a7 (by simp)
  have s01 : a0 < a1 := lt_of_le_of_ne l01 n01
  have s12 : a1 < a2 := lt_of_le_of_ne l12 n12
  have s23 : a2 < a3 := lt_of_le_of_ne l23 n23
  have s34 : a3 < a4 := lt_of_le_of_ne l34 n34
  have s45 : a4 < a5 := lt_of_le_of_ne l45 n45
  have s56 : a5 < a6 := lt_of_le_of_ne l56 n56
  have s67 : a6 < a7 := lt_of_le_of_ne l67 n67
  have p0 : 0 < a0 := lt_of_le_of_ne r0.1 (by rw [← hz8]; exact Ne.symm n08)
  have e0 : a0 = 1 := by omega
  have e1 : a1 = 2 := by omega
  have e2 : a2 = 3 := by omega
  have e3 : a3 = 4 := by omega
  have e4 : a4 = 5 := by omega
  have e5 : a5 = 6 := by omega
  have e6 : a6 = 7 := by omega
  have e7 : a7 = 8 := by omega
  subst e0 e1 e2 e3 e4 e5 e6 e7 hz8
  rfl

/-- Soundness of the search: a valid board in the set after `k` steps reaches a
goal board in at most `k` moves. -/
theorem bfs_sound (k : Nat) : ∀ q : PuzzleState, Valid q → BoardMem (bfsIter k bfsStart) q →
    ∃ m, m ≤ k ∧ ReachesGoalIn q m := by
  induction k with
  | zero =>
    intro q hq h
    exact ⟨0, le_refl 0, [q], q, isPath_singleton q, bfsStart_mem q hq h, rfl⟩
  | succ k ih =>
    intro q hq h
    rw [bfsIter_succ] at h
    rcases (bfsStep_mem _ q hq).mp h with h | ⟨s, hs, h⟩
    · obtain ⟨m, hm, hr⟩ := ih q hq h
      exact ⟨m, by omega, hr⟩
    · obtain ⟨m, hm, l, g, hl, hg, hlen⟩ := ih s (neighbors_valid hq hs) h
      obtain ⟨l', rfl⟩ := isPath_head hl
      exact ⟨m + 1, by omega, q :: s :: l', g, isPath_cons hs hl, hg, by
        simp only [List.length_cons] at hlen ⊢; omega⟩

set_option maxRecDepth 1000000 in
/-- After 31 steps the search from the goal board finds nothing new. -/
theorem bfs_closed : bfsStep (bfsIter 31 bfsStart) = bfsIter 31 bfsStart := by decide!

/-- Completeness of the search: every valid board from which a goal board can be
reached is in the set after 31 steps. -/
theorem bfs_complete (l : List PuzzleState) : ∀ s g : PuzzleState, IsPath l s g → Valid s →
    g.isGoal = true → BoardMem (bfsIter 31 bfsStart) s := by
  induction l with
  | nil =>
    intro s g h
    exact absurd (isPath_length_pos h) (by simp)
  | cons p l ih =>
    intro s g h hv hg
    cases l with
    | nil =>
      obtain ⟨h1, h2, -⟩ := h
      simp only [List.head?_cons, Option.some.injEq] at h1
      simp only [List.getLast?_singleton, Option.some.injEq] at h2
      subst h1 h2
      have hgoal : p.tiles = goal := by simpa [PuzzleState.isGoal] using hg
      have hp : p = ⟨goal, 8⟩ := valid_eq_of_tiles hv (by decide) hgoal
      subst hp
      exact bfsIter_mono 31 bfsStart _ hv rfl
    | cons p' rest =>
      obtain ⟨rfl, hmem, hrest⟩ := isPath_cons_cons h
      have h' := ih p' g hrest (neighbors_valid hv hmem) hg
      rw [← bfs_closed]
      exact (bfsStep_mem _ s hv).mpr (Or.inr ⟨p', hmem, h'⟩)

/-- Every valid board with an even number of inversions reaches a goal board in
at most 31 moves. -/
theorem reaches_within_31 {s : PuzzleState} (hv : Valid s) (hs : isSolvable s = true) :
    ∃ m, m ≤ 31 ∧ ReachesGoalIn s m := by
  obtain ⟨m0, l, g, hl, hg, -⟩ := reachable_of_isSolvable hv hs
  exact bfs_sound 31 s hv (bfs_complete l s g hl hv hg)

/-- C19: no solvable board needs more than 31 moves, so a ceiling of at least 31
is never the reason for a no-solution report: for every valid board on which
`isSolvable` is true there is a move chain of at most 31 moves to a goal board,
and `solveBacktracking` with any ceiling `maxDepth ≥ 31` returns a non-empty
sequence. -/
theorem solveBacktracking_ceiling_31 (start : PuzzleState) (maxDepth : Int)
    (hv : Valid start) (hs : isSolvable start = true) (hc : 31 ≤ maxDepth) :
    (∃ m, m ≤ 31 ∧ ReachesGoalIn start m) ∧
      ∃ r, solveBacktracking start maxDepth = some r ∧ r ≠ [] := by
  obtain ⟨m, hm, hreach⟩ := reaches_within_31 hv hs
  refine ⟨⟨m, hm, hreach⟩, ?_⟩
  obtain ⟨r, hr⟩ := solveBacktrackingLoop_total start (List.range (maxDepth + 1).toNat)
  refine ⟨r, hr, ?_⟩
  intro hnil
  obtain ⟨r'', hr'', hf''⟩ := (solveBacktrackingLoop_spec start _ r hr).2 hnil m
    (List.mem_range.mpr (by omega))
  exact dfs_fail_no_path hv hr'' hf'' (le_refl m) hreach

/-- C19, witness: the board 8 6 7 2 5 4 3 0 1 is valid and solvable, so it has a
solution of at most 31 moves and `solveBacktracking` with the ceiling 50 of
`main` returns a non-empty sequence. -/
theorem solveBacktracking_ceiling_31_witness :
    Valid (PuzzleState.ofTiles [8, 6, 7, 2, 5, 4, 3, 0, 1]) ∧
      isSolvable (PuzzleState.ofTiles [8, 6, 7, 2, 5, 4, 3, 0, 1]) = true ∧
      (∃ m, m ≤ 31 ∧ ReachesGoalIn (PuzzleState.ofTiles [8, 6, 7, 2, 5, 4, 3, 0, 1]) m) ∧
      ∃ r, solveBacktracking (PuzzleState.ofTiles [8, 6, 7, 2, 5, 4, 3, 0, 1]) 50 = some r ∧
        r ≠ [] :=
  ⟨by decide, by decide,
    solveBacktracking_ceiling_31 (PuzzleState.ofTiles [8, 6, 7, 2, 5, 4, 3, 0, 1]) 50
      (by decide) (by decide) (by decide)⟩

/-! ## The ceiling and the `int` counter of `solveBacktracking` -/

/-- Below the largest `int` the loop with the `int` counter is the loop over the
list of depth limits. -/
theorem solveBacktrackingIntLoop_eq (start : PuzzleState) (maxDepth : Int)
    (hmax : maxDepth < intMax) :
    ∀ j k n : Nat, k + j = (maxDepth + 1).toNat → j < n →
      solveBacktrackingIntLoop start maxDepth n (k : Int) =
        solveBacktrackingLoop start (List.range' k j) := by
  simp only [intMax] at hmax
  intro j
  induction j with
  | zero =>
    intro k n hk hn
    obtain ⟨n', rfl⟩ : ∃ n', n = n' + 1 := ⟨n - 1, by omega⟩
    rw [solveBacktrackingIntLoop, if_neg (by omega)]
    rfl
  | succ j ih =>
    intro k n hk hn
    obtain ⟨n', rfl⟩ : ∃ n', n = n' + 1 := ⟨n - 1, by omega⟩
    rw [solveBacktrackingIntLoop, if_pos (by omega), List.range'_succ, solveBacktrackingLoop,
      Int.toNat_ofNat]
    cases dfs (k + 1) start [] [start] 0 (k : Int) with
    | none => rfl
    | some r =>
      simp only
      by_cases hf : r.found = true
      · rw [if_pos hf, if_pos hf]
      · rw [if_neg hf, if_neg hf, if_neg (by simp only [intMax]; omega)]
        have := ih (k + 1) n' (by omega) (by omega)
        rw [Nat.cast_add, Nat.cast_one] at this
        exact this

/-- For every ceiling below the largest `int`, `solveBacktrackingInt` is
`solveBacktracking`. -/
theorem solveBacktrackingInt_eq (start : PuzzleState) (maxDepth : Int)
    (hmax : maxDepth < intMax) :
    solveBacktrackingInt start maxDepth = solveBacktracking start maxDepth := by
  have h := solveBacktrackingIntLoop_eq start maxDepth hmax (maxDepth + 1).toNat 0 2147483649
    (by omega) (by simp only [intMax] at hmax; omega)
  rw [Nat.cast_zero, ← List.range_eq_range'] at h
  exact h

/-- When the sweep at limit `k + j` is the first to succeed, the loop with the
`int` counter entered at `k` returns its path. -/
theorem solveBacktrackingIntLoop_found (start : PuzzleState) (maxDepth : Int) :
    ∀ (j k n : Nat) (r : DfsResult),
      (∀ L, k ≤ L → L < k + j → ∃ r', dfs (L + 1) start [] [start] 0 (L : Int) = some r' ∧
        r'.found = false) →
      dfs (k + j + 1) start [] [start] 0 ((k + j : Nat) : Int) = some r → r.found = true →
      ((k + j : Nat) : Int) ≤ maxDepth → ((k + j : Nat) : Int) < intMax → j < n →
      solveBacktrackingIntLoop start maxDepth n (k : Int) = some r.path := by
  intro j
  induction j with
  | zero =>
    intro k n r _ hd hf hle _ hn
    obtain ⟨n', rfl⟩ : ∃ n', n = n' + 1 := ⟨n - 1, by omega⟩
    simp only [Nat.add_zero] at hd hle
    rw [solveBacktrackingIntLoop, if_pos hle, Int.toNat_ofNat, hd]
    simp only
    rw [if_pos hf]
  | succ j ih =>
    intro k n r hpre hd hf hle hlt hn
    obtain ⟨n', rfl⟩ : ∃ n', n = n' + 1 := ⟨n - 1, by omega⟩
    obtain ⟨r', hr', hf'⟩ := hpre k (le_refl k) (by omega)
    rw [solveBacktrackingIntLoop, if_pos (by omega), Int.toNat_ofNat, hr']
    simp only
    rw [if_neg (by simp [hf']), if_neg (by simp only [intMax] at hlt ⊢; omega)]
    have e : k + (j + 1) = k + 1 + j := by omega
    rw [e] at hd hle hlt
    have := ih (k + 1) n' r (fun L h1 h2 => hpre L (by omega) (by omega)) hd hf hle hlt
      (by omega)
    rw [Nat.cast_add, Nat.cast_one] at this
    exact this

/-- On a board with an odd number of inversions every sweep fails. -/
theorem dfs_fail_of_unsolvable {start : PuzzleState} (hv : Valid start)
    (hs : isSolvable start = false) (L : Nat) :
    ∃ r, dfs (L + 1) start [] [start] 0 (L : Int) = some r ∧ r.found = false := by
  obtain ⟨r, hr⟩ := dfs_total (L + 1) start [] [start] 0 (L : Int) (by omega)
  refine ⟨r, hr, ?_⟩
  by_contra hf
  have hf' : r.found = true := by simpa using hf
  obtain ⟨ext, g, -, hip, hg, -⟩ := (dfs_post _ _ _ _ _ _ _ (by omega) hr).1 hf'
  have := isSolvable_path hip hv
  rw [isSolvable_of_isGoal hg, hs] at this
  exact absurd this (by simp)

/-- When every sweep fails and the ceiling is the largest `int`, the loop with
the `int` counter reaches the overflow of `++depthLim`, whatever the bound on
the number of tests. -/
theorem solveBacktrackingIntLoop_overflow (start : PuzzleState) (maxDepth : Int)
    (hmax : intMax ≤ maxDepth)
    (hfail : ∀ L : Nat, ∃ r, dfs (L + 1) start [] [start] 0 (L : Int) = some r ∧
      r.found = false) :
    ∀ n k : Nat, (k : Int) ≤ intMax →
      solveBacktrackingIntLoop start maxDepth n (k : Int) = none := by
  intro n
  induction n with
  | zero => intro k _; rfl
  | succ n ih =>
    intro k hk
    obtain ⟨r, hr, hf⟩ := hfail k
    rw [solveBacktrackingIntLoop, if_pos (by omega), Int.toNat_ofNat, hr]
    simp only
    rw [if_neg (by simp [hf])]
    by_cases he : (k : Int) = intMax
    · rw [if_pos he]
    · rw [if_neg he]
      have := ih (k + 1) (by simp only [intMax] at hk he ⊢; omega)
      rw [Nat.cast_add, Nat.cast_one] at this
      exact this

/-- Whenever `solveBacktracking` returns a path, `solveBacktrackingInt` returns
the same path, for every ceiling. -/
theorem solveBacktrackingInt_of_nonempty {start : PuzzleState} {maxDepth : Int}
    {r : List PuzzleState} (hv : Valid start)
    (h : solveBacktracking start maxDepth = some r) (hne : r ≠ []) :
    solveBacktrackingInt start maxDepth = some r := by
  obtain ⟨pre, L, post, r', hsplit, hpre, hdfs, hf, hpath⟩ :=
    (solveBacktrackingLoop_spec start _ r h).1 hne
  obtain ⟨hLn, hk⟩ := range_split hsplit
  obtain ⟨g, hp, hg, -, -⟩ := solveBacktracking_nonempty hv h hne
  have hsolv : isSolvable start = true := by
    rw [← isSolvable_path hp hv]; exact isSolvable_of_isGoal hg
  obtain ⟨m, hm, hreach⟩ := reaches_within_31 hv hsolv
  have hLm : L ≤ m := by
    by_contra hlt
    obtain ⟨r'', hr'', hf''⟩ := hpre m (hk m (by omega))
    exact dfs_fail_no_path hv hr'' hf'' (le_refl m) hreach
  have := solveBacktrackingIntLoop_found start maxDepth L 0 2147483649 r'
    (fun L' _ h2 => hpre L' (hk L' (by omega))) (by rw [Nat.zero_add]; exact hdfs) hf
    (by omega) (by simp only [intMax]; omega) (by omega)
  rw [Nat.cast_zero, hpath] at this
  exact this

/-- The two models of `solveBacktracking` differ in one case only: the ceiling
is at least the largest `int` and the board has an odd number of inversions, where
the loop with the `int` counter has no result. -/
theorem solveBacktrackingInt_agree (start : PuzzleState) (maxDepth : Int) (hv : Valid start) :
    solveBacktrackingInt start maxDepth = solveBacktracking start maxDepth ∨
      (intMax ≤ maxDepth ∧ isSolvable start = false ∧
        solveBacktrackingInt start maxDepth = none) := by
  by_cases hmax : maxDepth < intMax
  · exact Or.inl (solveBacktrackingInt_eq start maxDepth hmax)
  · have hmax' : intMax ≤ maxDepth := by omega
    by_cases hs : isSolvable start = true
    · left
      obtain ⟨m, hm, hreach⟩ := reaches_within_31 hv hs
      obtain ⟨r, hr⟩ := solveBacktrackingLoop_total start (List.range (maxDepth + 1).toNat)
      have hne : r ≠ [] := by
        intro hnil
        obtain ⟨r'', hr'', hf''⟩ := (solveBacktrackingLoop_spec start _ r hr).2 hnil m
          (List.mem_range.mpr (by simp only [intMax] at hmax'; omega))
        exact dfs_fail_no_path hv hr'' hf'' (le_refl m) hreach
      rw [solveBacktrackingInt_of_nonempty hv hr hne]
      exact hr.symm
    · right
      have hs' : isSolvable start = false := by simpa using hs
      exact ⟨hmax', hs', by
        have := solveBacktrackingIntLoop_overflow start maxDepth hmax'
          (dfs_fail_of_unsolvable hv hs') 2147483649 0 (by simp [intMax])
        rw [Nat.cast_zero] at this
        exact this⟩

/-- C7, as the code has it: for a valid start board and every integer ceiling
below the largest `int` (negative ones included), and for the largest `int` too
when the board is solvable, `solveBacktracking` returns, in the model with the
`int` counter and in the one with the unbounded counter alike, and its result is
the empty sequence exactly when no move chain of at most `maxDepth` moves leads
from the start to a goal board. -/
theorem solveBacktracking_empty_iff (start : PuzzleState) (maxDepth : Int)
    (hv : Valid start) (hmax : maxDepth < intMax ∨ isSolvable start = true) :
    ∃ r, solveBacktrackingInt start maxDepth = some r ∧
      solveBacktracking start maxDepth = some r ∧
      (r = [] ↔ ¬ ∃ m : Nat, (m : Int) ≤ maxDepth ∧ ReachesGoalIn start m) := by
  have hagree : solveBacktrackingInt start maxDepth = solveBacktracking start maxDepth := by
    rcases hmax with hmax | hs
    · exact solveBacktrackingInt_eq start maxDepth hmax
    · rcases solveBacktrackingInt_agree start maxDepth hv with h | ⟨-, h, -⟩
      · exact h
      · rw [hs] at h
        exact absurd h (by simp)
  obtain ⟨r, hr⟩ := solveBacktrackingLoop_total start (List.range (maxDepth + 1).toNat)
  refine ⟨r, by rw [hagree]; exact hr, hr, ?_, ?_⟩
  · rintro hnil ⟨m, hm, hreach⟩
    obtain ⟨r'', hr'', hf''⟩ := (solveBacktrackingLoop_spec start _ r hr).2 hnil m
      (List.mem_range.mpr (by omega))
    exact dfs_fail_no_path hv hr'' hf'' (le_refl m) hreach
  · intro hno
    by_contra hne
    obtain ⟨g, hp, hg, hlen, -⟩ := solveBacktracking_nonempty hv hr hne
    apply hno
    have : r.length ≠ 0 := fun h0 => hne (List.length_eq_zero.mp h0)
    exact ⟨r.length - 1, by omega, r, g, hp, hg, by omega⟩

/-- C7, witness: start 8 1 2 7 0 3 6 5 4 with ceiling 5 returns the empty
sequence although `isSolvable` is true, so no chain of at most 5 moves solves
it. -/
theorem solveBacktracking_empty_iff_witness :
    isSolvable (PuzzleState.ofTiles [8, 1, 2, 7, 0, 3, 6, 5, 4]) = true ∧
      solveBacktrackingInt (PuzzleState.ofTiles [8, 1, 2, 7, 0, 3, 6, 5, 4]) 5 = some [] ∧
      solveBacktracking (PuzzleState.ofTiles [8, 1, 2, 7, 0, 3, 6, 5, 4]) 5 = some [] ∧
      ¬ ∃ m : Nat, (m : Int) ≤ 5 ∧
        ReachesGoalIn (PuzzleState.ofTiles [8, 1, 2, 7, 0, 3, 6, 5, 4]) m := by
  have hrun : solveBacktracking (PuzzleState.ofTiles [8, 1, 2, 7, 0, 3, 6, 5, 4]) 5 = some [] := by
    decide
  obtain ⟨r, hi, hr, hiff⟩ :=
    solveBacktracking_empty_iff (PuzzleState.ofTiles [8, 1, 2, 7, 0, 3, 6, 5, 4]) 5 (by decide)
      (Or.inl (by decide))
  rw [hrun] at hr
  simp only [Option.some.injEq] at hr
  subst hr
  exact ⟨by decide, hi, hrun, hiff.mp rfl⟩

/-- C7, counterexample: on the valid board 1 2 3 4 5 6 8 7 0, which no move
chain takes to the goal, the call with the ceiling `INT_MAX = 2147483647` does
not return the empty sequence: the loop test `depthLim <= maxDepth` never fails
and `++depthLim` overflows, so the call has no result, whatever bound the loop is
given.  The equivalence of the claim fails there. -/
theorem solveBacktracking_int_max_no_result :
    Valid (PuzzleState.ofTiles [1, 2, 3, 4, 5, 6, 8, 7, 0]) ∧
      (¬ ∃ m : Nat, (m : Int) ≤ 2147483647 ∧
        ReachesGoalIn (PuzzleState.ofTiles [1, 2, 3, 4, 5, 6, 8, 7, 0]) m) ∧
      solveBacktrackingInt (PuzzleState.ofTiles [1, 2, 3, 4, 5, 6, 8, 7, 0]) 2147483647 = none ∧
      (∀ n : Nat, solveBacktrackingIntLoop (PuzzleState.ofTiles [1, 2, 3, 4, 5, 6, 8, 7, 0])
        2147483647 n 0 = none) ∧
      ¬ ∃ r, solveBacktrackingInt (PuzzleState.ofTiles [1, 2, 3, 4, 5, 6, 8, 7, 0])
          2147483647 = some r ∧
        (r = [] ↔ ¬ ∃ m : Nat, (m : Int) ≤ 2147483647 ∧
          ReachesGoalIn (PuzzleState.ofTiles [1, 2, 3, 4, 5, 6, 8, 7, 0]) m) := by
  have hv : Valid (PuzzleState.ofTiles [1, 2, 3, 4, 5, 6, 8, 7, 0]) := by decide
  have hs : isSolvable (PuzzleState.ofTiles [1, 2, 3, 4, 5, 6, 8, 7, 0]) = false := by decide
  have hloop : ∀ n : Nat, solveBacktrackingIntLoop
      (PuzzleState.ofTiles [1, 2, 3, 4, 5, 6, 8, 7, 0]) 2147483647 n 0 = none := by
    intro n
    have := solveBacktrackingIntLoop_overflow (PuzzleState.ofTiles [1, 2, 3, 4, 5, 6, 8, 7, 0])
      2147483647 (by simp [intMax]) (dfs_fail_of_unsolvable hv hs) n 0 (by simp [intMax])
    rw [Nat.cast_zero] at this
    exact this
  have hnone : solveBacktrackingInt (PuzzleState.ofTiles [1, 2, 3, 4, 5, 6, 8, 7, 0])
      2147483647 = none := hloop 2147483649
  refine ⟨hv, ?_, hnone, hloop, ?_⟩
  · rintro ⟨m, -, l, g, hl, hg, -⟩
    have := isSolvable_path hl hv
    rw [isSolvable_of_isGoal hg, hs] at this
    exact absurd this (by simp)
  · rintro ⟨r, hr, -⟩
    rw [hnone] at hr
    exact absurd hr (by simp)

end Puzzle
